import Mathlib

/-!
Verification of the PMaP course-prerequisite planner (`src/main.py`).

The model is a shallow embedding of the Python code: Python `dict`s become
association lists (`List (String × α)`) with insertion-order semantics
(assignment updates in place, new keys are appended), Python `set`s become
duplicate-free lists, and the `while`/recursive loops of `topo_sort` become
fuel-indexed structural recursions whose fuel is chosen (and proved) large
enough that the out-of-fuel branch is never taken on the states the program
actually reaches.

String primitives (`upper`, `strip`, lexicographic comparison) are
re-implemented structurally over `String.data` so that they compute by
kernel reduction; they agree with Python's behaviour on the ASCII course
codes the program manipulates.
-/

set_option maxRecDepth 4000

namespace PMaP

/-! ## String primitives -/

/-- Per-character uppercasing of a string, Python's `str.upper`. -/
def upperStr (s : String) : String :=
  ⟨s.data.map Char.toUpper⟩

/-- Strip leading and trailing whitespace, Python's `str.strip`. -/
def stripStr (s : String) : String :=
  ⟨((s.data.dropWhile Char.isWhitespace).reverse.dropWhile Char.isWhitespace).reverse⟩

/-- The normalization `code.strip().upper()` applied by the mutating operations. -/
def norm (s : String) : String :=
  upperStr (stripStr s)

/-- Lexicographic comparison of character lists by code point, Python's `str <=`. -/
def lexLe : List Char → List Char → Bool
  | [], _ => true
  | _ :: _, [] => false
  | c :: cs, d :: ds =>
    if c.toNat < d.toNat then true
    else if d.toNat < c.toNat then false
    else lexLe cs ds

/-- Lexicographic string comparison by code point. -/
def sLeB (a b : String) : Bool :=
  lexLe a.data b.data

/-- The propositional form of `sLeB`, used with `List.insertionSort`. -/
def strle (a b : String) : Prop :=
  sLeB a b = true

instance : DecidableRel strle := fun a b => inferInstanceAs (Decidable (sLeB a b = true))

/-- Python's `sorted` on a list of strings. -/
def sortStr (l : List String) : List String :=
  List.insertionSort strle l

/-! ## Dictionary and set primitives

Python `dict`s preserve insertion order: assignment to an existing key keeps
its position, a new key is appended at the end.  Python `set`s are modelled
as duplicate-free lists; only membership, insertion, removal and `sorted`
are used on them, so the list order is irrelevant to every observable. -/

/-- Keys of an association list, in order. -/
def dkeys {α : Type} (d : List (String × α)) : List String :=
  d.map Prod.fst

/-- Lookup in an association list (`d[k]` / `d.get(k)`). -/
def dfind {α : Type} : List (String × α) → String → Option α
  | [], _ => none
  | e :: rest, k => if e.1 = k then some e.2 else dfind rest k

/-- Lookup with default (`d.get(k, v0)`). -/
def dgetd {α : Type} (d : List (String × α)) (k : String) (v0 : α) : α :=
  (dfind d k).getD v0

/-- Assignment `d[k] = v`: update in place, else append. -/
def dset {α : Type} : List (String × α) → String → α → List (String × α)
  | [], k, v => [(k, v)]
  | e :: rest, k, v => if e.1 = k then (k, v) :: rest else e :: dset rest k v

/-- `d.setdefault(k, v)`. -/
def dsetd {α : Type} (d : List (String × α)) (k : String) (v : α) : List (String × α) :=
  if (dfind d k).isSome then d else d ++ [(k, v)]

/-- Set insertion (`s.add(x)`): no-op when present, else append. -/
def sadd (s : List String) (x : String) : List String :=
  if x ∈ s then s else s ++ [x]

/-- Set removal (`s.remove(x)`) on a duplicate-free list. -/
def sdel : List String → String → List String
  | [], _ => []
  | y :: ys, x => if y = x then ys else y :: sdel ys x

/-- `d[k].add(v)` on a `defaultdict(set)`: find or create the entry for `k`,
then insert `v` into its set. -/
def madd : List (String × List String) → String → String → List (String × List String)
  | [], k, v => [(k, [v])]
  | e :: rest, k, v => if e.1 = k then (k, sadd e.2 v) :: rest else e :: madd rest k v

/-- `_ = d[k]` on a `defaultdict(set)`: create an empty entry when absent. -/
def dtouch (d : List (String × List String)) (k : String) : List (String × List String) :=
  if (dfind d k).isSome then d else d ++ [(k, [])]

/-! ## The data model (`Course`, `PMaPModel`, serialized form) -/

/-- `Course` dataclass: code, display name, credit weight. -/
structure Course where
  code : String
  name : String
  credits : Int
deriving Repr, DecidableEq

/-- One entry of the `courses` list in the serialized (JSON) form. -/
structure CourseJson where
  code : String
  name : String
  credits : Int
deriving Repr, DecidableEq

/-- The dict produced by `to_dict` / consumed by `from_dict`. -/
structure SerializedModel where
  courses : List CourseJson
  prerequisites : List (String × String)
  passed : List String
deriving Repr, DecidableEq

/-- `PMaPModel` dataclass: course catalog, prerequisite mapping
(course code ↦ set of prerequisite codes), completed set. -/
structure PMaPModel where
  courses : List (String × Course)
  prereqs : List (String × List String)
  passed : List String
deriving Repr, DecidableEq

namespace PMaPModel

/-- The empty model `PMaPModel()`. -/
def empty : PMaPModel :=
  { courses := [], prereqs := [], passed := [] }

/-- The recurring snippet `if x not in self.courses: self.courses[x] =
Course(x, x, 0)`: auto-create a zero-credit placeholder named after its
own code. -/
def ensureCourse (m : PMaPModel) (x : String) : PMaPModel :=
  if (dfind m.courses x).isSome then m
  else { m with courses := dset m.courses x ⟨x, x, 0⟩ }

/-- `to_dict`. -/
def to_dict (m : PMaPModel) : SerializedModel :=
  { courses := m.courses.map fun e => ⟨e.2.code, e.2.name, e.2.credits⟩
    prerequisites := m.prereqs.flatMap fun ce => ce.2.map fun p => (p, ce.1)
    passed := sortStr m.passed }

/-- `from_dict`.  The `set(...)` built for `passed` is modelled as
first-occurrence deduplication; `passed` is only read through membership
and `sorted`, so the representation order is unobservable. -/
def from_dict (data : SerializedModel) : PMaPModel :=
  let m1 : PMaPModel :=
    { empty with
      courses := data.courses.foldl
        (fun cs c => dset cs (upperStr c.code) ⟨upperStr c.code, c.name, c.credits⟩) [] }
  let m2 : PMaPModel := data.prerequisites.foldl
    (fun m pc =>
      let p := upperStr pc.1
      let c := upperStr pc.2
      ensureCourse (ensureCourse { m with prereqs := madd m.prereqs c p } p) c) m1
  { m2 with passed := (data.passed.map upperStr).foldl sadd [] }

/-- `add_course`. -/
def add_course (m : PMaPModel) (code name : String) (credits : Int) : PMaPModel :=
  let code := norm code
  { m with
    courses := dset m.courses code ⟨code, stripStr name, credits⟩
    prereqs := dtouch m.prereqs code }

/-- `add_prereq`: rejects a self-prerequisite, auto-creates placeholder
courses for unknown codes, then records the edge. -/
def add_prereq (m : PMaPModel) (prereq course : String) : Except String PMaPModel :=
  let p := norm prereq
  let c := norm course
  if c = p then .error "Una materia no puede ser prerrequisito de si misma."
  else
    let m := ensureCourse (ensureCourse m p) c
    .ok { m with prereqs := madd m.prereqs c p }

/-- `mark_passed`: rejects a code missing from the catalog. -/
def mark_passed (m : PMaPModel) (code : String) : Except String PMaPModel :=
  let code := norm code
  if (dfind m.courses code).isSome then
    .ok { m with passed := sadd m.passed code }
  else .error ("Materia desconocida: " ++ code)

/-- `build_graph`: adjacency (prereq ↦ dependents) and indegree maps. -/
def build_graph (m : PMaPModel) :
    List (String × List String) × List (String × Int) :=
  let adjacency : List (String × List String) := m.courses.map fun e => (e.1, [])
  let indegree : List (String × Int) := m.courses.map fun e => (e.1, 0)
  let ai := m.prereqs.foldl
    (fun (ai : List (String × List String) × List (String × Int)) ce =>
      ce.2.foldl
        (fun ai p =>
          let a := madd ai.1 p ce.1
          let i := dset ai.2 ce.1 (dgetd ai.2 ce.1 0 + 1)
          (a, dsetd i p 0)) ai)
    (adjacency, indegree)
  m.courses.foldl (fun ai e => (dtouch ai.1 e.1, dsetd ai.2 e.1 0)) ai

end PMaPModel

/-! ## Kahn's algorithm

The Python `while q:` loop is a fuel-indexed structural recursion.  A pop
removes one queue element and each processed edge lowers the measure
`queue length + Σ max(indegree, 0)` by at least the number of enqueues it
causes, so that measure bounds the number of iterations; `topo_sort` passes
it as the fuel, making the out-of-fuel branch unreachable. -/

/-- `Σ max(d, 0)` over the values of an indegree map. -/
def sumPos (d : List (String × Int)) : Nat :=
  (d.map fun e => e.2.toNat).sum

/-- One edge step of the Kahn loop body: decrement `v`'s indegree and
enqueue `v` when it reaches zero. -/
def kahnStep (s : List String × List (String × Int)) (v : String) :
    List String × List (String × Int) :=
  let nd := dgetd s.2 v 0 - 1
  (if nd = 0 then s.1 ++ [v] else s.1, dset s.2 v nd)

/-- The `while q:` loop of `topo_sort`: pop from the front, append to the
order, relax the popped node's outgoing edges. -/
def kahnLoop (A : List (String × List String)) :
    Nat → List String → List String → List (String × Int) →
    List String × List (String × Int)
  | _, [], order, D => (order, D)
  | 0, _, order, D => (order, D)
  | fuel + 1, u :: q, order, D =>
    let s := (dgetd A u []).foldl kahnStep (q, D)
    kahnLoop A fuel s.1 (order ++ [u]) s.2

/-! ## Cycle extraction (the recursive `dfs` inside `topo_sort`) -/

/-- The mutable state of the cycle-extraction search: visited set, the
active-path set `stack`, the parent-link table and the exemplar cycle. -/
structure DfsSt where
  visited : List String
  stack : List String
  parent : List (String × String)
  cycle : Option (List String)
deriving Repr, DecidableEq

/-- The `while cur != v` walk building the cycle path: append `cur` and step
to its parent.  The parent chain from `u` stays inside the active path and
reaches `v`, so `parent.length + 1` fuel always suffices. -/
def pathLoop (parent : List (String × String)) :
    Nat → String → String → List String → List String
  | 0, _, _, acc => acc
  | fuel + 1, v, cur, acc =>
    if cur = v then acc else pathLoop parent fuel v (dgetd parent cur cur) (acc ++ [cur])

/-- Build the exemplar cycle for the back edge `u → v`:
`path = [v]; while cur != v: path.append(cur); cur = parent[cur]`, then
append `v` and reverse. -/
def cyclePath (parent : List (String × String)) (u v : String) : List String :=
  (pathLoop parent (parent.length + 1) v u [v] ++ [v]).reverse

mutual

/-- The recursive `dfs(u)`: mark `u` visited and active, then scan its
outgoing edges.  On a negative result `u` is removed from the active path. -/
def dfsNode (A : List (String × List String)) (D : List (String × Int)) :
    Nat → String → DfsSt → Bool × DfsSt
  | 0, _, st => (false, st)
  | fuel + 1, u, st =>
    let st1 : DfsSt := { st with visited := sadd st.visited u, stack := sadd st.stack u }
    match dfsScan A D fuel u (dgetd A u []) st1 with
    | (true, st2) => (true, st2)
    | (false, st2) => (false, { st2 with stack := sdel st2.stack u })
termination_by fuel _ _ => (fuel, 0)

/-- The `for v in adjacency.get(u, [])` loop inside `dfs`, restricted to
residual nodes (`indegree_copy[v] > 0`): recurse into unvisited nodes,
report a cycle on an edge into the active path. -/
def dfsScan (A : List (String × List String)) (D : List (String × Int)) :
    Nat → String → List String → DfsSt → Bool × DfsSt
  | _, _, [], st => (false, st)
  | fuel, u, v :: vs, st =>
    if 0 < dgetd D v 0 then
      if v ∉ st.visited then
        let st1 : DfsSt := { st with parent := dset st.parent v u }
        match dfsNode A D fuel v st1 with
        | (true, st2) => (true, st2)
        | (false, st2) => dfsScan A D fuel u vs st2
      else if v ∈ st.stack then
        (true, { st with cycle := some (cyclePath st.parent u v) })
      else dfsScan A D fuel u vs st
    else dfsScan A D fuel u vs st
termination_by fuel _ vs _ => (fuel, vs.length + 1)

end

/-- The `for node, deg in indegree_copy.items()` sweep launching `dfs` from
every still-unvisited residual node, stopping at the first cycle found. -/
def dfsSweep (A : List (String × List String)) (D : List (String × Int)) (fuel : Nat) :
    List (String × Int) → DfsSt → DfsSt
  | [], st => st
  | nd :: rest, st =>
    if 0 < nd.2 ∧ nd.1 ∉ st.visited then
      match dfsNode A D fuel nd.1 st with
      | (true, st1) => st1
      | (false, st1) => dfsSweep A D fuel rest st1
    else dfsSweep A D fuel rest st

namespace PMaPModel

/-- `topo_sort`: Kahn's algorithm plus cycle detection with exemplar-cycle
extraction.  Returns (order, cycle flag, exemplar cycle). -/
def topo_sort (m : PMaPModel) : List String × Bool × Option (List String) :=
  let AD := m.build_graph
  let A := AD.1
  let q0 := (AD.2.filter fun e => e.2 = 0).map Prod.fst
  let r := kahnLoop A (q0.length + sumPos AD.2) q0 [] AD.2
  let order := r.1
  let Dfin := r.2
  let has_cycle : Bool := decide (order.length ≠ Dfin.length)
  let cycle : Option (List String) :=
    if has_cycle then
      (dfsSweep A Dfin (Dfin.length + 1) Dfin ⟨[], [], [], none⟩).cycle
    else none
  (order, has_cycle, cycle)

/-- `current_indegree_effective`: per course, the count of its prerequisites
not yet completed. -/
def current_indegree_effective (m : PMaPModel) : List (String × Int) :=
  m.prereqs.foldl
    (fun ind ce =>
      ce.2.foldl
        (fun ind p =>
          if p ∈ m.passed then ind else dset ind ce.1 (dgetd ind ce.1 0 + 1)) ind)
    (m.courses.map fun e => (e.1, (0 : Int)))

/-- `candidates`: codes with effective indegree 0 that are not completed,
sorted lexicographically. -/
def candidates (m : PMaPModel) : List String :=
  sortStr ((m.current_indegree_effective.filter
    fun e => e.2 = 0 ∧ e.1 ∉ m.passed).map Prod.fst)

/-- `unlock_count`: direct dependents of `course_code` whose every other
prerequisite is already completed. -/
def unlock_count (m : PMaPModel) (course_code : String) : Nat :=
  (dgetd m.build_graph.1 course_code []).foldl
    (fun count v =>
      if ∀ p ∈ (dgetd m.prereqs v []).filter (fun p => p ≠ course_code), p ∈ m.passed
      then count + 1 else count) 0

/-- Credits of a catalog course (`self.courses[code].credits`; the lookup
never misses on the codes the program feeds it). -/
def creditsOf (m : PMaPModel) (code : String) : Int :=
  ((dfind m.courses code).getD ⟨code, code, 0⟩).credits

/-- Decimal value of the first run of digits in a code (`re.findall`-based
level extraction), `9999` when the code has no digit. -/
def levelOf (code : String) : Int :=
  match levelRun code.data with
  | some ds => (ds.foldl (fun n c => n * 10 + (c.toNat - 48)) 0 : Nat)
  | none => 9999
where
  /-- First maximal digit run of a character list. -/
  levelRun : List Char → Option (List Char)
    | [] => none
    | c :: cs => if c.isDigit then some (c :: cs.takeWhile Char.isDigit) else levelRun cs

/-- The `priority_key` tuple of `suggest_next_semester`, padded to a fixed
shape `(primary, secondary, code)`; the padding preserves Python's
lexicographic tuple comparison for keys of the same criterion. -/
def priority_key (m : PMaPModel) (criterion : String) (code : String) :
    Int × Int × String :=
  if criterion = "desbloqueo" then (-(m.unlock_count code : Int), m.creditsOf code, code)
  else if criterion = "creditos" then (m.creditsOf code, 0, code)
  else if criterion = "nivel" then (levelOf code, 0, code)
  else (0, 0, code)

/-- Lexicographic order on priority keys (Python tuple comparison). -/
def keyLe (x y : Int × Int × String) : Prop :=
  x.1 < y.1 ∨ (x.1 = y.1 ∧ (x.2.1 < y.2.1 ∨ (x.2.1 = y.2.1 ∧ strle x.2.2 y.2.2)))

instance : DecidableRel keyLe := fun x y => by
  unfold keyLe; infer_instance

/-- The per-course justification string. -/
def reasonStr (m : PMaPModel) (code : String) (cr : Int) : String :=
  code ++ " (" ++ toString cr ++ " cr) — desbloquea " ++
    toString (m.unlock_count code) ++ " materia(s)"

/-- The greedy accumulation step of `suggest_next_semester`: take `code`
when its credits keep the running total within the cap. -/
def greedyStep (m : PMaPModel) (credit_cap : Int)
    (acc : List String × Int × List String) (code : String) :
    List String × Int × List String :=
  let cr := m.creditsOf code
  if acc.2.1 + cr ≤ credit_cap then
    (acc.1 ++ [code], acc.2.1 + cr, acc.2.2 ++ [m.reasonStr code cr])
  else acc

/-- `suggest_next_semester`: rank candidates by the criterion's key, then
greedily take each course that fits under the credit cap.  Returns
(chosen, total, justifications). -/
def suggest_next_semester (m : PMaPModel) (credit_cap : Int) (criterion : String) :
    List String × Int × List String :=
  let cand_sorted := List.insertionSort
    (fun a b => keyLe (m.priority_key criterion a) (m.priority_key criterion b))
    (m.candidates)
  cand_sorted.foldl (greedyStep m credit_cap) ([], 0, [])

end PMaPModel

/-- `mark_passed` as used inside `plan_full`'s loop: the chosen codes come
from the working copy's candidate list, hence from its catalog, so the
error branch of `mark_passed` is unreachable there. -/
def markPassedT (m : PMaPModel) (code : String) : PMaPModel :=
  match m.mark_passed code with
  | .ok m1 => m1
  | .error _ => m

/-- The `for s in range(1, max_semesters+1)` loop of `plan_full` over the
private working copy. -/
def planLoop (cap : Int) (criterion : String) :
    Nat → PMaPModel → List (List String × Int × List String)
  | 0, _ => []
  | s + 1, temp =>
    let r := temp.suggest_next_semester cap criterion
    if r.1 = [] then []
    else r :: planLoop cap criterion s (r.1.foldl markPassedT temp)

/-- `plan_full`: simulate successive terms on a deep copy
`from_dict(to_dict(model))`.  The second component is the model object the
caller retains after the call: the function body only ever updates the
working copy `temp`, never its argument. -/
def plan_full (m : PMaPModel) (credit_cap : Int) (criterion : String)
    (max_semesters : Nat) :
    List (List String × Int × List String) × PMaPModel :=
  (planLoop credit_cap criterion max_semesters (PMaPModel.from_dict m.to_dict), m)

/-! ## Specification-level notions -/

/-- The prerequisite set recorded for a course. -/
def prereqsOf (m : PMaPModel) (c : String) : List String :=
  dgetd m.prereqs c []

/-- `PrereqEdge m p c`: the model records `p` as a prerequisite of `c`. -/
def PrereqEdge (m : PMaPModel) (p c : String) : Prop :=
  p ∈ prereqsOf m c

instance (m : PMaPModel) : DecidableRel (PrereqEdge m) := fun p c =>
  inferInstanceAs (Decidable (p ∈ prereqsOf m c))

/-- A closed walk in the prerequisite relation: at least one edge, equal
endpoints, and every consecutive pair a real prerequisite edge. -/
def IsClosedWalk (m : PMaPModel) (l : List String) : Prop :=
  2 ≤ l.length ∧ l.head? = l.getLast? ∧ l.Chain' (PrereqEdge m)

/-- The prerequisite relation contains a directed cycle. -/
def HasCycleP (m : PMaPModel) : Prop :=
  ∃ l, IsClosedWalk m l

/-- The catalog codes, in insertion order. -/
def catalog (m : PMaPModel) : List String :=
  dkeys m.courses

/-- Every prerequisite of every element of `o` occurs strictly earlier in
`o`: the defining property of a topological order of the model. -/
def PrereqRespecting (m : PMaPModel) (o : List String) : Prop :=
  ∀ o1 v o2, o = o1 ++ v :: o2 → ∀ p ∈ prereqsOf m v, p ∈ o1

/-- The remaining indegree of `v` once the codes in `o` have been emitted:
prerequisites of `v` not yet in `o`. -/
def countRem (m : PMaPModel) (o : List String) (v : String) : Int :=
  (((prereqsOf m v).filter fun p => p ∉ o).length : Int)

/-- The link recorded between consecutive active-path nodes of the cycle
search: a parent pointer mirroring an adjacency edge. -/
def StackLink (A : List (String × List String))
    (parent : List (String × String)) (x y : String) : Prop :=
  dfind parent y = some x ∧ y ∈ dgetd A x []

/-- Invariant of the cycle-extraction state: the active path is a
duplicate-free chain of visited nodes linked by parent pointers. -/
structure DfsInv (A : List (String × List String)) (N : List String)
    (st : DfsSt) : Prop where
  stackSub : ∀ x ∈ st.stack, x ∈ st.visited
  stackNodup : st.stack.Nodup
  visSub : ∀ x ∈ st.visited, x ∈ N
  parentNodup : (dkeys st.parent).Nodup
  chain : List.Chain' (StackLink A st.parent) st.stack

/-- A closed walk whose steps follow the derived adjacency lists. -/
def AdjClosedWalk (A : List (String × List String)) (l : List String) : Prop :=
  2 ≤ l.length ∧ l.head? = l.getLast? ∧ l.Chain' (fun x y => y ∈ dgetd A x [])

/-- The Kahn phase of `topo_sort` in isolation: the emitted order and the
final indegree map. -/
def kahnRun (m : PMaPModel) : List String × List (String × Int) :=
  let AD := m.build_graph
  let q0 := (AD.2.filter fun e => e.2 = 0).map Prod.fst
  kahnLoop AD.1 (q0.length + sumPos AD.2) q0 [] AD.2

/-- Soundness contract of one `dfs(u)` call at a given fuel: a negative
answer restores the active path, keeps the exemplar slot and the parent
links of previously visited nodes, preserves the invariant and only grows
the visited set; a positive answer stores a valid adjacency closed walk. -/
def DfsNodeSound (A : List (String × List String)) (D : List (String × Int))
    (N : List String) (fuel : Nat) : Prop :=
  ∀ (u : String) (st : DfsSt), DfsInv A N st → u ∈ N → u ∉ st.visited →
    List.Chain' (StackLink A st.parent) (st.stack ++ [u]) →
    ((dfsNode A D fuel u st).1 = false →
      (dfsNode A D fuel u st).2.stack = st.stack ∧
      (dfsNode A D fuel u st).2.cycle = st.cycle ∧
      (∀ y ∈ st.visited,
        dfind (dfsNode A D fuel u st).2.parent y = dfind st.parent y) ∧
      DfsInv A N (dfsNode A D fuel u st).2 ∧
      (∀ x ∈ st.visited, x ∈ (dfsNode A D fuel u st).2.visited)) ∧
    ((dfsNode A D fuel u st).1 = true →
      ∃ l, (dfsNode A D fuel u st).2.cycle = some l ∧ AdjClosedWalk A l)

/-- Soundness contract of the edge scan of `dfs(u)`, mirroring
`DfsNodeSound` for `dfsScan` when `u` tops the active path and the scanned
codes come from `u`'s adjacency list. -/
def DfsScanSound (A : List (String × List String)) (D : List (String × Int))
    (N : List String) (fuel : Nat) : Prop :=
  ∀ (u : String) (vs : List String) (st : DfsSt), DfsInv A N st →
    st.stack.getLast? = some u →
    (∀ v ∈ vs, v ∈ dgetd A u []) →
    ((dfsScan A D fuel u vs st).1 = false →
      (dfsScan A D fuel u vs st).2.stack = st.stack ∧
      (dfsScan A D fuel u vs st).2.cycle = st.cycle ∧
      (∀ y ∈ st.visited,
        dfind (dfsScan A D fuel u vs st).2.parent y = dfind st.parent y) ∧
      DfsInv A N (dfsScan A D fuel u vs st).2 ∧
      (∀ x ∈ st.visited, x ∈ (dfsScan A D fuel u vs st).2.visited)) ∧
    ((dfsScan A D fuel u vs st).1 = true →
      ∃ l, (dfsScan A D fuel u vs st).2.cycle = some l ∧ AdjClosedWalk A l)

/-- Completeness contract of one `dfs` call: launched on an unvisited node
with fuel dominating the unvisited count, while the residual closed walk
`Z` meets the visited set only inside the active path, a negative answer
keeps `Z` inside the caller's path and proves the start node lies off
`Z`. -/
def DfsNodeComplete (A : List (String × List String)) (D : List (String × Int))
    (N : List String) (fuel : Nat) : Prop :=
  ∀ (Z : List String) (u : String) (st : DfsSt),
    List.Chain' (fun x y => y ∈ dgetd A x []) Z →
    Z.head? = Z.getLast? → 2 ≤ Z.length →
    (∀ x ∈ Z, 0 < dgetd D x 0) →
    DfsInv A N st →
    List.Chain' (StackLink A st.parent) (st.stack ++ [u]) →
    (N.filter fun x => x ∉ st.visited).length ≤ fuel →
    u ∈ N → u ∉ st.visited →
    (∀ x ∈ Z, x ∈ st.visited → x ∈ st.stack) →
    (dfsNode A D fuel u st).1 = false →
    (∀ x ∈ Z, x ∈ (dfsNode A D fuel u st).2.visited → x ∈ st.stack) ∧ u ∉ Z

/-- Completeness contract of the edge scan, mirroring `DfsNodeComplete`; a
negative answer additionally proves no scanned code lies on `Z`. -/
def DfsScanComplete (A : List (String × List String)) (D : List (String × Int))
    (N : List String) (fuel : Nat) : Prop :=
  ∀ (Z : List String) (u : String) (vs : List String) (st : DfsSt),
    List.Chain' (fun x y => y ∈ dgetd A x []) Z →
    Z.head? = Z.getLast? → 2 ≤ Z.length →
    (∀ x ∈ Z, 0 < dgetd D x 0) →
    DfsInv A N st →
    st.stack.getLast? = some u →
    (∀ v ∈ vs, v ∈ dgetd A u []) →
    (N.filter fun x => x ∉ st.visited).length ≤ fuel →
    (∀ x ∈ Z, x ∈ st.visited → x ∈ st.stack) →
    (dfsScan A D fuel u vs st).1 = false →
    (∀ x ∈ Z, x ∈ (dfsScan A D fuel u vs st).2.visited → x ∈ st.stack) ∧
    (∀ w ∈ vs, w ∉ Z)

/-- Well-formedness: established by every public constructor of models and
preserved by every public operation.  Keys are unique, stored codes are
fixed points of uppercasing, every code referenced by an edge is in the
catalog, and set-valued fields are duplicate-free. -/
structure WF (m : PMaPModel) : Prop where
  coursesNodup : (dkeys m.courses).Nodup
  courseCode : ∀ e ∈ m.courses, e.2.code = e.1
  coursesUpper : ∀ e ∈ m.courses, upperStr e.1 = e.1
  prereqKeysNodup : (dkeys m.prereqs).Nodup
  prereqValsNodup : ∀ e ∈ m.prereqs, e.2.Nodup
  prereqKeysSub : ∀ e ∈ m.prereqs, e.1 ∈ catalog m
  prereqValsSub : ∀ e ∈ m.prereqs, ∀ p ∈ e.2, p ∈ catalog m
  passedNodup : m.passed.Nodup
  passedUpper : ∀ c ∈ m.passed, upperStr c = c

/-- Models built through the public operations: the fresh model, any
deserialization, and the three mutators (the fallible ones through their
success path). -/
inductive Reachable : PMaPModel → Prop
  | empty : Reachable PMaPModel.empty
  | from_dict (d : SerializedModel) : Reachable (PMaPModel.from_dict d)
  | add_course {m} (code name : String) (credits : Int) :
      Reachable m → Reachable (m.add_course code name credits)
  | add_prereq {m m'} (prereq course : String) :
      Reachable m → m.add_prereq prereq course = .ok m' → Reachable m'
  | mark_passed {m m'} (code : String) :
      Reachable m → m.mark_passed code = .ok m' → Reachable m'

/-- The number of direct dependents of `x` whose every other prerequisite
is completed — the specification-side count for `unlock_count`. -/
def dependentsUnlocked (m : PMaPModel) (x : String) : Nat :=
  (catalog m).countP fun y =>
    decide (PrereqEdge m x y ∧ ∀ p ∈ prereqsOf m y, p ≠ x → p ∈ m.passed)

/-! ## Sample models used by the witness theorems -/

/-- The embedded example dataset (`EXAMPLE_DATA`), ASCII-normalized names. -/
def exampleData : SerializedModel :=
  { courses := [⟨"MAT101", "Calculo I", 4⟩, ⟨"MAT102", "Calculo II", 4⟩,
                ⟨"FIS101", "Fisica I", 3⟩, ⟨"EDA1", "Estructuras de Datos I", 3⟩,
                ⟨"EDA2", "Estructuras de Datos II", 4⟩]
    prerequisites := [("MAT101", "MAT102"), ("MAT101", "FIS101"),
                      ("MAT102", "EDA1"), ("EDA1", "EDA2")]
    passed := ["MAT101"] }

/-- The example model. -/
def exampleModel : PMaPModel :=
  PMaPModel.from_dict exampleData

/-- The A→B→C→A cyclic model from the repository's test suite. -/
def cycleModel : PMaPModel :=
  PMaPModel.from_dict
    { courses := [⟨"A", "A", 1⟩, ⟨"B", "B", 1⟩, ⟨"C", "C", 1⟩, ⟨"D", "D", 1⟩]
      prerequisites := [("A", "B"), ("B", "C"), ("C", "A")]
      passed := [] }

/-- A catalog with a single zero-credit course and no edges. -/
def zeroCreditModel : PMaPModel :=
  PMaPModel.from_dict { courses := [⟨"A", "A", 0⟩], prerequisites := [], passed := [] }

/-- Serialized data whose `passed` names a code absent from the catalog. -/
def strayPassedData : SerializedModel :=
  { courses := [], prerequisites := [], passed := ["X"] }

/-! # Lemmas and claim theorems -/

/-! ## String primitives: order facts and uppercasing -/

theorem char_toNat_inj {a b : Char} (h : a.toNat = b.toNat) : a = b :=
  Char.ext (UInt32.ext h)

theorem lexLe_total (a : List Char) : ∀ b, lexLe a b = true ∨ lexLe b a = true := by
  induction a with
  | nil => intro b; exact .inl rfl
  | cons x xs ih =>
    intro b
    cases b with
    | nil => exact .inr rfl
    | cons y ys =>
      rcases Nat.lt_trichotomy x.toNat y.toNat with h | h | h
      · exact .inl (by simp [lexLe, h])
      · rcases ih ys with h2 | h2
        · exact .inl (by simp [lexLe, h, h2])
        · exact .inr (by simp [lexLe, h.symm, h2])
      · exact .inr (by simp [lexLe, h])

theorem lexLe_trans (a : List Char) : ∀ b c,
    lexLe a b = true → lexLe b c = true → lexLe a c = true := by
  induction a with
  | nil => intro b c _ _; rfl
  | cons x xs ih =>
    intro b c h1 h2
    cases b with
    | nil => simp [lexLe] at h1
    | cons y ys =>
      cases c with
      | nil => simp [lexLe] at h2
      | cons z zs =>
        simp only [lexLe] at h1 h2 ⊢
        rcases Nat.lt_trichotomy x.toNat y.toNat with hxy | hxy | hxy <;>
          rcases Nat.lt_trichotomy y.toNat z.toNat with hyz | hyz | hyz
        · simp [Nat.lt_trans hxy hyz]
        · simp [hyz ▸ hxy]
        · simp [Nat.lt_asymm hyz, hyz] at h2
        · simp [hxy ▸ hyz]
        · simp [hxy, hyz] at h1 h2 ⊢
          exact ih ys zs h1 h2
        · simp [Nat.lt_asymm hyz, hyz] at h2
        · simp [Nat.lt_asymm hxy, hxy] at h1
        · simp [Nat.lt_asymm hxy, hxy] at h1
        · simp [Nat.lt_asymm hxy, hxy] at h1

theorem lexLe_antisymm : ∀ {a b : List Char},
    lexLe a b = true → lexLe b a = true → a = b := by
  intro a
  induction a with
  | nil =>
    intro b _ h2
    cases b with
    | nil => rfl
    | cons y ys => simp [lexLe] at h2
  | cons x xs ih =>
    intro b h1 h2
    cases b with
    | nil => simp [lexLe] at h1
    | cons y ys =>
      simp only [lexLe] at h1 h2
      rcases Nat.lt_trichotomy x.toNat y.toNat with hxy | hxy | hxy
      · simp [Nat.lt_asymm hxy, hxy] at h2
      · simp [hxy] at h1 h2
        rw [char_toNat_inj hxy, ih h1 h2]
      · simp [Nat.lt_asymm hxy, hxy] at h1

theorem string_ext {s t : String} (h : s.data = t.data) : s = t := by
  cases s; cases t; exact congrArg String.mk h

instance : IsTotal String strle :=
  ⟨fun a b => lexLe_total a.data b.data⟩

instance : IsTrans String strle :=
  ⟨fun a b c h1 h2 => lexLe_trans a.data b.data c.data h1 h2⟩

instance : IsAntisymm String strle :=
  ⟨fun _ _ h1 h2 => string_ext (lexLe_antisymm h1 h2)⟩

theorem sortStr_sorted (l : List String) : List.Sorted strle (sortStr l) :=
  List.sorted_insertionSort strle l

theorem sortStr_perm (l : List String) : List.Perm (sortStr l) l :=
  List.perm_insertionSort strle l

theorem mem_sortStr {l : List String} {x : String} : x ∈ sortStr l ↔ x ∈ l :=
  (sortStr_perm l).mem_iff

theorem sortStr_eq_of_sorted {l : List String} (h : List.Sorted strle l) :
    sortStr l = l :=
  List.Sorted.insertionSort_eq h

theorem charToUpper_idem (c : Char) : c.toUpper.toUpper = c.toUpper := by
  unfold Char.toUpper
  by_cases h : c.toNat ≥ 97 ∧ c.toNat ≤ 122
  · rw [if_pos h]
    have hv : (Char.ofNat (c.toNat - 32)).toNat = c.toNat - 32 := by
      unfold Char.ofNat
      rw [dif_pos (Or.inl (by omega))]
      rfl
    rw [if_neg (by rw [hv]; omega)]
  · rw [if_neg h, if_neg h]

theorem upperStr_idem (s : String) : upperStr (upperStr s) = upperStr s := by
  unfold upperStr
  refine string_ext ?_
  show (s.data.map Char.toUpper).map Char.toUpper = s.data.map Char.toUpper
  rw [List.map_map]
  exact List.map_congr_left fun a _ => charToUpper_idem a

theorem upperStr_norm (s : String) : upperStr (norm s) = norm s :=
  upperStr_idem (stripStr s)

/-! ## Association-list and set lemmas -/

theorem dkeys_cons {α : Type} (e : String × α) (d : List (String × α)) :
    dkeys (e :: d) = e.1 :: dkeys d := rfl

theorem dfind_eq_none {α : Type} (d : List (String × α)) (k : String) :
    dfind d k = none ↔ k ∉ dkeys d := by
  induction d with
  | nil => simp [dfind, dkeys]
  | cons e rest ih =>
    by_cases h : e.1 = k
    · subst h; simp [dfind, dkeys]
    · simp [dfind, h, ih, dkeys, Ne.symm h]

theorem dfind_isSome {α : Type} (d : List (String × α)) (k : String) :
    (dfind d k).isSome = true ↔ k ∈ dkeys d := by
  rw [Option.isSome_iff_ne_none, ne_eq, dfind_eq_none, not_not]

theorem dfind_dset_self {α : Type} (d : List (String × α)) (k : String) (v : α) :
    dfind (dset d k v) k = some v := by
  induction d with
  | nil => simp [dset, dfind]
  | cons e rest ih =>
    by_cases h : e.1 = k <;> simp [dset, dfind, h, ih]

theorem dfind_dset_ne {α : Type} (d : List (String × α)) {k k' : String} (v : α)
    (h : k' ≠ k) : dfind (dset d k v) k' = dfind d k' := by
  induction d with
  | nil => simp [dset, dfind, Ne.symm h]
  | cons e rest ih =>
    by_cases he : e.1 = k
    · subst he; simp [dset, dfind, Ne.symm h]
    · by_cases he' : e.1 = k' <;> simp [dset, dfind, he, he', ih, h]

theorem dset_eq_append {α : Type} {d : List (String × α)} {k : String} (v : α)
    (h : k ∉ dkeys d) : dset d k v = d ++ [(k, v)] := by
  induction d with
  | nil => simp [dset]
  | cons e rest ih =>
    simp only [dkeys_cons, List.mem_cons] at h
    push_neg at h
    simp [dset, Ne.symm h.1, ih h.2]

theorem dkeys_dset_mem {α : Type} {d : List (String × α)} {k : String} (v : α)
    (h : k ∈ dkeys d) : dkeys (dset d k v) = dkeys d := by
  induction d with
  | nil => simp [dkeys] at h
  | cons e rest ih =>
    simp only [dkeys_cons, List.mem_cons] at h
    by_cases he : e.1 = k
    · simp [dset, he, dkeys]
    · rw [show dset (e :: rest) k v = e :: dset rest k v from by simp [dset, he],
        dkeys_cons, dkeys_cons, ih (h.resolve_left fun h' => he h'.symm)]

theorem dkeys_dset_not_mem {α : Type} {d : List (String × α)} {k : String} (v : α)
    (h : k ∉ dkeys d) : dkeys (dset d k v) = dkeys d ++ [k] := by
  rw [dset_eq_append v h]
  simp [dkeys]

theorem mem_dset {α : Type} {d : List (String × α)} {k : String} {v : α} {e : String × α}
    (h : e ∈ dset d k v) : e = (k, v) ∨ e ∈ d := by
  induction d with
  | nil => simpa [dset] using h
  | cons e0 rest ih =>
    by_cases he : e0.1 = k
    · rcases (by simpa [dset, he] using h : e = (k, v) ∨ e ∈ rest) with h1 | h1
      · exact .inl h1
      · exact .inr (List.mem_cons_of_mem _ h1)
    · rcases (by simpa [dset, he] using h : e = e0 ∨ e ∈ dset rest k v) with h1 | h1
      · exact .inr (h1 ▸ List.mem_cons_self _ _)
      · rcases ih h1 with h2 | h2
        · exact .inl h2
        · exact .inr (List.mem_cons_of_mem _ h2)

theorem sadd_eq_of_mem {s : List String} {x : String} (h : x ∈ s) :
    sadd s x = s := by simp [sadd, h]

theorem mem_sadd {s : List String} {x y : String} :
    x ∈ sadd s y ↔ x ∈ s ∨ x = y := by
  by_cases h : y ∈ s
  · rw [sadd_eq_of_mem h]
    constructor
    · exact .inl
    · rintro (hx | rfl)
      · exact hx
      · exact h
  · simp [sadd, h]

theorem sadd_nodup {s : List String} (x : String) (h : s.Nodup) :
    (sadd s x).Nodup := by
  by_cases hx : x ∈ s
  · simpa [sadd, hx] using h
  · rw [show sadd s x = s ++ [x] from by simp [sadd, hx]]
    simp [List.nodup_append, h, hx]

theorem dfind_madd_self (d : List (String × List String)) (k v : String) :
    dfind (madd d k v) k = some (sadd (dgetd d k []) v) := by
  induction d with
  | nil => simp [madd, dfind, dgetd, sadd]
  | cons e rest ih =>
    by_cases h : e.1 = k <;> simp [madd, dfind, dgetd, h, ih]

theorem dfind_madd_ne (d : List (String × List String)) {k k' : String} (v : String)
    (h : k' ≠ k) : dfind (madd d k v) k' = dfind d k' := by
  induction d with
  | nil => simp [madd, dfind, Ne.symm h]
  | cons e rest ih =>
    by_cases he : e.1 = k
    · subst he; simp [madd, dfind, Ne.symm h]
    · by_cases he' : e.1 = k' <;> simp [madd, dfind, he, he', ih, h]

theorem dkeys_madd_mem {d : List (String × List String)} {k : String} (v : String)
    (h : k ∈ dkeys d) : dkeys (madd d k v) = dkeys d := by
  induction d with
  | nil => simp [dkeys] at h
  | cons e rest ih =>
    by_cases he : e.1 = k
    · simp [madd, he, dkeys]
    · simp only [dkeys_cons, List.mem_cons] at h
      rw [show madd (e :: rest) k v = e :: madd rest k v from by simp [madd, he],
        dkeys_cons, dkeys_cons, ih (h.resolve_left fun h' => he h'.symm)]

theorem dkeys_madd_not_mem {d : List (String × List String)} {k : String} (v : String)
    (h : k ∉ dkeys d) : dkeys (madd d k v) = dkeys d ++ [k] := by
  induction d with
  | nil => simp [madd, dkeys]
  | cons e rest ih =>
    simp only [dkeys_cons, List.mem_cons] at h
    push_neg at h
    rw [show madd (e :: rest) k v = e :: madd rest k v from by simp [madd, Ne.symm h.1],
      dkeys_cons, ih h.2, dkeys_cons]
    simp

theorem dfind_append {α : Type} (d d' : List (String × α)) (k : String) :
    dfind (d ++ d') k =
      match dfind d k with
      | some v => some v
      | none => dfind d' k := by
  induction d with
  | nil => simp [dfind]
  | cons e rest ih =>
    by_cases he : e.1 = k <;> simp [dfind, he, ih]

theorem dfind_dtouch_ne (d : List (String × List String)) {k k' : String}
    (h : k' ≠ k) : dfind (dtouch d k) k' = dfind d k' := by
  unfold dtouch
  split
  · rfl
  · rw [dfind_append]
    cases hd : dfind d k' with
    | some v => rfl
    | none => simp [dfind, Ne.symm h]

theorem dfind_append_left {α : Type} {d : List (String × α)} (d' : List (String × α))
    {k : String} {v : α} (h : dfind d k = some v) :
    dfind (d ++ d') k = some v := by
  rw [dfind_append, h]

/-! ## Key-set and duplicate-freeness preservation -/

theorem dkeys_nodup_dset {α : Type} {d : List (String × α)} (k : String) (v : α)
    (h : (dkeys d).Nodup) : (dkeys (dset d k v)).Nodup := by
  by_cases hk : k ∈ dkeys d
  · rw [dkeys_dset_mem v hk]; exact h
  · rw [dkeys_dset_not_mem v hk]
    simp [List.nodup_append, h, hk]

theorem dkeys_nodup_madd {d : List (String × List String)} (k v : String)
    (h : (dkeys d).Nodup) : (dkeys (madd d k v)).Nodup := by
  by_cases hk : k ∈ dkeys d
  · rw [dkeys_madd_mem v hk]; exact h
  · rw [dkeys_madd_not_mem v hk]
    simp [List.nodup_append, h, hk]

theorem dkeys_dtouch_mem {d : List (String × List String)} {k : String}
    (h : k ∈ dkeys d) : dkeys (dtouch d k) = dkeys d := by
  unfold dtouch
  rw [if_pos ((dfind_isSome d k).2 h)]

theorem dkeys_dtouch_not_mem {d : List (String × List String)} {k : String}
    (h : k ∉ dkeys d) : dkeys (dtouch d k) = dkeys d ++ [k] := by
  unfold dtouch
  rw [if_neg (by rw [dfind_isSome]; exact h)]
  simp [dkeys]

theorem dkeys_nodup_dtouch {d : List (String × List String)} (k : String)
    (h : (dkeys d).Nodup) : (dkeys (dtouch d k)).Nodup := by
  by_cases hk : k ∈ dkeys d
  · rw [dkeys_dtouch_mem hk]; exact h
  · rw [dkeys_dtouch_not_mem hk]
    simp [List.nodup_append, h, hk]

theorem mem_dkeys_dset {α : Type} {d : List (String × α)} {k k' : String} (v : α)
    (h : k' ∈ dkeys d) : k' ∈ dkeys (dset d k v) := by
  by_cases hk : k ∈ dkeys d
  · rw [dkeys_dset_mem v hk]; exact h
  · rw [dkeys_dset_not_mem v hk]; exact List.mem_append_left _ h

theorem self_mem_dkeys_dset {α : Type} (d : List (String × α)) (k : String) (v : α) :
    k ∈ dkeys (dset d k v) := by
  by_cases hk : k ∈ dkeys d
  · rw [dkeys_dset_mem v hk]; exact hk
  · rw [dkeys_dset_not_mem v hk]; simp

theorem mem_dkeys_madd {d : List (String × List String)} {k' : String} (k v : String)
    (h : k' ∈ dkeys d) : k' ∈ dkeys (madd d k v) := by
  by_cases hk : k ∈ dkeys d
  · rw [dkeys_madd_mem v hk]; exact h
  · rw [dkeys_madd_not_mem v hk]; exact List.mem_append_left _ h

theorem mem_dkeys_dtouch {d : List (String × List String)} {k' : String} (k : String)
    (h : k' ∈ dkeys d) : k' ∈ dkeys (dtouch d k) := by
  by_cases hk : k ∈ dkeys d
  · rw [dkeys_dtouch_mem hk]; exact h
  · rw [dkeys_dtouch_not_mem hk]; exact List.mem_append_left _ h

theorem mem_madd {d : List (String × List String)} {k v : String} {e : String × List String}
    (h : e ∈ madd d k v) :
    e ∈ d ∨ (e.1 = k ∧ ∃ l, (l = [] ∨ (k, l) ∈ d) ∧ e.2 = sadd l v) := by
  induction d with
  | nil =>
    rcases (by simpa [madd] using h : e = (k, [v])) with rfl
    exact .inr ⟨rfl, [], .inl rfl, by simp [sadd]⟩
  | cons e0 rest ih =>
    by_cases he : e0.1 = k
    · rcases (by simpa [madd, he] using h : e = (k, sadd e0.2 v) ∨ e ∈ rest) with h1 | h1
      · refine .inr ⟨by simp [h1], e0.2, .inr ?_, by simp [h1]⟩
        rw [show (k, e0.2) = e0 from Prod.ext he.symm rfl]
        exact List.mem_cons_self _ _
      · exact .inl (List.mem_cons_of_mem _ h1)
    · rcases (by simpa [madd, he] using h : e = e0 ∨ e ∈ madd rest k v) with h1 | h1
      · exact .inl (h1 ▸ List.mem_cons_self _ _)
      · rcases ih h1 with h2 | ⟨h2, l, hl, hv⟩
        · exact .inl (List.mem_cons_of_mem _ h2)
        · exact .inr ⟨h2, l, hl.imp id (List.mem_cons_of_mem _), hv⟩

theorem mem_dtouch {d : List (String × List String)} {k : String} {e : String × List String}
    (h : e ∈ dtouch d k) : e ∈ d ∨ e = (k, []) := by
  unfold dtouch at h
  split at h
  · exact .inl h
  · rcases List.mem_append.1 h with h1 | h1
    · exact .inl h1
    · exact .inr (by simpa using h1)

theorem mem_foldl_sadd {l : List String} {s : List String} {x : String} :
    x ∈ l.foldl sadd s ↔ x ∈ s ∨ x ∈ l := by
  induction l generalizing s with
  | nil => simp
  | cons y ys ih =>
    rw [List.foldl_cons, ih]
    constructor
    · rintro (h | h)
      · rcases mem_sadd.1 h with h1 | rfl
        · exact .inl h1
        · exact .inr (List.mem_cons_self _ _)
      · exact .inr (List.mem_cons_of_mem _ h)
    · rintro (h | h)
      · exact .inl (mem_sadd.2 (.inl h))
      · rcases List.mem_cons.1 h with rfl | h1
        · exact .inl (mem_sadd.2 (.inr rfl))
        · exact .inr h1

theorem foldl_sadd_nodup (l : List String) {s : List String} (h : s.Nodup) :
    (l.foldl sadd s).Nodup := by
  induction l generalizing s with
  | nil => exact h
  | cons y ys ih => exact ih (sadd_nodup y h)

/-! ## `ensureCourse` lemmas -/

theorem ensureCourse_prereqs (m : PMaPModel) (x : String) :
    (m.ensureCourse x).prereqs = m.prereqs := by
  unfold PMaPModel.ensureCourse
  split <;> rfl

theorem ensureCourse_passed (m : PMaPModel) (x : String) :
    (m.ensureCourse x).passed = m.passed := by
  unfold PMaPModel.ensureCourse
  split <;> rfl

theorem ensureCourse_find_none {m : PMaPModel} {x : String}
    (h : dfind m.courses x = none) :
    dfind (m.ensureCourse x).courses x = some ⟨x, x, 0⟩ := by
  unfold PMaPModel.ensureCourse
  rw [if_neg (by simp [h])]
  exact dfind_dset_self _ _ _

theorem ensureCourse_find_some {m : PMaPModel} (x : String) {k : String} {v : Course}
    (h : dfind m.courses k = some v) :
    dfind (m.ensureCourse x).courses k = some v := by
  unfold PMaPModel.ensureCourse
  split
  · exact h
  · next hx =>
    have hxk : k ≠ x := by
      rintro rfl
      rw [h] at hx
      simp at hx
    rw [dfind_dset_ne _ _ hxk]
    exact h

theorem ensureCourse_find_ne {m : PMaPModel} (x : String) {k : String} (h : k ≠ x) :
    dfind (m.ensureCourse x).courses k = dfind m.courses k := by
  unfold PMaPModel.ensureCourse
  split
  · rfl
  · exact dfind_dset_ne _ _ h

theorem self_mem_catalog_ensureCourse (m : PMaPModel) (x : String) :
    x ∈ catalog (m.ensureCourse x) := by
  unfold PMaPModel.ensureCourse
  split
  · next h => exact (dfind_isSome _ _).1 h
  · exact self_mem_dkeys_dset _ _ _

theorem catalog_mono_ensureCourse {m : PMaPModel} (x : String) {k : String}
    (h : k ∈ catalog m) : k ∈ catalog (m.ensureCourse x) := by
  unfold PMaPModel.ensureCourse
  split
  · exact h
  · exact mem_dkeys_dset _ h

theorem mem_ensureCourse_courses {m : PMaPModel} {x : String} {e : String × Course}
    (h : e ∈ (m.ensureCourse x).courses) : e = (x, ⟨x, x, 0⟩) ∨ e ∈ m.courses := by
  unfold PMaPModel.ensureCourse at h
  split at h
  · exact .inr h
  · exact mem_dset h

theorem catalog_nodup_ensureCourse {m : PMaPModel} (x : String)
    (h : (catalog m).Nodup) : (catalog (m.ensureCourse x)).Nodup := by
  unfold PMaPModel.ensureCourse
  split
  · exact h
  · exact dkeys_nodup_dset _ _ h

/-! ## Well-formedness preservation -/

theorem wf_empty : WF PMaPModel.empty := by
  constructor <;> simp [PMaPModel.empty, dkeys, catalog]

theorem wf_ensureCourse {m : PMaPModel} {x : String} (h : WF m)
    (hx : upperStr x = x) : WF (m.ensureCourse x) := by
  refine ⟨catalog_nodup_ensureCourse x h.coursesNodup, ?_, ?_,
    ?_, ?_, ?_, ?_, ?_, ?_⟩
  · intro e he
    rcases mem_ensureCourse_courses he with rfl | he'
    · rfl
    · exact h.courseCode e he'
  · intro e he
    rcases mem_ensureCourse_courses he with rfl | he'
    · exact hx
    · exact h.coursesUpper e he'
  · rw [show (m.ensureCourse x).prereqs = m.prereqs from ensureCourse_prereqs m x]
    exact h.prereqKeysNodup
  · rw [show (m.ensureCourse x).prereqs = m.prereqs from ensureCourse_prereqs m x]
    exact h.prereqValsNodup
  · rw [show (m.ensureCourse x).prereqs = m.prereqs from ensureCourse_prereqs m x]
    exact fun e he => catalog_mono_ensureCourse x (h.prereqKeysSub e he)
  · rw [show (m.ensureCourse x).prereqs = m.prereqs from ensureCourse_prereqs m x]
    exact fun e he p hp => catalog_mono_ensureCourse x (h.prereqValsSub e he p hp)
  · rw [show (m.ensureCourse x).passed = m.passed from ensureCourse_passed m x]
    exact h.passedNodup
  · rw [show (m.ensureCourse x).passed = m.passed from ensureCourse_passed m x]
    exact h.passedUpper

/-- The common core of `add_prereq` and the edge loop of `from_dict`:
record the edge `p → c` and auto-create both endpoints. -/
theorem wf_add_edge {m : PMaPModel} {p c : String} (h : WF m)
    (hp : upperStr p = p) (hc : upperStr c = c) :
    WF { (m.ensureCourse p).ensureCourse c with
          prereqs := madd m.prereqs c p } := by
  have h2 : WF ((m.ensureCourse p).ensureCourse c) :=
    wf_ensureCourse (wf_ensureCourse h hp) hc
  have hcat : ∀ k, k ∈ catalog m → k ∈ catalog ((m.ensureCourse p).ensureCourse c) :=
    fun k hk => catalog_mono_ensureCourse c (catalog_mono_ensureCourse p hk)
  refine ⟨h2.coursesNodup, h2.courseCode, h2.coursesUpper, ?_, ?_, ?_, ?_,
    h2.passedNodup, h2.passedUpper⟩
  · exact dkeys_nodup_madd c p h.prereqKeysNodup
  · intro e he
    rcases mem_madd he with he' | ⟨_, l, hl, hv⟩
    · exact h.prereqValsNodup e he'
    · rw [hv]
      refine sadd_nodup p ?_
      rcases hl with rfl | hl
      · exact List.nodup_nil
      · exact h.prereqValsNodup _ hl
  · intro e he
    rcases mem_madd he with he' | ⟨he1, _, _, _⟩
    · exact hcat _ (h.prereqKeysSub e he')
    · rw [he1]
      exact self_mem_catalog_ensureCourse (m.ensureCourse p) c
  · intro e he q hq
    rcases mem_madd he with he' | ⟨_, l, hl, hv⟩
    · exact hcat _ (h.prereqValsSub e he' q hq)
    · rw [hv] at hq
      rcases mem_sadd.1 hq with hq' | hq2
      · rcases hl with rfl | hl
        · simp at hq'
        · exact hcat _ (h.prereqValsSub _ hl q hq')
      · rw [hq2]
        exact catalog_mono_ensureCourse c (self_mem_catalog_ensureCourse m p)

theorem wf_add_course {m : PMaPModel} (code name : String) (credits : Int)
    (h : WF m) : WF (m.add_course code name credits) := by
  unfold PMaPModel.add_course
  refine ⟨dkeys_nodup_dset _ _ h.coursesNodup, ?_, ?_, ?_, ?_, ?_, ?_,
    h.passedNodup, h.passedUpper⟩
  · intro e he
    rcases mem_dset he with rfl | he'
    · rfl
    · exact h.courseCode e he'
  · intro e he
    rcases mem_dset he with rfl | he'
    · exact upperStr_norm code
    · exact h.coursesUpper e he'
  · exact dkeys_nodup_dtouch _ h.prereqKeysNodup
  · intro e he
    rcases mem_dtouch he with he' | rfl
    · exact h.prereqValsNodup e he'
    · exact List.nodup_nil
  · intro e he
    rcases mem_dtouch he with he' | rfl
    · exact mem_dkeys_dset _ (h.prereqKeysSub e he')
    · exact self_mem_dkeys_dset _ _ _
  · intro e he q hq
    rcases mem_dtouch he with he' | rfl
    · exact mem_dkeys_dset _ (h.prereqValsSub e he' q hq)
    · simp at hq

theorem wf_add_prereq {m m' : PMaPModel} (pr co : String) (h : WF m)
    (hok : m.add_prereq pr co = .ok m') : WF m' := by
  simp only [PMaPModel.add_prereq] at hok
  split at hok
  · exact absurd hok (by simp)
  · rw [Except.ok.injEq] at hok
    subst hok
    rw [show ((m.ensureCourse (norm pr)).ensureCourse (norm co)).prereqs = m.prereqs from by
      rw [ensureCourse_prereqs, ensureCourse_prereqs]]
    exact wf_add_edge h (upperStr_norm pr) (upperStr_norm co)

theorem wf_mark_passed {m m' : PMaPModel} (code : String) (h : WF m)
    (hok : m.mark_passed code = .ok m') : WF m' := by
  simp only [PMaPModel.mark_passed] at hok
  split at hok
  · rw [Except.ok.injEq] at hok
    subst hok
    refine ⟨h.coursesNodup, h.courseCode, h.coursesUpper, h.prereqKeysNodup,
      h.prereqValsNodup, h.prereqKeysSub, h.prereqValsSub, ?_, ?_⟩
    · exact sadd_nodup _ h.passedNodup
    · intro c hc
      rcases mem_sadd.1 hc with hc' | rfl
      · exact h.passedUpper c hc'
      · exact upperStr_norm code
  · exact absurd hok (by simp)

theorem wf_from_dict (d : SerializedModel) : WF (PMaPModel.from_dict d) := by
  simp only [PMaPModel.from_dict]
  have h1 : ∀ (cs : List CourseJson) (acc : List (String × Course)),
      (dkeys acc).Nodup →
      (∀ e ∈ acc, e.2.code = e.1 ∧ upperStr e.1 = e.1) →
      (dkeys (cs.foldl (fun cs c =>
        dset cs (upperStr c.code) ⟨upperStr c.code, c.name, c.credits⟩) acc)).Nodup ∧
      ∀ e ∈ cs.foldl (fun cs c =>
        dset cs (upperStr c.code) ⟨upperStr c.code, c.name, c.credits⟩) acc,
        e.2.code = e.1 ∧ upperStr e.1 = e.1 := by
    intro cs
    induction cs with
    | nil => exact fun acc hn he => ⟨hn, he⟩
    | cons c rest ih =>
      intro acc hn he
      rw [List.foldl_cons]
      refine ih _ (dkeys_nodup_dset _ _ hn) ?_
      intro e hee
      rcases mem_dset hee with rfl | he'
      · exact ⟨rfl, upperStr_idem c.code⟩
      · exact he e he'
  have h2 : ∀ (ps : List (String × String)) (m : PMaPModel), WF m →
      WF (ps.foldl (fun m pc =>
        ((({ m with prereqs := madd m.prereqs (upperStr pc.2) (upperStr pc.1)
            } : PMaPModel).ensureCourse (upperStr pc.1)).ensureCourse
          (upperStr pc.2))) m) := by
    intro ps
    induction ps with
    | nil => exact fun m hm => hm
    | cons pc rest ih =>
      intro m hm
      rw [List.foldl_cons]
      refine ih _ ?_
      have hcomm :
          ((({ m with prereqs := madd m.prereqs (upperStr pc.2) (upperStr pc.1)
              } : PMaPModel).ensureCourse (upperStr pc.1)).ensureCourse
            (upperStr pc.2)) =
          { (m.ensureCourse (upperStr pc.1)).ensureCourse (upperStr pc.2) with
            prereqs := madd m.prereqs (upperStr pc.2) (upperStr pc.1) } := by
        unfold PMaPModel.ensureCourse
        split <;> split <;> rfl
      rw [hcomm]
      exact wf_add_edge hm (upperStr_idem pc.1) (upperStr_idem pc.2)
  have hm1 : WF { PMaPModel.empty with
      courses := d.courses.foldl (fun cs c =>
        dset cs (upperStr c.code) ⟨upperStr c.code, c.name, c.credits⟩) [] } := by
    obtain ⟨hn, he⟩ := h1 d.courses [] (by simp [dkeys]) (by simp)
    exact ⟨hn, fun e hee => (he e hee).1, fun e hee => (he e hee).2,
      by simp [PMaPModel.empty, dkeys], by simp [PMaPModel.empty],
      by simp [PMaPModel.empty], by simp [PMaPModel.empty],
      by simp [PMaPModel.empty], by simp [PMaPModel.empty]⟩
  have hm2 := h2 d.prerequisites _ hm1
  refine ⟨hm2.coursesNodup, hm2.courseCode, hm2.coursesUpper, hm2.prereqKeysNodup,
    hm2.prereqValsNodup, hm2.prereqKeysSub, hm2.prereqValsSub,
    foldl_sadd_nodup _ List.nodup_nil, ?_⟩
  intro c hc
  rcases mem_foldl_sadd.1 hc with hc' | hc'
  · simp at hc'
  · obtain ⟨y, _, rfl⟩ := List.mem_map.1 hc'
    exact upperStr_idem y

theorem reachable_wf {m : PMaPModel} (h : Reachable m) : WF m := by
  induction h with
  | empty => exact wf_empty
  | from_dict d => exact wf_from_dict d
  | add_course code name credits _ ih => exact wf_add_course code name credits ih
  | add_prereq pr co _ hok ih => exact wf_add_prereq pr co ih hok
  | mark_passed code _ hok ih => exact wf_mark_passed code ih hok

/-! ## Characterization of `current_indegree_effective` -/

theorem dfind_eq_dgetd {α : Type} {d : List (String × α)} {k : String} (v0 : α)
    (h : k ∈ dkeys d) : dfind d k = some (dgetd d k v0) := by
  rcases Option.isSome_iff_exists.1 ((dfind_isSome d k).2 h) with ⟨v, hv⟩
  rw [hv]
  simp [dgetd, hv]

theorem dgetd_dset_self {α : Type} (d : List (String × α)) (k : String) (v v0 : α) :
    dgetd (dset d k v) k v0 = v := by
  simp [dgetd, dfind_dset_self]

theorem mem_iff_dfind {α : Type} {d : List (String × α)} (h : (dkeys d).Nodup)
    {k : String} {v : α} : (k, v) ∈ d ↔ dfind d k = some v := by
  induction d with
  | nil => simp [dfind]
  | cons e rest ih =>
    rw [dkeys_cons, List.nodup_cons] at h
    by_cases he : e.1 = k
    · subst he
      rw [show dfind (e :: rest) e.1 = some e.2 from by simp [dfind]]
      constructor
      · intro h1
        rcases List.mem_cons.1 h1 with h2 | h2
        · rw [← h2]
        · exact absurd (List.mem_map_of_mem Prod.fst h2) h.1
      · intro h1
        have hv : e.2 = v := by injection h1
        rw [← hv]
        exact List.mem_cons_self e rest
    · rw [show dfind (e :: rest) k = dfind rest k from by simp [dfind, he],
        ← ih h.2]
      constructor
      · intro h1
        rcases List.mem_cons.1 h1 with h2 | h2
        · exact absurd (congrArg Prod.fst h2).symm he
        · exact h2
      · exact List.mem_cons_of_mem e

theorem cie_inner (passed : List String) (c : String) (ps : List String) :
    ∀ ind : List (String × Int), c ∈ dkeys ind →
      dkeys (ps.foldl (fun ind p =>
          if p ∈ passed then ind else dset ind c (dgetd ind c 0 + 1)) ind) = dkeys ind ∧
      dfind (ps.foldl (fun ind p =>
          if p ∈ passed then ind else dset ind c (dgetd ind c 0 + 1)) ind) c =
        some (dgetd ind c 0 + ((ps.filter fun p => p ∉ passed).length : Int)) ∧
      ∀ k, k ≠ c → dfind (ps.foldl (fun ind p =>
          if p ∈ passed then ind else dset ind c (dgetd ind c 0 + 1)) ind) k =
        dfind ind k := by
  induction ps with
  | nil =>
    intro ind hc
    refine ⟨rfl, ?_, fun _ _ => rfl⟩
    simpa using dfind_eq_dgetd 0 hc
  | cons p rest ih =>
    intro ind hc
    rw [List.foldl_cons]
    by_cases hp : p ∈ passed
    · rw [if_pos hp]
      obtain ⟨h1, h2, h3⟩ := ih ind hc
      refine ⟨h1, ?_, h3⟩
      rw [h2]
      simp [hp]
    · rw [if_neg hp]
      obtain ⟨h1, h2, h3⟩ := ih (dset ind c (dgetd ind c 0 + 1))
        (mem_dkeys_dset _ hc)
      refine ⟨by rw [h1, dkeys_dset_mem _ hc], ?_, ?_⟩
      · rw [h2, dgetd_dset_self]
        have : ((List.filter (fun p => decide (p ∉ passed)) (p :: rest)).length : Int) =
            ((List.filter (fun p => decide (p ∉ passed)) rest).length : Int) + 1 := by
          simp [List.filter_cons, hp]
        rw [this]
        ring_nf
      · intro k hk
        rw [h3 k hk, dfind_dset_ne _ _ hk]

theorem cie_outer (passed : List String) :
    ∀ (G : List (String × List String)) (ind : List (String × Int)),
      (dkeys G).Nodup → (∀ g ∈ G, g.1 ∈ dkeys ind) →
      dkeys (G.foldl (fun ind ce => ce.2.foldl (fun ind p =>
          if p ∈ passed then ind else dset ind ce.1 (dgetd ind ce.1 0 + 1)) ind) ind) =
        dkeys ind ∧
      ∀ k, dfind (G.foldl (fun ind ce => ce.2.foldl (fun ind p =>
          if p ∈ passed then ind else dset ind ce.1 (dgetd ind ce.1 0 + 1)) ind) ind) k =
        match dfind G k with
        | some ps => some (dgetd ind k 0 + ((ps.filter fun p => p ∉ passed).length : Int))
        | none => dfind ind k := by
  intro G
  induction G with
  | nil => exact fun ind _ _ => ⟨rfl, fun k => rfl⟩
  | cons ce rest ih =>
    intro ind hnd hsub
    rw [dkeys_cons, List.nodup_cons] at hnd
    obtain ⟨hi1, hi2, hi3⟩ := cie_inner passed ce.1 ce.2 ind
      (hsub ce (List.mem_cons_self _ _))
    rw [List.foldl_cons]
    obtain ⟨ho1, ho2⟩ := ih _ hnd.2
      (fun g hg => hi1 ▸ hsub g (List.mem_cons_of_mem _ hg))
    refine ⟨by rw [ho1, hi1], ?_⟩
    intro k
    rw [ho2 k]
    by_cases hk : k = ce.1
    · subst hk
      have hrest : dfind rest ce.1 = none := by
        rw [dfind_eq_none]
        exact hnd.1
      rw [show dfind (ce :: rest) ce.1 = some ce.2 from by simp [dfind], hrest, hi2]
    · have hne : ce.1 ≠ k := fun h => hk h.symm
      rw [show dfind (ce :: rest) k = dfind rest k from by simp [dfind, hne]]
      cases hrk : dfind rest k with
      | some ps =>
        have hg : dgetd (ce.2.foldl (fun ind p =>
            if p ∈ passed then ind
            else dset ind ce.1 (dgetd ind ce.1 0 + 1)) ind) k 0 = dgetd ind k 0 :=
          congrArg (fun o => o.getD 0) (hi3 k hk)
        simp [hg]
      | none =>
        simp [hi3 k hk]

theorem dkeys_map_zero (l : List (String × Course)) :
    dkeys (l.map fun e => (e.1, (0 : Int))) = dkeys l := by
  induction l with
  | nil => rfl
  | cons e rest ih => rw [List.map_cons, dkeys_cons, dkeys_cons, ih]

theorem dfind_map_zero (l : List (String × Course)) (k : String) :
    dfind (l.map fun e => (e.1, (0 : Int))) k =
      if k ∈ dkeys l then some 0 else none := by
  induction l with
  | nil => simp [dfind, dkeys]
  | cons e rest ih =>
    by_cases he : e.1 = k
    · simp [dfind, he, dkeys]
    · rw [show dfind ((e :: rest).map fun e => (e.1, (0 : Int))) k =
          dfind (rest.map fun e => (e.1, (0 : Int))) k from by simp [dfind, he], ih]
      by_cases hk : k ∈ dkeys rest
      · rw [if_pos hk, if_pos (by rw [dkeys_cons]; exact List.mem_cons_of_mem _ hk)]
      · rw [if_neg hk, if_neg ?_]
        rw [dkeys_cons]
        intro hmem
        rcases List.mem_cons.1 hmem with h1 | h1
        · exact he h1.symm
        · exact hk h1

theorem cie_spec {m : PMaPModel} (h : WF m) :
    dkeys m.current_indegree_effective = catalog m ∧
    ∀ c ∈ catalog m, dfind m.current_indegree_effective c =
      some (((prereqsOf m c).filter fun p => p ∉ m.passed).length : Int) := by
  unfold PMaPModel.current_indegree_effective
  obtain ⟨h1, h2⟩ := cie_outer m.passed m.prereqs
    (m.courses.map fun e => (e.1, (0 : Int)))
    h.prereqKeysNodup
    (fun g hg => by rw [dkeys_map_zero]; exact h.prereqKeysSub g hg)
  refine ⟨by rw [h1, dkeys_map_zero]; rfl, ?_⟩
  intro c hc
  have hc' : c ∈ dkeys m.courses := hc
  rw [h2 c]
  cases hp : dfind m.prereqs c with
  | some ps =>
    have e1 : dgetd (m.courses.map fun e => (e.1, (0 : Int))) c 0 = 0 := by
      simp [dgetd, dfind_map_zero, hc']
    have e2 : prereqsOf m c = ps := by simp [prereqsOf, dgetd, hp]
    simp [e1, e2]
  | none =>
    have e2 : prereqsOf m c = [] := by simp [prereqsOf, dgetd, hp]
    simp [e2, dfind_map_zero, hc']

theorem candidates_mem {m : PMaPModel} (h : WF m) (c : String) :
    c ∈ m.candidates ↔
      c ∈ catalog m ∧ c ∉ m.passed ∧ ∀ p ∈ prereqsOf m c, p ∈ m.passed := by
  obtain ⟨h1, h2⟩ := cie_spec h
  have hnd : (dkeys m.current_indegree_effective).Nodup := by
    rw [h1]
    exact h.coursesNodup
  unfold PMaPModel.candidates
  rw [mem_sortStr, List.mem_map]
  constructor
  · rintro ⟨e, he, rfl⟩
    rw [List.mem_filter] at he
    obtain ⟨hin, hP⟩ := he
    rw [decide_eq_true_eq] at hP
    have hkey : e.1 ∈ catalog m := by
      rw [← h1]
      exact List.mem_map_of_mem Prod.fst hin
    refine ⟨hkey, hP.2, ?_⟩
    have hfind : dfind m.current_indegree_effective e.1 = some e.2 :=
      (mem_iff_dfind hnd).1 hin
    rw [h2 e.1 hkey] at hfind
    have hcount : (((prereqsOf m e.1).filter fun p => p ∉ m.passed).length : Int) = 0 := by
      injection hfind with hv
      rw [hv, hP.1]
    rw [Nat.cast_eq_zero, List.length_eq_zero, List.filter_eq_nil_iff] at hcount
    intro p hp
    have := hcount p hp
    simpa using this
  · rintro ⟨hcat, hpass, hall⟩
    refine ⟨(c, 0), ?_, rfl⟩
    rw [List.mem_filter]
    constructor
    · rw [mem_iff_dfind hnd, h2 c hcat]
      have hnil : (prereqsOf m c).filter (fun p => p ∉ m.passed) = [] := by
        rw [List.filter_eq_nil_iff]
        intro p hp
        simpa using hall p hp
      rw [hnil]
      rfl
    · simp [hpass]

/-! ## Decomposition of `build_graph`

The loop body of `build_graph` updates the adjacency and indegree maps
independently, so the fold over the pair state splits into one fold per
component; the trailing `setdefault` passes are no-ops because every code
they touch is already a key. -/

theorem foldl_pair {α β γ : Type} (f : α → γ → α) (g : β → γ → β) :
    ∀ (l : List γ) (ab : α × β),
      l.foldl (fun ab x => (f ab.1 x, g ab.2 x)) ab =
        (l.foldl f ab.1, l.foldl g ab.2) := by
  intro l
  induction l with
  | nil => intro ab; rfl
  | cons x xs ih =>
    intro ab
    rw [List.foldl_cons, ih]
    rfl

theorem dsetd_of_mem {α : Type} {d : List (String × α)} {k : String} (v : α)
    (h : k ∈ dkeys d) : dsetd d k v = d := by
  unfold dsetd
  rw [if_pos ((dfind_isSome d k).2 h)]

theorem dtouch_of_mem {d : List (String × List String)} {k : String}
    (h : k ∈ dkeys d) : dtouch d k = d := by
  unfold dtouch
  rw [if_pos ((dfind_isSome d k).2 h)]

theorem dgetd_madd_self (d : List (String × List String)) (k v : String) :
    dgetd (madd d k v) k [] = sadd (dgetd d k []) v := by
  simp [dgetd, dfind_madd_self]

theorem dgetd_madd_ne (d : List (String × List String)) {k k' : String} (v : String)
    (h : k' ≠ k) : dgetd (madd d k v) k' [] = dgetd d k' [] := by
  simp [dgetd, dfind_madd_ne d v h]

theorem dgetd_dset_ne {α : Type} (d : List (String × α)) {k k' : String} (v v0 : α)
    (h : k' ≠ k) : dgetd (dset d k v) k' v0 = dgetd d k' v0 := by
  simp [dgetd, dfind_dset_ne d v h]

theorem build_graph_eq (m : PMaPModel) :
    m.build_graph =
      (m.courses.foldl (fun a e => dtouch a e.1)
        (m.prereqs.foldl (fun a ce => ce.2.foldl (fun a p => madd a p ce.1) a)
          (m.courses.map fun e => (e.1, []))),
       m.courses.foldl (fun i e => dsetd i e.1 0)
        (m.prereqs.foldl (fun i ce => ce.2.foldl
            (fun i p => dsetd (dset i ce.1 (dgetd i ce.1 0 + 1)) p 0) i)
          (m.courses.map fun e => (e.1, 0)))) := by
  simp only [PMaPModel.build_graph]
  have hext : List.foldl
      (fun (ai : List (String × List String) × List (String × Int)) ce =>
        ce.2.foldl (fun ai p =>
          (madd ai.1 p ce.1, dsetd (dset ai.2 ce.1 (dgetd ai.2 ce.1 0 + 1)) p 0)) ai)
      (m.courses.map fun e => (e.1, []), m.courses.map fun e => (e.1, 0)) m.prereqs =
      List.foldl
      (fun (ai : List (String × List String) × List (String × Int)) ce =>
        (ce.2.foldl (fun a p => madd a p ce.1) ai.1,
         ce.2.foldl (fun i p => dsetd (dset i ce.1 (dgetd i ce.1 0 + 1)) p 0) ai.2))
      (m.courses.map fun e => (e.1, []), m.courses.map fun e => (e.1, 0)) m.prereqs :=
    List.foldl_ext _ _ _ (fun ab ce _ =>
      foldl_pair (fun a p => madd a p ce.1)
        (fun i p => dsetd (dset i ce.1 (dgetd i ce.1 0 + 1)) p 0) ce.2 ab)
  rw [hext, foldl_pair
    (fun a (ce : String × List String) => ce.2.foldl (fun a p => madd a p ce.1) a)
    (fun i (ce : String × List String) => ce.2.foldl
      (fun i p => dsetd (dset i ce.1 (dgetd i ce.1 0 + 1)) p 0) i)
    m.prereqs]
  rw [foldl_pair
    (fun a (e : String × Course) => dtouch a e.1)
    (fun i (e : String × Course) => dsetd i e.1 0)
    m.courses]

theorem dkeys_map_const {β : Type} (l : List (String × Course)) (v : β) :
    dkeys (l.map fun e => (e.1, v)) = dkeys l := by
  induction l with
  | nil => rfl
  | cons e rest ih => rw [List.map_cons, dkeys_cons, dkeys_cons, ih]

theorem dfind_map_const {β : Type} (l : List (String × Course)) (v : β) (k : String) :
    dfind (l.map fun e => (e.1, v)) k = if k ∈ dkeys l then some v else none := by
  induction l with
  | nil => simp [dfind, dkeys]
  | cons e rest ih =>
    by_cases he : e.1 = k
    · simp [dfind, he, dkeys]
    · rw [show dfind ((e :: rest).map fun e => (e.1, v)) k =
          dfind (rest.map fun e => (e.1, v)) k from by simp [dfind, he], ih]
      by_cases hk : k ∈ dkeys rest
      · rw [if_pos hk, if_pos (by rw [dkeys_cons]; exact List.mem_cons_of_mem _ hk)]
      · rw [if_neg hk, if_neg ?_]
        rw [dkeys_cons]
        intro hmem
        rcases List.mem_cons.1 hmem with h1 | h1
        · exact he h1.symm
        · exact hk h1

theorem dgetd_map_nil (l : List (String × Course)) (k : String) :
    dgetd (l.map fun e => (e.1, ([] : List String))) k [] = [] := by
  rw [dgetd, dfind_map_const]
  split <;> rfl

theorem dgetd_map_zero_int (l : List (String × Course)) (k : String) :
    dgetd (l.map fun e => (e.1, (0 : Int))) k 0 = 0 := by
  rw [dgetd, dfind_map_const]
  split <;> rfl

theorem sadd_eq_append {s : List String} {x : String} (h : x ∉ s) :
    sadd s x = s ++ [x] := by
  simp [sadd, h]

theorem fold_dtouch_noop :
    ∀ (l : List (String × Course)) (a : List (String × List String)),
      (∀ e ∈ l, e.1 ∈ dkeys a) →
      l.foldl (fun a e => dtouch a e.1) a = a := by
  intro l
  induction l with
  | nil => exact fun a _ => rfl
  | cons e rest ih =>
    intro a hmem
    rw [List.foldl_cons, dtouch_of_mem (hmem e (List.mem_cons_self _ _))]
    exact ih a fun e' he' => hmem e' (List.mem_cons_of_mem _ he')

theorem fold_dsetd_noop :
    ∀ (l : List (String × Course)) (i : List (String × Int)),
      (∀ e ∈ l, e.1 ∈ dkeys i) →
      l.foldl (fun i e => dsetd i e.1 0) i = i := by
  intro l
  induction l with
  | nil => exact fun i _ => rfl
  | cons e rest ih =>
    intro i hmem
    rw [List.foldl_cons, dsetd_of_mem 0 (hmem e (List.mem_cons_self _ _))]
    exact ih i fun e' he' => hmem e' (List.mem_cons_of_mem _ he')

/-- Adjacency inner loop: `adjacency[p].add(c)` for every `p` in `ps`. -/
theorem adj_inner (c : String) (ps : List String) :
    ∀ a : List (String × List String),
      ps.Nodup → (∀ p ∈ ps, p ∈ dkeys a) →
      dkeys (ps.foldl (fun a p => madd a p c) a) = dkeys a ∧
      (∀ x ∈ ps, dgetd (ps.foldl (fun a p => madd a p c) a) x [] =
        sadd (dgetd a x []) c) ∧
      (∀ x, x ∉ ps → dfind (ps.foldl (fun a p => madd a p c) a) x = dfind a x) := by
  induction ps with
  | nil => exact fun a _ _ => ⟨rfl, by simp, fun _ _ => rfl⟩
  | cons p rest ih =>
    intro a hnd hmem
    rw [List.nodup_cons] at hnd
    rw [List.foldl_cons]
    have hp : p ∈ dkeys a := hmem p (List.mem_cons_self _ _)
    obtain ⟨h1, h2, h3⟩ := ih (madd a p c) hnd.2
      (fun q hq => by
        rw [dkeys_madd_mem c hp]
        exact hmem q (List.mem_cons_of_mem _ hq))
    refine ⟨by rw [h1, dkeys_madd_mem c hp], ?_, ?_⟩
    · intro x hx
      rcases List.mem_cons.1 hx with rfl | hx'
      · have hne := h3 x hnd.1
        calc dgetd (rest.foldl (fun a p => madd a p c) (madd a x c)) x []
            = (dfind (rest.foldl (fun a p => madd a p c) (madd a x c)) x).getD [] := rfl
          _ = (dfind (madd a x c) x).getD [] := by rw [hne]
          _ = sadd (dgetd a x []) c := by rw [dfind_madd_self, Option.getD_some]
      · have hxp : x ≠ p := fun hxy => hnd.1 (hxy ▸ hx')
        rw [h2 x hx', dgetd_madd_ne a c hxp]
    · intro x hx
      have hx1 : x ∉ rest := fun hr => hx (List.mem_cons_of_mem _ hr)
      have hx2 : x ≠ p := fun he => hx (he ▸ List.mem_cons_self _ _)
      rw [h3 x hx1, dfind_madd_ne a c hx2]

/-- Adjacency outer loop: the dependents recorded for `x` are exactly the
group keys whose prerequisite set contains `x`, in insertion order. -/
theorem adj_outer :
    ∀ (G : List (String × List String)) (a : List (String × List String)),
      (dkeys G).Nodup → (∀ g ∈ G, g.2.Nodup) →
      (∀ g ∈ G, ∀ p ∈ g.2, p ∈ dkeys a) →
      (∀ x, ∀ g ∈ G, g.1 ∉ dgetd a x []) →
      dkeys (G.foldl (fun a ce => ce.2.foldl (fun a p => madd a p ce.1) a) a) =
        dkeys a ∧
      ∀ x, dgetd (G.foldl (fun a ce => ce.2.foldl (fun a p => madd a p ce.1) a) a) x [] =
        dgetd a x [] ++ (G.filter (fun ce => x ∈ ce.2)).map Prod.fst := by
  intro G
  induction G with
  | nil =>
    intro a _ _ _ _
    exact ⟨rfl, fun x => by simp⟩
  | cons ce rest ih =>
    intro a hnd hvnd hvmem hdisj
    rw [dkeys_cons, List.nodup_cons] at hnd
    obtain ⟨hi1, hi2, hi3⟩ := adj_inner ce.1 ce.2 a (hvnd ce (List.mem_cons_self _ _))
      (hvmem ce (List.mem_cons_self _ _))
    rw [List.foldl_cons]
    have hval : ∀ x, dgetd (ce.2.foldl (fun a p => madd a p ce.1) a) x [] =
        if x ∈ ce.2 then dgetd a x [] ++ [ce.1] else dgetd a x [] := by
      intro x
      by_cases hx : x ∈ ce.2
      · rw [if_pos hx, hi2 x hx,
          sadd_eq_append (hdisj x ce (List.mem_cons_self _ _))]
      · rw [if_neg hx]
        exact congrArg (fun o => o.getD []) (hi3 x hx)
    obtain ⟨ho1, ho2⟩ := ih (ce.2.foldl (fun a p => madd a p ce.1) a) hnd.2
      (fun g hg => hvnd g (List.mem_cons_of_mem _ hg))
      (fun g hg p hp => by rw [hi1]; exact hvmem g (List.mem_cons_of_mem _ hg) p hp)
      (by
        intro x g hg
        rw [hval x]
        have hgk : g.1 ∈ dkeys rest := List.mem_map_of_mem Prod.fst hg
        have hgc : g.1 ≠ ce.1 := fun he => hnd.1 (he ▸ hgk)
        have hga : g.1 ∉ dgetd a x [] := hdisj x g (List.mem_cons_of_mem _ hg)
        split
        · intro hmem
          rcases List.mem_append.1 hmem with h1 | h1
          · exact hga h1
          · exact hgc (by simpa using h1)
        · exact hga)
    refine ⟨by rw [ho1, hi1], ?_⟩
    intro x
    rw [ho2 x, hval x, List.filter_cons]
    by_cases hx : x ∈ ce.2
    · rw [if_pos hx, if_pos (by simpa using hx)]
      simp
    · rw [if_neg hx, if_neg (by simpa using hx)]

/-- Indegree inner loop: `indegree[c] += 1` per prerequisite, with a no-op
`setdefault` on each prerequisite code. -/
theorem ind_inner (c : String) (ps : List String) :
    ∀ i : List (String × Int),
      c ∈ dkeys i → (∀ p ∈ ps, p ∈ dkeys i) →
      dkeys (ps.foldl (fun i p => dsetd (dset i c (dgetd i c 0 + 1)) p 0) i) =
        dkeys i ∧
      dgetd (ps.foldl (fun i p => dsetd (dset i c (dgetd i c 0 + 1)) p 0) i) c 0 =
        dgetd i c 0 + (ps.length : Int) ∧
      (∀ k, k ≠ c → dfind (ps.foldl
        (fun i p => dsetd (dset i c (dgetd i c 0 + 1)) p 0) i) k = dfind i k) := by
  induction ps with
  | nil =>
    intro i hc _
    exact ⟨rfl, by simp, fun _ _ => rfl⟩
  | cons p rest ih =>
    intro i hc hmem
    rw [List.foldl_cons]
    have hstep : dsetd (dset i c (dgetd i c 0 + 1)) p 0 = dset i c (dgetd i c 0 + 1) :=
      dsetd_of_mem 0 (mem_dkeys_dset _ (hmem p (List.mem_cons_self _ _)))
    rw [hstep]
    obtain ⟨h1, h2, h3⟩ := ih (dset i c (dgetd i c 0 + 1))
      (by rw [dkeys_dset_mem _ hc]; exact hc)
      (fun q hq => by
        rw [dkeys_dset_mem _ hc]
        exact hmem q (List.mem_cons_of_mem _ hq))
    refine ⟨by rw [h1, dkeys_dset_mem _ hc], ?_, ?_⟩
    · rw [h2, dgetd_dset_self, List.length_cons]
      push_cast
      ring
    · intro k hk
      rw [h3 k hk, dfind_dset_ne _ _ hk]

/-- Indegree outer loop: each course's indegree counts its prerequisites. -/
theorem ind_outer :
    ∀ (G : List (String × List String)) (i : List (String × Int)),
      (dkeys G).Nodup → (∀ g ∈ G, g.1 ∈ dkeys i) →
      (∀ g ∈ G, ∀ p ∈ g.2, p ∈ dkeys i) →
      dkeys (G.foldl (fun i ce => ce.2.foldl
          (fun i p => dsetd (dset i ce.1 (dgetd i ce.1 0 + 1)) p 0) i) i) = dkeys i ∧
      ∀ k, dfind (G.foldl (fun i ce => ce.2.foldl
          (fun i p => dsetd (dset i ce.1 (dgetd i ce.1 0 + 1)) p 0) i) i) k =
        match dfind G k with
        | some ps => some (dgetd i k 0 + (ps.length : Int))
        | none => dfind i k := by
  intro G
  induction G with
  | nil => exact fun i _ _ _ => ⟨rfl, fun k => rfl⟩
  | cons ce rest ih =>
    intro i hnd hkm hvm
    rw [dkeys_cons, List.nodup_cons] at hnd
    obtain ⟨hi1, hi2, hi3⟩ := ind_inner ce.1 ce.2 i (hkm ce (List.mem_cons_self _ _))
      (hvm ce (List.mem_cons_self _ _))
    rw [List.foldl_cons]
    obtain ⟨ho1, ho2⟩ := ih
      (ce.2.foldl (fun i p => dsetd (dset i ce.1 (dgetd i ce.1 0 + 1)) p 0) i)
      hnd.2
      (fun g hg => by rw [hi1]; exact hkm g (List.mem_cons_of_mem _ hg))
      (fun g hg p hp => by rw [hi1]; exact hvm g (List.mem_cons_of_mem _ hg) p hp)
    refine ⟨by rw [ho1, hi1], ?_⟩
    intro k
    rw [ho2 k]
    by_cases hk : k = ce.1
    · subst hk
      have hrest : dfind rest ce.1 = none := by
        rw [dfind_eq_none]
        exact hnd.1
      have hmem2 : ce.1 ∈ dkeys (ce.2.foldl
          (fun i p => dsetd (dset i ce.1 (dgetd i ce.1 0 + 1)) p 0) i) := by
        rw [hi1]
        exact hkm ce (List.mem_cons_self _ _)
      rw [show dfind (ce :: rest) ce.1 = some ce.2 from by simp [dfind], hrest,
        dfind_eq_dgetd 0 hmem2, hi2]
    · have hne : ce.1 ≠ k := fun h => hk h.symm
      rw [show dfind (ce :: rest) k = dfind rest k from by simp [dfind, hne]]
      cases hrk : dfind rest k with
      | some ps =>
        have hg : dgetd (ce.2.foldl
            (fun i p => dsetd (dset i ce.1 (dgetd i ce.1 0 + 1)) p 0) i) k 0 =
            dgetd i k 0 :=
          congrArg (fun o => o.getD 0) (hi3 k hk)
        simp [hg]
      | none =>
        simp [hi3 k hk]

/-- The characterization of `build_graph` on well-formed models: both maps
are keyed by the catalog, the adjacency value at `x` lists exactly the
courses having `x` as a prerequisite (in insertion order), and the indegree
value of `c` is its prerequisite count. -/
theorem build_graph_spec {m : PMaPModel} (h : WF m) :
    dkeys m.build_graph.1 = catalog m ∧
    dkeys m.build_graph.2 = catalog m ∧
    (∀ x, dgetd m.build_graph.1 x [] =
      (m.prereqs.filter (fun ce => x ∈ ce.2)).map Prod.fst) ∧
    (∀ c, dgetd m.build_graph.2 c 0 = ((prereqsOf m c).length : Int)) := by
  rw [build_graph_eq]
  obtain ⟨ha1, ha2⟩ := adj_outer m.prereqs (m.courses.map fun e => (e.1, []))
    h.prereqKeysNodup h.prereqValsNodup
    (fun g hg p hp => by
      rw [dkeys_map_const]
      exact h.prereqValsSub g hg p hp)
    (fun x g _ => by rw [dgetd_map_nil]; exact List.not_mem_nil _)
  obtain ⟨hb1, hb2⟩ := ind_outer m.prereqs (m.courses.map fun e => (e.1, (0 : Int)))
    h.prereqKeysNodup
    (fun g hg => by rw [dkeys_map_const]; exact h.prereqKeysSub g hg)
    (fun g hg p hp => by rw [dkeys_map_const]; exact h.prereqValsSub g hg p hp)
  have hado : m.courses.foldl (fun a e => dtouch a e.1)
      (m.prereqs.foldl (fun a ce => ce.2.foldl (fun a p => madd a p ce.1) a)
        (m.courses.map fun e => (e.1, []))) =
      m.prereqs.foldl (fun a ce => ce.2.foldl (fun a p => madd a p ce.1) a)
        (m.courses.map fun e => (e.1, [])) :=
    fold_dtouch_noop m.courses _ (fun e he => by
      rw [ha1, dkeys_map_const]
      exact List.mem_map_of_mem Prod.fst he)
  have hino : m.courses.foldl (fun i e => dsetd i e.1 0)
      (m.prereqs.foldl (fun i ce => ce.2.foldl
          (fun i p => dsetd (dset i ce.1 (dgetd i ce.1 0 + 1)) p 0) i)
        (m.courses.map fun e => (e.1, (0 : Int)))) =
      m.prereqs.foldl (fun i ce => ce.2.foldl
          (fun i p => dsetd (dset i ce.1 (dgetd i ce.1 0 + 1)) p 0) i)
        (m.courses.map fun e => (e.1, (0 : Int))) :=
    fold_dsetd_noop m.courses _ (fun e he => by
      rw [hb1, dkeys_map_const]
      exact List.mem_map_of_mem Prod.fst he)
  rw [hado, hino]
  refine ⟨by rw [ha1, dkeys_map_const]; rfl, by rw [hb1, dkeys_map_const]; rfl,
    fun x => by rw [ha2 x, dgetd_map_nil]; rfl, fun c => ?_⟩
  rw [show dgetd (m.prereqs.foldl (fun i ce => ce.2.foldl
      (fun i p => dsetd (dset i ce.1 (dgetd i ce.1 0 + 1)) p 0) i)
      (m.courses.map fun e => (e.1, (0 : Int)))) c 0 =
    (dfind (m.prereqs.foldl (fun i ce => ce.2.foldl
      (fun i p => dsetd (dset i ce.1 (dgetd i ce.1 0 + 1)) p 0) i)
      (m.courses.map fun e => (e.1, (0 : Int)))) c).getD 0 from rfl, hb2 c]
  cases hp : dfind m.prereqs c with
  | some ps =>
    have e2 : prereqsOf m c = ps := by simp [prereqsOf, dgetd, hp]
    simp [e2, dgetd_map_zero_int]
  | none =>
    have e2 : prereqsOf m c = [] := by simp [prereqsOf, dgetd, hp]
    rw [e2]
    simp [dgetd, dfind_map_const]
    split <;> rfl

/-- Membership in the derived adjacency list coincides with the
prerequisite-edge relation. -/
theorem adj_mem_iff {m : PMaPModel} (h : WF m) (x c : String) :
    c ∈ dgetd m.build_graph.1 x [] ↔ PrereqEdge m x c := by
  obtain ⟨_, _, ha, _⟩ := build_graph_spec h
  rw [ha x]
  constructor
  · intro hc
    obtain ⟨ce, hce, rfl⟩ := List.mem_map.1 hc
    rw [List.mem_filter] at hce
    have hfind : dfind m.prereqs ce.1 = some ce.2 :=
      (mem_iff_dfind h.prereqKeysNodup).1 hce.1
    unfold PrereqEdge prereqsOf
    rw [dgetd, hfind]
    simpa using hce.2
  · intro hc
    unfold PrereqEdge prereqsOf at hc
    cases hp : dfind m.prereqs c with
    | none => rw [dgetd, hp] at hc; simp at hc
    | some ps =>
      rw [dgetd, hp] at hc
      simp only [Option.getD_some] at hc
      refine List.mem_map.2 ⟨(c, ps), ?_, rfl⟩
      rw [List.mem_filter]
      exact ⟨(mem_iff_dfind h.prereqKeysNodup).2 hp, by simpa using hc⟩

/-- The derived adjacency lists are duplicate-free and drawn from the
catalog. -/
theorem adj_values_wf {m : PMaPModel} (h : WF m) (x : String) :
    (dgetd m.build_graph.1 x []).Nodup ∧
      ∀ c ∈ dgetd m.build_graph.1 x [], c ∈ catalog m := by
  obtain ⟨_, _, ha, _⟩ := build_graph_spec h
  rw [ha x]
  constructor
  · exact ((List.filter_sublist m.prereqs).map Prod.fst).nodup h.prereqKeysNodup
  · intro c hc
    obtain ⟨ce, hce, rfl⟩ := List.mem_map.1 hc
    rw [List.mem_filter] at hce
    exact h.prereqKeysSub ce hce.1

/-! ## C10: the unlock-count heuristic -/

theorem foldl_count {α : Type} (P : α → Prop) [DecidablePred P] :
    ∀ (l : List α) (n : Nat),
      l.foldl (fun count v => if P v then count + 1 else count) n =
        n + l.countP (fun v => decide (P v)) := by
  intro l
  induction l with
  | nil => simp
  | cons v vs ih =>
    intro n
    rw [List.foldl_cons, List.countP_cons]
    by_cases hv : P v
    · rw [if_pos hv, ih]
      simp [hv]
      omega
    · rw [if_neg hv, ih]
      simp [hv]

/-- C10: `unlock_count(x)` counts exactly the direct dependents `y` of `x`
whose every other prerequisite is completed — dependents already completed
are counted, and neither the completion nor the candidacy of `x` itself is
consulted (the counting predicate mentions neither). -/
theorem unlock_count_spec (m : PMaPModel) (hm : Reachable m) (x : String) :
    m.unlock_count x = dependentsUnlocked m x := by
  have h := reachable_wf hm
  unfold PMaPModel.unlock_count dependentsUnlocked
  rw [foldl_count, Nat.zero_add]
  have hcongr : (dgetd m.build_graph.1 x []).countP
      (fun v => decide (∀ p ∈ (dgetd m.prereqs v []).filter
        (fun p => p ≠ x), p ∈ m.passed)) =
      (dgetd m.build_graph.1 x []).countP
      (fun y => decide (PrereqEdge m x y ∧
        ∀ p ∈ prereqsOf m y, p ≠ x → p ∈ m.passed)) := by
    apply List.countP_congr
    intro y hy
    rw [decide_eq_true_eq, decide_eq_true_eq]
    have hedge : PrereqEdge m x y := (adj_mem_iff h x y).1 hy
    constructor
    · intro hq
      refine ⟨hedge, fun p hp hpx => ?_⟩
      exact hq p (List.mem_filter.2 ⟨hp, by simpa using hpx⟩)
    · intro hq p hp
      rw [List.mem_filter] at hp
      exact hq.2 p hp.1 (by simpa using hp.2)
  rw [hcongr]
  have hperm : List.Perm
      ((dgetd m.build_graph.1 x []).filter
        (fun y => decide (PrereqEdge m x y ∧
          ∀ p ∈ prereqsOf m y, p ≠ x → p ∈ m.passed)))
      ((catalog m).filter
        (fun y => decide (PrereqEdge m x y ∧
          ∀ p ∈ prereqsOf m y, p ≠ x → p ∈ m.passed))) := by
    rw [List.perm_ext_iff_of_nodup
      (List.Nodup.filter _ (adj_values_wf h x).1)
      (List.Nodup.filter _ (show (catalog m).Nodup from h.coursesNodup))]
    intro y
    rw [List.mem_filter, List.mem_filter]
    constructor
    · rintro ⟨hy, hP⟩
      exact ⟨(adj_values_wf h x).2 y hy, hP⟩
    · rintro ⟨hy, hP⟩
      exact ⟨(adj_mem_iff h x y).2 (of_decide_eq_true hP).1, hP⟩
  rw [List.countP_eq_length_filter, List.countP_eq_length_filter, hperm.length_eq]

theorem unlock_count_spec_witness :
    Reachable exampleModel ∧
      exampleModel.unlock_count "MAT101" =
        dependentsUnlocked exampleModel "MAT101" :=
  ⟨.from_dict exampleData,
    unlock_count_spec exampleModel (.from_dict exampleData) "MAT101"⟩

/-! ## C6: the catalog as the universe of referenced codes -/

/-- C6 counterexample: deserialization does not validate the completed set,
so a `passed` entry absent from the catalog survives `from_dict` and the
claimed invariant fails for the completed set. -/
theorem catalog_closure_cex :
    Reachable (PMaPModel.from_dict strayPassedData) ∧
      "X" ∈ (PMaPModel.from_dict strayPassedData).passed ∧
      "X" ∉ catalog (PMaPModel.from_dict strayPassedData) :=
  ⟨.from_dict strayPassedData, by decide, by decide⟩

/-- C6 (amended): after every sequence of public operations, every code in
the prerequisite mapping (keys and values) is a catalog key, and marking a
code absent from the catalog as completed is rejected (no model is
produced, so the model is unchanged).  The completed set itself is not
catalog-closed in general: `from_dict` accepts stray `passed` codes. -/
theorem catalog_closure_amended (m : PMaPModel) (hm : Reachable m) :
    (∀ e ∈ m.prereqs, e.1 ∈ catalog m ∧ ∀ p ∈ e.2, p ∈ catalog m) ∧
    (∀ code, norm code ∉ catalog m →
      m.mark_passed code = .error ("Materia desconocida: " ++ norm code)) := by
  have h := reachable_wf hm
  refine ⟨fun e he => ⟨h.prereqKeysSub e he, h.prereqValsSub e he⟩, ?_⟩
  intro code hcode
  unfold PMaPModel.mark_passed
  rw [if_neg]
  rw [dfind_isSome]
  exact hcode

theorem catalog_closure_amended_witness :
    Reachable exampleModel ∧
      ((∀ e ∈ exampleModel.prereqs, e.1 ∈ catalog exampleModel ∧
        ∀ p ∈ e.2, p ∈ catalog exampleModel) ∧
      exampleModel.mark_passed "ZZZ" =
        .error ("Materia desconocida: " ++ norm "ZZZ")) := by
  have h := catalog_closure_amended exampleModel (.from_dict exampleData)
  exact ⟨.from_dict exampleData, h.1, h.2 "ZZZ" (by decide)⟩

/-! ## C7: serialization round-trip -/

theorem dkeys_append {α : Type} (d d' : List (String × α)) :
    dkeys (d ++ d') = dkeys d ++ dkeys d' :=
  List.map_append _ _ _

theorem catalog_upper {m : PMaPModel} (h : WF m) {k : String}
    (hk : k ∈ catalog m) : upperStr k = k := by
  obtain ⟨e, he, rfl⟩ := List.mem_map.1 hk
  exact h.coursesUpper e he

theorem ensureCourse_of_mem {m : PMaPModel} {x : String} (h : x ∈ catalog m) :
    m.ensureCourse x = m := by
  unfold PMaPModel.ensureCourse
  rw [if_pos ((dfind_isSome _ _).2 h)]

theorem madd_not_mem {d : List (String × List String)} {k : String} (v : String)
    (h : k ∉ dkeys d) : madd d k v = d ++ [(k, [v])] := by
  induction d with
  | nil => simp [madd, sadd]
  | cons e rest ih =>
    simp only [dkeys_cons, List.mem_cons] at h
    push_neg at h
    simp [madd, Ne.symm h.1, ih h.2]

theorem madd_append_last {d : List (String × List String)} {k : String}
    (l : List String) (v : String) (h : k ∉ dkeys d) :
    madd (d ++ [(k, l)]) k v = d ++ [(k, sadd l v)] := by
  induction d with
  | nil => simp [madd]
  | cons e rest ih =>
    simp only [dkeys_cons, List.mem_cons] at h
    push_neg at h
    simp [madd, Ne.symm h.1, ih h.2]

theorem foldl_sadd_eq_append :
    ∀ (l acc : List String), (acc ++ l).Nodup → l.foldl sadd acc = acc ++ l := by
  intro l
  induction l with
  | nil => intro acc _; simp
  | cons x xs ih =>
    intro acc hnd
    rw [List.foldl_cons]
    have hx : x ∉ acc := by
      rw [List.nodup_append] at hnd
      intro hmem
      exact hnd.2.2 hmem (List.mem_cons_self _ _)
    rw [sadd_eq_append hx, ih (acc ++ [x]) (by simpa using hnd)]
    simp

/-- The course loop of `from_dict` rebuilds a well-formed catalog verbatim. -/
theorem from_dict_courses_rebuild :
    ∀ (l acc : List (String × Course)),
      (dkeys (acc ++ l)).Nodup →
      (∀ e ∈ l, e.2.code = e.1 ∧ upperStr e.1 = e.1) →
      ((l.map fun e => (⟨e.2.code, e.2.name, e.2.credits⟩ : CourseJson)).foldl
        (fun cs c => dset cs (upperStr c.code) ⟨upperStr c.code, c.name, c.credits⟩)
        acc) = acc ++ l := by
  intro l
  induction l with
  | nil => intro acc _ _; simp
  | cons e rest ih =>
    intro acc hnd he
    obtain ⟨hcode, hup⟩ := he e (List.mem_cons_self _ _)
    rw [List.map_cons, List.foldl_cons]
    have hnotmem : e.1 ∉ dkeys acc := by
      rw [dkeys_append, List.nodup_append] at hnd
      intro hmem
      exact hnd.2.2 hmem (by rw [dkeys_cons]; exact List.mem_cons_self _ _)
    have hkey : upperStr (⟨e.2.code, e.2.name, e.2.credits⟩ : CourseJson).code = e.1 := by
      show upperStr e.2.code = e.1
      rw [hcode, hup]
    have hcourse : (⟨e.1, e.2.name, e.2.credits⟩ : Course) = e.2 := by
      rw [← hcode]
    have hstep : dset acc (upperStr (⟨e.2.code, e.2.name, e.2.credits⟩ : CourseJson).code)
        ⟨upperStr (⟨e.2.code, e.2.name, e.2.credits⟩ : CourseJson).code,
          (⟨e.2.code, e.2.name, e.2.credits⟩ : CourseJson).name,
          (⟨e.2.code, e.2.name, e.2.credits⟩ : CourseJson).credits⟩ = acc ++ [e] := by
      rw [show (⟨upperStr (⟨e.2.code, e.2.name, e.2.credits⟩ : CourseJson).code,
          (⟨e.2.code, e.2.name, e.2.credits⟩ : CourseJson).name,
          (⟨e.2.code, e.2.name, e.2.credits⟩ : CourseJson).credits⟩ : Course) =
          (⟨e.1, e.2.name, e.2.credits⟩ : Course) from by rw [hkey], hkey,
        dset_eq_append _ hnotmem, hcourse]
    rw [hstep]
    rw [ih (acc ++ [e]) (by simpa using hnd)
      (fun e' he' => he e' (List.mem_cons_of_mem _ he'))]
    simp

/-- The edge loop of `from_dict` over pairs whose codes are normalized and
already catalogued only accumulates the prerequisite sets. -/
theorem from_dict_edge_fold :
    ∀ (P : List (String × String)) (mm : PMaPModel),
      (∀ pc ∈ P, upperStr pc.1 = pc.1 ∧ upperStr pc.2 = pc.2 ∧
        pc.1 ∈ catalog mm ∧ pc.2 ∈ catalog mm) →
      P.foldl (fun m pc =>
        PMaPModel.ensureCourse (PMaPModel.ensureCourse
          { m with prereqs := madd m.prereqs (upperStr pc.2) (upperStr pc.1) }
          (upperStr pc.1)) (upperStr pc.2)) mm =
      { mm with prereqs := P.foldl (fun d pc => madd d pc.2 pc.1) mm.prereqs } := by
  intro P
  induction P with
  | nil => intro mm _; rfl
  | cons pc rest ih =>
    intro mm hP
    obtain ⟨h1, h2, h3, h4⟩ := hP pc (List.mem_cons_self _ _)
    rw [List.foldl_cons, List.foldl_cons]
    have hm1 : PMaPModel.ensureCourse (PMaPModel.ensureCourse
        { mm with prereqs := madd mm.prereqs (upperStr pc.2) (upperStr pc.1) }
        (upperStr pc.1)) (upperStr pc.2) =
        { mm with prereqs := madd mm.prereqs pc.2 pc.1 } := by
      rw [h1, h2,
        ensureCourse_of_mem (show pc.1 ∈ catalog
          { mm with prereqs := madd mm.prereqs pc.2 pc.1 } from h3),
        ensureCourse_of_mem (show pc.2 ∈ catalog
          { mm with prereqs := madd mm.prereqs pc.2 pc.1 } from h4)]
    rw [hm1, ih { mm with prereqs := madd mm.prereqs pc.2 pc.1 }
      (fun pc' hpc' => hP pc' (List.mem_cons_of_mem _ hpc'))]

/-- Folding one group's pairs extends that group's set in place. -/
theorem group_pair_fold (c : String) :
    ∀ (ps pre : List String) (acc : List (String × List String)),
      (∀ p ∈ ps, p ∉ pre) → ps.Nodup → c ∉ dkeys acc →
      ((ps.map fun p => (p, c)).foldl (fun d pc => madd d pc.2 pc.1)
        (acc ++ [(c, pre)])) = acc ++ [(c, pre ++ ps)] := by
  intro ps
  induction ps with
  | nil => intro pre acc _ _ _; simp
  | cons p rest ih =>
    intro pre acc hdis hnd hc
    rw [List.nodup_cons] at hnd
    rw [List.map_cons, List.foldl_cons]
    have hstep : madd (acc ++ [(c, pre)]) ((p, c) : String × String).2
        ((p, c) : String × String).1 = acc ++ [(c, pre ++ [p])] := by
      show madd (acc ++ [(c, pre)]) c p = _
      rw [madd_append_last pre p hc,
        sadd_eq_append (hdis p (List.mem_cons_self _ _))]
    rw [hstep, ih (pre ++ [p]) acc ?_ hnd.2 hc]
    · simp
    · intro q hq
      rw [List.mem_append]
      rintro (hq1 | hq1)
      · exact hdis q (List.mem_cons_of_mem _ hq) hq1
      · have hqp : q = p := by simpa using hq1
        exact hnd.1 (hqp ▸ hq)

/-- Folding the serialized pair list rebuilds the prerequisite mapping up to
dropping groups with empty sets. -/
theorem pair_fold_rebuild :
    ∀ (G acc : List (String × List String)),
      (dkeys G).Nodup → (∀ g ∈ G, g.2.Nodup) → (∀ g ∈ G, g.1 ∉ dkeys acc) →
      ((G.flatMap fun ce => ce.2.map fun p => (p, ce.1)).foldl
        (fun d pc => madd d pc.2 pc.1) acc) =
        acc ++ G.filter (fun ce => ce.2 ≠ []) := by
  intro G
  induction G with
  | nil => intro acc _ _ _; simp
  | cons ce rest ih =>
    intro acc hnd hvnd hdis
    rw [dkeys_cons, List.nodup_cons] at hnd
    rw [List.flatMap_cons, List.foldl_append, List.filter_cons]
    have hdisrest : ∀ g ∈ rest, g.1 ∉ dkeys (acc ++ [ce]) := by
      intro g hg
      rw [dkeys_append, List.mem_append]
      rintro (hg1 | hg1)
      · exact hdis g (List.mem_cons_of_mem _ hg) hg1
      · have hge : g.1 = ce.1 := by simpa [dkeys] using hg1
        exact hnd.1 (hge ▸ List.mem_map_of_mem Prod.fst hg)
    by_cases hce : ce.2 = []
    · rw [hce, List.map_nil, List.foldl_nil,
        if_neg (by simp [hce]),
        ih acc hnd.2 (fun g hg => hvnd g (List.mem_cons_of_mem _ hg))
          (fun g hg => hdis g (List.mem_cons_of_mem _ hg))]
    · obtain ⟨p, ps', hps⟩ := List.exists_cons_of_ne_nil hce
      have hgroup : ((ce.2.map fun p => (p, ce.1)).foldl
          (fun d pc => madd d pc.2 pc.1) acc) = acc ++ [ce] := by
        rw [hps, List.map_cons, List.foldl_cons]
        have hvn := hvnd ce (List.mem_cons_self _ _)
        rw [hps, List.nodup_cons] at hvn
        have hfirst : madd acc ((p, ce.1) : String × String).2
            ((p, ce.1) : String × String).1 = acc ++ [(ce.1, [p])] := by
          show madd acc ce.1 p = _
          exact madd_not_mem p (hdis ce (List.mem_cons_self _ _))
        rw [hfirst, group_pair_fold ce.1 ps' [p] acc
          (fun q hq => by
            intro hq1
            have hqp : q = p := by simpa using hq1
            exact hvn.1 (hqp ▸ hq)) hvn.2
          (hdis ce (List.mem_cons_self _ _))]
        rw [show ((ce.1, [p] ++ ps') : String × List String) = ce from by
          rw [show [p] ++ ps' = ce.2 from by rw [hps]; rfl]]
      rw [hgroup, if_pos (by simp [hce]),
        ih (acc ++ [ce]) hnd.2 (fun g hg => hvnd g (List.mem_cons_of_mem _ hg))
          hdisrest]
      simp

theorem flatMap_filter_ne_nil (G : List (String × List String)) :
    ((G.filter fun ce => ce.2 ≠ []).flatMap fun ce => ce.2.map fun p => (p, ce.1)) =
      G.flatMap fun ce => ce.2.map fun p => (p, ce.1) := by
  induction G with
  | nil => rfl
  | cons ce rest ih =>
    rw [List.filter_cons]
    by_cases hce : ce.2 = []
    · rw [if_neg (by simp [hce]), List.flatMap_cons, hce, List.map_nil, List.nil_append, ih]
    · rw [if_pos (by simp [hce]), List.flatMap_cons, List.flatMap_cons, ih]

/-- The full round trip reproduces the first serialization verbatim. -/
theorem round_trip_eq (m : PMaPModel) (hm : Reachable m) :
    (PMaPModel.from_dict m.to_dict).to_dict = m.to_dict := by
  have h := reachable_wf hm
  have hA : ((m.to_dict.courses).foldl
      (fun cs c => dset cs (upperStr c.code) ⟨upperStr c.code, c.name, c.credits⟩)
      []) = m.courses := by
    have := from_dict_courses_rebuild m.courses [] (by simpa using h.coursesNodup)
      (fun e he => ⟨h.courseCode e he, h.coursesUpper e he⟩)
    simpa [PMaPModel.to_dict] using this
  have hpairs : ∀ pc ∈ m.to_dict.prerequisites,
      upperStr pc.1 = pc.1 ∧ upperStr pc.2 = pc.2 ∧
      pc.1 ∈ catalog { PMaPModel.empty with courses := m.courses } ∧
      pc.2 ∈ catalog { PMaPModel.empty with courses := m.courses } := by
    intro pc hpc
    simp only [PMaPModel.to_dict, List.mem_flatMap, List.mem_map] at hpc
    obtain ⟨ce, hce, p, hp, rfl⟩ := hpc
    have hpcat : p ∈ catalog m := h.prereqValsSub ce hce p hp
    have hccat : ce.1 ∈ catalog m := h.prereqKeysSub ce hce
    exact ⟨catalog_upper h hpcat, catalog_upper h hccat, hpcat, hccat⟩
  have hfd : PMaPModel.from_dict m.to_dict =
      { courses := m.courses,
        prereqs := m.prereqs.filter (fun ce => ce.2 ≠ []),
        passed := sortStr m.passed } := by
    simp only [PMaPModel.from_dict]
    rw [hA, from_dict_edge_fold m.to_dict.prerequisites
      { PMaPModel.empty with courses := m.courses } hpairs]
    have hprq : ((m.to_dict.prerequisites).foldl (fun d pc => madd d pc.2 pc.1)
        ({ PMaPModel.empty with courses := m.courses } : PMaPModel).prereqs) =
        m.prereqs.filter (fun ce => ce.2 ≠ []) := by
      show ((m.prereqs.flatMap fun ce => ce.2.map fun p => (p, ce.1)).foldl
        (fun d pc => madd d pc.2 pc.1) []) = _
      rw [pair_fold_rebuild m.prereqs [] h.prereqKeysNodup h.prereqValsNodup
        (by simp [dkeys])]
      simp
    have hpass : ((m.to_dict.passed.map upperStr).foldl sadd []) =
        sortStr m.passed := by
      have hid : m.to_dict.passed.map upperStr = sortStr m.passed := by
        show (sortStr m.passed).map upperStr = sortStr m.passed
        have : ∀ x ∈ sortStr m.passed, upperStr x = x :=
          fun x hx => h.passedUpper x (mem_sortStr.1 hx)
        calc (sortStr m.passed).map upperStr = (sortStr m.passed).map id :=
              List.map_congr_left (fun a ha => this a ha)
          _ = sortStr m.passed := List.map_id _
      rw [hid]
      exact foldl_sadd_eq_append _ []
        (by simpa using (sortStr_perm m.passed).nodup_iff.2 h.passedNodup)
    rw [hprq, hpass]
  rw [hfd]
  simp only [PMaPModel.to_dict]
  rw [SerializedModel.mk.injEq]
  refine ⟨rfl, flatMap_filter_ne_nil m.prereqs, ?_⟩
  exact congrArg sortStr rfl |>.trans (sortStr_eq_of_sorted (sortStr_sorted m.passed))

/-- C7: serializing, deserializing and serializing again yields the same
course list, edge list and completed list as the first serialization (here
even syntactically, hence under any order-independent comparison). -/
theorem round_trip (m : PMaPModel) (hm : Reachable m) :
    List.Perm ((PMaPModel.from_dict m.to_dict).to_dict.courses) m.to_dict.courses ∧
    List.Perm ((PMaPModel.from_dict m.to_dict).to_dict.prerequisites)
      m.to_dict.prerequisites ∧
    List.Perm ((PMaPModel.from_dict m.to_dict).to_dict.passed) m.to_dict.passed := by
  rw [round_trip_eq m hm]
  exact ⟨.refl _, .refl _, .refl _⟩

theorem round_trip_witness :
    Reachable exampleModel ∧
      (List.Perm ((PMaPModel.from_dict exampleModel.to_dict).to_dict.courses)
        exampleModel.to_dict.courses ∧
      List.Perm ((PMaPModel.from_dict exampleModel.to_dict).to_dict.prerequisites)
        exampleModel.to_dict.prerequisites ∧
      List.Perm ((PMaPModel.from_dict exampleModel.to_dict).to_dict.passed)
        exampleModel.to_dict.passed) :=
  ⟨.from_dict exampleData, round_trip exampleModel (.from_dict exampleData)⟩

/-! ## C3: the candidate list -/

/-- C3: for every model built through the public operations, a catalog code
is in `candidates()` exactly when it is not completed and all of its
prerequisites are completed, and the returned list is sorted in ascending
lexicographic code order (every candidate is a catalog code). -/
theorem candidates_spec (m : PMaPModel) (hm : Reachable m) :
    (∀ c ∈ catalog m,
      (c ∈ m.candidates ↔ c ∉ m.passed ∧ ∀ p ∈ prereqsOf m c, p ∈ m.passed)) ∧
    (∀ c ∈ m.candidates, c ∈ catalog m) ∧
    List.Sorted strle m.candidates := by
  have h := reachable_wf hm
  refine ⟨fun c hc => ?_, fun c hc => ?_, ?_⟩
  · rw [candidates_mem h c]
    simp [hc]
  · exact ((candidates_mem h c).1 hc).1
  · unfold PMaPModel.candidates
    exact sortStr_sorted _

theorem candidates_spec_witness :
    Reachable exampleModel ∧
      ((∀ c ∈ catalog exampleModel,
        (c ∈ exampleModel.candidates ↔
          c ∉ exampleModel.passed ∧
            ∀ p ∈ prereqsOf exampleModel c, p ∈ exampleModel.passed)) ∧
      (∀ c ∈ exampleModel.candidates, c ∈ catalog exampleModel) ∧
      List.Sorted strle exampleModel.candidates) :=
  ⟨.from_dict exampleData, candidates_spec exampleModel (.from_dict exampleData)⟩

/-! ## C9: `add_prereq` placeholder creation and self-edge rejection -/

/-- C9: inserting an edge whose (normalized) prerequisite and course codes
differ succeeds: each unknown code first receives a zero-credit placeholder
course named by its own code, known catalog entries are left untouched, the
edge is recorded, and nothing else changes; while an edge whose prerequisite
equals its course is rejected with an error (no model is produced, so the
model is left unchanged). -/
theorem add_prereq_spec (m : PMaPModel) (pr co : String) :
    (norm co = norm pr →
      m.add_prereq pr co =
        .error "Una materia no puede ser prerrequisito de si misma.") ∧
    (norm co ≠ norm pr → ∃ m',
      m.add_prereq pr co = .ok m' ∧
      (dfind m.courses (norm pr) = none →
        dfind m'.courses (norm pr) = some ⟨norm pr, norm pr, 0⟩) ∧
      (dfind m.courses (norm co) = none →
        dfind m'.courses (norm co) = some ⟨norm co, norm co, 0⟩) ∧
      (∀ k v, dfind m.courses k = some v → dfind m'.courses k = some v) ∧
      prereqsOf m' (norm co) = sadd (prereqsOf m (norm co)) (norm pr) ∧
      PrereqEdge m' (norm pr) (norm co) ∧
      (∀ k, k ≠ norm co → dfind m'.prereqs k = dfind m.prereqs k) ∧
      m'.passed = m.passed) := by
  constructor
  · intro h
    simp only [PMaPModel.add_prereq]
    rw [if_pos h]
  · intro h
    simp only [PMaPModel.add_prereq]
    rw [if_neg h]
    refine ⟨_, rfl, ?_, ?_, ?_, ?_, ?_, ?_, ?_⟩
    · intro hnone
      exact ensureCourse_find_some _ (ensureCourse_find_none hnone)
    · intro hnone
      exact ensureCourse_find_none (by rw [ensureCourse_find_ne _ h]; exact hnone)
    · intro k v hk
      exact ensureCourse_find_some _ (ensureCourse_find_some _ hk)
    · show dgetd (madd _ (norm co) (norm pr)) (norm co) [] = _
      rw [ensureCourse_prereqs, ensureCourse_prereqs]
      unfold dgetd
      rw [dfind_madd_self]
      rfl
    · show norm pr ∈ dgetd (madd _ (norm co) (norm pr)) (norm co) []
      rw [ensureCourse_prereqs, ensureCourse_prereqs]
      unfold dgetd
      rw [dfind_madd_self]
      exact mem_sadd.2 (.inr rfl)
    · intro k hk
      show dfind (madd _ (norm co) (norm pr)) k = _
      rw [ensureCourse_prereqs, ensureCourse_prereqs]
      exact dfind_madd_ne _ _ hk
    · show ((m.ensureCourse (norm pr)).ensureCourse (norm co)).passed = m.passed
      rw [ensureCourse_passed, ensureCourse_passed]

theorem add_prereq_spec_witness :
    exampleModel.add_prereq "X" "X" =
      .error "Una materia no puede ser prerrequisito de si misma." ∧
    ∃ m', exampleModel.add_prereq "MAT101" "EDA9" = .ok m' ∧
      dfind m'.courses (norm "EDA9") = some ⟨norm "EDA9", norm "EDA9", 0⟩ := by
  constructor
  · exact (add_prereq_spec exampleModel "X" "X").1 rfl
  · obtain ⟨m', hok, _, hc, _⟩ :=
      (add_prereq_spec exampleModel "MAT101" "EDA9").2 (by decide)
    exact ⟨m', hok, hc (by decide)⟩

/-! ## C8: `plan_full` leaves the caller's model unchanged -/

/-- C8: for every model, credit cap, criterion, and term limit, `plan_full`
leaves the caller's original model unchanged: catalog, prerequisite edges
and completed set are identical before and after the call.  In this pure
embedding the planner acts only on the working copy `from_dict(to_dict(m))`,
so the caller's model is returned untouched. -/
theorem plan_full_preserves_caller (m : PMaPModel) (cap : Int) (crit : String)
    (n : Nat) :
    (plan_full m cap crit n).2.courses = m.courses ∧
      (plan_full m cap crit n).2.prereqs = m.prereqs ∧
      (plan_full m cap crit n).2.passed = m.passed :=
  ⟨rfl, rfl, rfl⟩

/-! ## C4: the greedy selection never exceeds the cap -/

theorem greedy_bound (m : PMaPModel) (cap : Int) (cs : List String)
    (acc : List String × Int × List String)
    (h1 : acc.2.1 ≤ cap) (h2 : acc.2.1 = (acc.1.map m.creditsOf).sum) :
    (cs.foldl (m.greedyStep cap) acc).2.1 ≤ cap ∧
      (cs.foldl (m.greedyStep cap) acc).2.1 =
        ((cs.foldl (m.greedyStep cap) acc).1.map m.creditsOf).sum := by
  induction cs generalizing acc with
  | nil => exact ⟨h1, h2⟩
  | cons c cs ih =>
    simp only [List.foldl_cons]
    by_cases h : acc.2.1 + m.creditsOf c ≤ cap
    · have e : m.greedyStep cap acc c =
          (acc.1 ++ [c], acc.2.1 + m.creditsOf c,
            acc.2.2 ++ [m.reasonStr c (m.creditsOf c)]) := by
        simp [PMaPModel.greedyStep, h]
      rw [e]
      exact ih _ h (by simp [h2])
    · have e : m.greedyStep cap acc c = acc := by
        simp [PMaPModel.greedyStep, h]
      rw [e]
      exact ih acc h1 h2

/-- C4: for every model, nonnegative credit cap and criterion, the suggested
selection's total does not exceed the cap, and the returned total is the sum
of the chosen courses' credits. -/
theorem suggest_total_within_cap (m : PMaPModel) (cap : Int) (crit : String)
    (hcap : 0 ≤ cap) :
    (m.suggest_next_semester cap crit).2.1 ≤ cap ∧
      (m.suggest_next_semester cap crit).2.1 =
        ((m.suggest_next_semester cap crit).1.map m.creditsOf).sum := by
  unfold PMaPModel.suggest_next_semester
  exact greedy_bound m cap _ ([], 0, []) hcap rfl

theorem suggest_total_within_cap_witness :
    0 ≤ (16 : Int) ∧
      ((exampleModel.suggest_next_semester 16 "creditos").2.1 ≤ 16 ∧
        (exampleModel.suggest_next_semester 16 "creditos").2.1 =
          ((exampleModel.suggest_next_semester 16 "creditos").1.map
            exampleModel.creditsOf).sum) :=
  ⟨by decide, suggest_total_within_cap exampleModel 16 "creditos" (by decide)⟩

/-! ## C5: credit cap 0

The claim fails as stated: the greedy test `total + cr <= credit_cap`
accepts a zero-credit course even when the cap is 0, and zero-credit
courses are part of the contract (placeholders are created with zero
credits).  The amended claim restricts to positive-credit candidates. -/

/-- C5 counterexample: a model whose only candidate has zero credits yields
a nonempty selection at credit cap 0. -/
theorem suggest_cap_zero_cex :
    zeroCreditModel.candidates = ["A"] ∧
      (zeroCreditModel.suggest_next_semester 0 "creditos").1 = ["A"] ∧
      (zeroCreditModel.suggest_next_semester 0 "creditos").1 ≠ [] := by
  refine ⟨by decide, by decide, by decide⟩

theorem greedy_zero (m : PMaPModel) (l : List String)
    (h : ∀ c ∈ l, 0 < m.creditsOf c) :
    l.foldl (m.greedyStep 0) ([], 0, []) = ([], 0, []) := by
  induction l with
  | nil => rfl
  | cons c cs ih =>
    have hc : ¬ ((0 : Int) + m.creditsOf c ≤ 0) := by
      have := h c (List.mem_cons_self _ _)
      omega
    simp only [List.foldl_cons]
    rw [show m.greedyStep 0 ([], 0, []) c = ([], 0, []) from by
      simp only [PMaPModel.greedyStep]
      rw [if_neg (by simpa using hc)]]
    exact ih fun c hcs => h c (List.mem_cons_of_mem _ hcs)

/-- C5 (amended): with credit cap 0 the selection is empty (with total 0 and
no justifications) provided every candidate has strictly positive credits;
a zero-credit candidate is otherwise selected even at cap 0. -/
theorem suggest_cap_zero_amended (m : PMaPModel) (crit : String)
    (h : ∀ c ∈ m.candidates, 0 < m.creditsOf c) :
    m.suggest_next_semester 0 crit = ([], 0, []) := by
  unfold PMaPModel.suggest_next_semester
  refine greedy_zero m _ fun c hc => h c ?_
  exact (List.perm_insertionSort
    (fun a b => PMaPModel.keyLe (m.priority_key crit a) (m.priority_key crit b))
    m.candidates).mem_iff.1 hc

theorem suggest_cap_zero_amended_witness :
    (∀ c ∈ exampleModel.candidates, 0 < exampleModel.creditsOf c) ∧
      exampleModel.suggest_next_semester 0 "nivel" = ([], 0, []) :=
  ⟨by decide, suggest_cap_zero_amended exampleModel "nivel" (by decide)⟩

/-! ## List bookkeeping for the loop-fuel arguments -/

theorem filter_notmem_succ {N : List String} (hN : N.Nodup) {u : String}
    (hu : u ∈ N) (o : List String) (ho : u ∉ o) :
    (N.filter fun x => x ∉ o).length =
      (N.filter fun x => x ∉ o ++ [u]).length + 1 := by
  induction N with
  | nil => cases hu
  | cons a N' ih =>
    rw [List.nodup_cons] at hN
    rcases List.mem_cons.1 hu with rfl | hu'
    · have h1 : (N'.filter fun x => x ∉ o) = N'.filter fun x => x ∉ o ++ [u] :=
        List.filter_congr fun x hx => by
          have hxa : x ≠ u := fun h => hN.1 (h ▸ hx)
          simp [hxa]
      simp only [List.filter_cons]
      rw [if_pos (by simpa using ho), if_neg (by simp), h1]
      simp
    · have hau : a ≠ u := fun h => hN.1 (h ▸ hu')
      have ha : (a ∈ o ++ [u]) ↔ (a ∈ o) := by simp [hau]
      by_cases hao : a ∈ o
      · simp only [List.filter_cons]
        rw [if_neg (by simpa using hao), if_neg (by simp [hao])]
        exact ih hN.2 hu'
      · simp only [List.filter_cons]
        rw [if_pos (by simpa using hao), if_pos (by simp [hao, hau])]
        simp only [List.length_cons]
        rw [ih hN.2 hu']

theorem filter_length_mono {p q : String → Bool}
    (h : ∀ x, p x = true → q x = true) :
    ∀ l : List String, (l.filter p).length ≤ (l.filter q).length
  | [] => Nat.le_refl _
  | a :: t => by
    cases hpa : p a with
    | true =>
      have hqa := h a hpa
      simp only [List.filter_cons, hpa, hqa, if_true]
      exact Nat.succ_le_succ (filter_length_mono h t)
    | false =>
      simp only [List.filter_cons, hpa]
      rw [if_neg (by simp)]
      cases hqa : q a with
      | true =>
        rw [if_pos (by simp)]
        exact Nat.le_succ_of_le (filter_length_mono h t)
      | false =>
        rw [if_neg (by simp)]
        exact filter_length_mono h t

theorem sdel_append {s : List String} {u : String} (h : u ∉ s) :
    sdel (s ++ [u]) u = s := by
  induction s with
  | nil => simp [sdel]
  | cons a t ih =>
    have hau : a ≠ u := fun he => h (he ▸ List.mem_cons_self _ _)
    simp only [List.cons_append, sdel, if_neg hau, List.append_eq]
    rw [ih fun ht => h (List.mem_cons_of_mem _ ht)]

theorem not_nodup_decomp : ∀ {l : List String}, ¬ l.Nodup →
    ∃ a l1 l2 l3, l = l1 ++ a :: l2 ++ a :: l3 := by
  intro l
  induction l with
  | nil => intro h; exact absurd List.nodup_nil h
  | cons x xs ih =>
    intro h
    rw [List.nodup_cons] at h
    by_cases hx : x ∈ xs
    · obtain ⟨s, t, rfl⟩ := List.append_of_mem hx
      exact ⟨x, [], s, t, by simp⟩
    · obtain ⟨a, l1, l2, l3, rfl⟩ := ih fun hnd => h ⟨hx, hnd⟩
      exact ⟨a, x :: l1, l2, l3, by simp⟩

/-! ## The Kahn loop: edge-relaxation step and loop invariant -/

theorem kahn_step_fold :
    ∀ (vs q : List String) (indeg : List (String × Int)), vs.Nodup →
      (∀ v ∈ vs, v ∈ dkeys indeg) →
      dkeys (vs.foldl kahnStep (q, indeg)).2 = dkeys indeg ∧
      (∀ x, dgetd (vs.foldl kahnStep (q, indeg)).2 x 0 =
        if x ∈ vs then dgetd indeg x 0 - 1 else dgetd indeg x 0) ∧
      (vs.foldl kahnStep (q, indeg)).1 =
        q ++ vs.filter fun v => dgetd indeg v 0 = 1
  | [], q, indeg, _, _ => ⟨rfl, fun x => by simp, by simp⟩
  | v :: vs', q, indeg, hnd, hsub => by
    rw [List.nodup_cons] at hnd
    have hkey : dkeys (dset indeg v (dgetd indeg v 0 - 1)) = dkeys indeg :=
      dkeys_dset_mem _ (hsub v (List.mem_cons_self _ _))
    have hstep : (v :: vs').foldl kahnStep (q, indeg) =
        vs'.foldl kahnStep
          ((if dgetd indeg v 0 - 1 = 0 then q ++ [v] else q),
            dset indeg v (dgetd indeg v 0 - 1)) := by
      rw [List.foldl_cons]
      rfl
    obtain ⟨ih1, ih2, ih3⟩ := kahn_step_fold vs'
      (if dgetd indeg v 0 - 1 = 0 then q ++ [v] else q)
      (dset indeg v (dgetd indeg v 0 - 1)) hnd.2
      (fun w hw => by rw [hkey]; exact hsub w (List.mem_cons_of_mem _ hw))
    refine ⟨by rw [hstep, ih1, hkey], fun x => ?_, ?_⟩
    · rw [hstep, ih2 x]
      by_cases hxv : x = v
      · subst hxv
        rw [if_neg hnd.1, dgetd_dset_self, if_pos (List.mem_cons_self _ _)]
      · rw [dgetd_dset_ne _ _ _ hxv]
        by_cases hxvs : x ∈ vs'
        · rw [if_pos hxvs, if_pos (List.mem_cons_of_mem _ hxvs)]
        · rw [if_neg hxvs, if_neg (by simp [hxv, hxvs])]
    · rw [hstep, ih3]
      have hcong : (vs'.filter fun w =>
            dgetd (dset indeg v (dgetd indeg v 0 - 1)) w 0 = 1) =
          vs'.filter fun w => dgetd indeg w 0 = 1 :=
        List.filter_congr fun w hw => by
          have hwv : w ≠ v := fun he => hnd.1 (he ▸ hw)
          rw [dgetd_dset_ne _ _ _ hwv]
      rw [hcong, List.filter_cons]
      by_cases h1 : dgetd indeg v 0 = 1
      · rw [if_pos (by omega), if_pos (by simpa using h1)]
        simp
      · rw [if_neg (by omega), if_neg (by simpa using h1)]

theorem prereqsOf_nodup {m : PMaPModel} (h : WF m) (v : String) :
    (prereqsOf m v).Nodup := by
  unfold prereqsOf
  cases hp : dfind m.prereqs v with
  | none => simp [dgetd, hp]
  | some ps =>
    have := h.prereqValsNodup (v, ps) ((mem_iff_dfind h.prereqKeysNodup).2 hp)
    simpa [dgetd, hp] using this

theorem prereq_edge_catalog {m : PMaPModel} (h : WF m) {p v : String}
    (hp : p ∈ prereqsOf m v) : p ∈ catalog m ∧ v ∈ catalog m := by
  unfold prereqsOf at hp
  cases hf : dfind m.prereqs v with
  | none => rw [dgetd, hf] at hp; simp at hp
  | some ps =>
    rw [dgetd, hf, Option.getD_some] at hp
    have hent : (v, ps) ∈ m.prereqs := (mem_iff_dfind h.prereqKeysNodup).2 hf
    exact ⟨h.prereqValsSub _ hent p hp, h.prereqKeysSub _ hent⟩

theorem countRem_nonneg (m : PMaPModel) (o : List String) (v : String) :
    0 ≤ countRem m o v := Int.natCast_nonneg _

theorem countRem_eq_zero {m : PMaPModel} {o : List String} {v : String} :
    countRem m o v = 0 ↔ ∀ p ∈ prereqsOf m v, p ∈ o := by
  unfold countRem
  constructor
  · intro h0 p hp
    by_contra hpo
    have hmem : p ∈ (prereqsOf m v).filter fun p => p ∉ o :=
      List.mem_filter.2 ⟨hp, by simpa using hpo⟩
    have hlen : ((prereqsOf m v).filter fun p => p ∉ o).length ≠ 0 := by
      simpa [List.length_eq_zero] using List.ne_nil_of_mem hmem
    exact hlen (by exact_mod_cast h0)
  · intro hall
    have he : ((prereqsOf m v).filter fun p => p ∉ o) = [] :=
      List.filter_eq_nil_iff.2 fun p hp => by simpa using hall p hp
    rw [he]
    rfl

theorem countRem_append {m : PMaPModel} (h : WF m) {u : String} (o : List String)
    {v : String} (hu : u ∈ prereqsOf m v) (ho : u ∉ o) :
    countRem m o v = countRem m (o ++ [u]) v + 1 := by
  unfold countRem
  have := filter_notmem_succ (prereqsOf_nodup h v) hu o ho
  omega

theorem countRem_append_ne {m : PMaPModel} {u : String} (o : List String)
    {v : String} (hu : u ∉ prereqsOf m v) :
    countRem m (o ++ [u]) v = countRem m o v := by
  unfold countRem
  congr 1
  refine congrArg List.length (List.filter_congr fun p hp => ?_)
  have hpu : p ≠ u := fun he => hu (he ▸ hp)
  simp [hpu]

theorem prereqRespecting_nil (m : PMaPModel) : PrereqRespecting m [] := by
  intro o1 v o2 he
  exact absurd he.symm (by simp)

theorem prereqRespecting_append {m : PMaPModel} {o : List String} {u : String}
    (h : PrereqRespecting m o) (hu : ∀ p ∈ prereqsOf m u, p ∈ o) :
    PrereqRespecting m (o ++ [u]) := by
  intro o1 v o2 he p hp
  rcases List.eq_nil_or_concat o2 with rfl | ⟨L, b, rfl⟩
  · rw [← List.concat_eq_append, ← List.concat_eq_append] at he
    obtain ⟨ho1, huv⟩ := List.concat_inj.1 he
    rw [← ho1]
    exact hu p (huv ▸ hp)
  · rw [List.concat_eq_append] at he
    have he2 : (o).concat u = (o1 ++ v :: L).concat b := by
      rw [List.concat_eq_append, List.concat_eq_append, he]
      simp
    obtain ⟨ho, _⟩ := List.concat_inj.1 he2
    exact h o1 v L ho p hp

/-- The full invariant of the Kahn loop, by induction on the fuel.  The
fuel only needs to dominate the number of still-unemitted catalog codes,
every pop emitting a fresh one. -/
theorem kahn_loop_invariant {m : PMaPModel} (h : WF m) :
    ∀ (fuel : Nat) (q order : List String) (indeg : List (String × Int)),
      ((catalog m).filter fun x => x ∉ order).length ≤ fuel →
      (order ++ q).Nodup →
      (∀ x ∈ order ++ q, x ∈ catalog m) →
      dkeys indeg = catalog m →
      (∀ v, dgetd indeg v 0 = countRem m order v) →
      (∀ v ∈ catalog m, (v ∈ order ++ q ↔ ∀ p ∈ prereqsOf m v, p ∈ order)) →
      PrereqRespecting m order →
      (kahnLoop m.build_graph.1 fuel q order indeg).1.Nodup ∧
      (∀ x ∈ (kahnLoop m.build_graph.1 fuel q order indeg).1, x ∈ catalog m) ∧
      PrereqRespecting m (kahnLoop m.build_graph.1 fuel q order indeg).1 ∧
      dkeys (kahnLoop m.build_graph.1 fuel q order indeg).2 = catalog m ∧
      (∀ v, dgetd (kahnLoop m.build_graph.1 fuel q order indeg).2 v 0 =
        countRem m (kahnLoop m.build_graph.1 fuel q order indeg).1 v) ∧
      (∀ v ∈ catalog m,
        (v ∈ (kahnLoop m.build_graph.1 fuel q order indeg).1 ↔
          ∀ p ∈ prereqsOf m v, p ∈ (kahnLoop m.build_graph.1 fuel q order indeg).1)) := by
  intro fuel
  induction fuel with
  | zero =>
    intro q order indeg hfuel hnd hsub hkeys hval hmem hpr
    cases q with
    | nil =>
      simp only [kahnLoop]
      exact ⟨by simpa using hnd, fun x hx => hsub x (by simpa using hx), hpr, hkeys,
        hval, fun v hv => by simpa using hmem v hv⟩
    | cons u q' =>
      exfalso
      have hu_mem : u ∈ catalog m :=
        hsub u (List.mem_append_right _ (List.mem_cons_self _ _))
      have hu_not : u ∉ order := by
        intro ho
        rcases List.nodup_append.1 hnd with ⟨-, -, hdisj⟩
        exact hdisj ho (List.mem_cons_self _ _)
      have hmemf : u ∈ (catalog m).filter fun x => x ∉ order :=
        List.mem_filter.2 ⟨hu_mem, by simpa using hu_not⟩
      have hlen : ((catalog m).filter fun x => x ∉ order).length ≠ 0 := by
        simpa [List.length_eq_zero] using List.ne_nil_of_mem hmemf
      omega
  | succ f ih =>
    intro q order indeg hfuel hnd hsub hkeys hval hmem hpr
    cases q with
    | nil =>
      simp only [kahnLoop]
      exact ⟨by simpa using hnd, fun x hx => hsub x (by simpa using hx), hpr, hkeys,
        hval, fun v hv => by simpa using hmem v hv⟩
    | cons u q' =>
      have hcatNodup : (catalog m).Nodup := h.coursesNodup
      have hu_mem : u ∈ catalog m :=
        hsub u (List.mem_append_right _ (List.mem_cons_self _ _))
      have hu_not : u ∉ order := by
        intro ho
        rcases List.nodup_append.1 hnd with ⟨-, -, hdisj⟩
        exact hdisj ho (List.mem_cons_self _ _)
      have hu_pr : ∀ p ∈ prereqsOf m u, p ∈ order :=
        (hmem u hu_mem).1 (List.mem_append_right _ (List.mem_cons_self _ _))
      obtain ⟨hvs_nodup, hvs_sub⟩ := adj_values_wf h u
      have hvs_edge : ∀ c, c ∈ dgetd m.build_graph.1 u [] ↔ u ∈ prereqsOf m c :=
        fun c => adj_mem_iff h u c
      obtain ⟨hs1, hs2, hs3⟩ := kahn_step_fold (dgetd m.build_graph.1 u []) q' indeg
        hvs_nodup (fun v hv => by rw [hkeys]; exact hvs_sub v hv)
      have hunfold : kahnLoop m.build_graph.1 (f + 1) (u :: q') order indeg =
          kahnLoop m.build_graph.1 f
            ((dgetd m.build_graph.1 u []).foldl kahnStep (q', indeg)).1
            (order ++ [u])
            ((dgetd m.build_graph.1 u []).foldl kahnStep (q', indeg)).2 := by
        simp only [kahnLoop]
      rw [hunfold]
      generalize hgen :
        (dgetd m.build_graph.1 u []).foldl kahnStep (q', indeg) = s at hs1 hs2 hs3 ⊢
      obtain ⟨sq, sind⟩ := s
      simp only at hs1 hs2 hs3 ⊢
      subst hs3
      -- facts about the freshly enqueued nodes
      have hnewly_nodup :
          ((dgetd m.build_graph.1 u []).filter fun v => dgetd indeg v 0 = 1).Nodup :=
        hvs_nodup.filter _
      have hnewly_fact : ∀ w ∈ (dgetd m.build_graph.1 u []).filter
            fun v => dgetd indeg v 0 = 1,
          w ∈ dgetd m.build_graph.1 u [] ∧ dgetd indeg w 0 = 1 := by
        intro w hw
        have := List.mem_filter.1 hw
        exact ⟨this.1, by simpa using this.2⟩
      have hnewly_not : ∀ w ∈ (dgetd m.build_graph.1 u []).filter
            fun v => dgetd indeg v 0 = 1,
          w ∉ order ++ u :: q' := by
        intro w hw hwin
        obtain ⟨hw1, hw2⟩ := hnewly_fact w hw
        have hcr : countRem m order w = 1 := by rw [← hval w, hw2]
        have hall := (hmem w (hvs_sub w hw1)).1 hwin
        rw [← countRem_eq_zero] at hall
        omega
      -- the preconditions of the inductive step
      have P1 : ((catalog m).filter fun x => x ∉ order ++ [u]).length ≤ f := by
        have := filter_notmem_succ hcatNodup hu_mem order hu_not
        omega
      have P2 : ((order ++ [u]) ++ (q' ++ (dgetd m.build_graph.1 u []).filter
          (fun v => dgetd indeg v 0 = 1))).Nodup := by
        have hshape : (order ++ [u]) ++ (q' ++ (dgetd m.build_graph.1 u []).filter
            (fun v => dgetd indeg v 0 = 1)) =
            (order ++ u :: q') ++ (dgetd m.build_graph.1 u []).filter
              (fun v => dgetd indeg v 0 = 1) := by simp
        rw [hshape]
        exact List.nodup_append.2 ⟨hnd, hnewly_nodup,
          fun a ha han => hnewly_not a han ha⟩
      have P3 : ∀ x ∈ (order ++ [u]) ++ (q' ++ (dgetd m.build_graph.1 u []).filter
          (fun v => dgetd indeg v 0 = 1)), x ∈ catalog m := by
        intro x hx
        rcases List.mem_append.1 hx with hx1 | hx1
        · rcases List.mem_append.1 hx1 with hx2 | hx2
          · exact hsub x (List.mem_append_left _ hx2)
          · rcases (by simpa using hx2 : x = u) with rfl
            exact hu_mem
        · rcases List.mem_append.1 hx1 with hx2 | hx2
          · exact hsub x (List.mem_append_right _ (List.mem_cons_of_mem _ hx2))
          · exact hvs_sub x (hnewly_fact x hx2).1
      have P4 : dkeys sind = catalog m := by rw [hs1, hkeys]
      have P5 : ∀ v, dgetd sind v 0 = countRem m (order ++ [u]) v := by
        intro v
        rw [hs2 v]
        by_cases hv : v ∈ dgetd m.build_graph.1 u []
        · have hedge : u ∈ prereqsOf m v := (hvs_edge v).1 hv
          have := countRem_append h order hedge hu_not
          rw [if_pos hv, hval v]
          omega
        · have hnedge : u ∉ prereqsOf m v := fun hc => hv ((hvs_edge v).2 hc)
          rw [if_neg hv, hval v, countRem_append_ne order hnedge]
      have P6 : ∀ v ∈ catalog m,
          (v ∈ (order ++ [u]) ++ (q' ++ (dgetd m.build_graph.1 u []).filter
            (fun w => dgetd indeg w 0 = 1)) ↔
            ∀ p ∈ prereqsOf m v, p ∈ order ++ [u]) := by
        intro v hvN
        constructor
        · intro hvin
          rcases List.mem_append.1 hvin with hx1 | hx1
          · rcases List.mem_append.1 hx1 with hx2 | hx2
            · intro p hp
              exact List.mem_append_left _
                ((hmem v hvN).1 (List.mem_append_left _ hx2) p hp)
            · rcases (by simpa using hx2 : v = u) with rfl
              intro p hp
              exact List.mem_append_left _ (hu_pr p hp)
          · rcases List.mem_append.1 hx1 with hx2 | hx2
            · intro p hp
              exact List.mem_append_left _
                ((hmem v hvN).1
                  (List.mem_append_right _ (List.mem_cons_of_mem _ hx2)) p hp)
            · obtain ⟨hw1, hw2⟩ := hnewly_fact v hx2
              have hedge : u ∈ prereqsOf m v := (hvs_edge v).1 hw1
              have hstep := countRem_append h order hedge hu_not
              have hcr : countRem m order v = 1 := by rw [← hval v, hw2]
              have : countRem m (order ++ [u]) v = 0 := by omega
              exact countRem_eq_zero.1 this
        · intro hall
          by_cases hedge : u ∈ prereqsOf m v
          · have hvvs : v ∈ dgetd m.build_graph.1 u [] := (hvs_edge v).2 hedge
            have hstep := countRem_append h order hedge hu_not
            have hz : countRem m (order ++ [u]) v = 0 := countRem_eq_zero.2 hall
            have h1 : dgetd indeg v 0 = 1 := by rw [hval v]; omega
            refine List.mem_append_right _ (List.mem_append_right _ ?_)
            exact List.mem_filter.2 ⟨hvvs, by simpa using h1⟩
          · have hord : ∀ p ∈ prereqsOf m v, p ∈ order := by
              intro p hp
              rcases List.mem_append.1 (hall p hp) with h2 | h2
              · exact h2
              · rcases (by simpa using h2 : p = u) with rfl
                exact absurd hp hedge
            have := (hmem v hvN).2 hord
            rcases List.mem_append.1 this with h2 | h2
            · exact List.mem_append_left _ (List.mem_append_left _ h2)
            · rcases List.mem_cons.1 h2 with rfl | h3
              · exact List.mem_append_left _ (List.mem_append_right _ (by simp))
              · exact List.mem_append_right _ (List.mem_append_left _ h3)
      have P7 : PrereqRespecting m (order ++ [u]) :=
        prereqRespecting_append hpr hu_pr
      exact ih (q' ++ (dgetd m.build_graph.1 u []).filter
        (fun v => dgetd indeg v 0 = 1)) (order ++ [u]) sind P1 P2 P3 P4 P5 P6 P7

theorem indeg_entries {m : PMaPModel} (h : WF m) :
    ∀ e ∈ m.build_graph.2, e.2 = ((prereqsOf m e.1).length : Int) := by
  intro e he
  obtain ⟨-, hk2, -, hv⟩ := build_graph_spec h
  have hkeysNodup : (dkeys m.build_graph.2).Nodup := by
    rw [hk2]; exact h.coursesNodup
  have hd := (mem_iff_dfind hkeysNodup).1 he
  have h2 : dgetd m.build_graph.2 e.1 0 = e.2 := by simp [dgetd, hd]
  rw [← h2, hv e.1]

theorem fuel_init_aux :
    ∀ d : List (String × Int), (∀ e ∈ d, 0 ≤ e.2) →
      d.length ≤ (d.filter fun e => e.2 = 0).length + sumPos d := by
  intro d
  induction d with
  | nil => intro _; simp
  | cons e rest ih =>
    intro hpos
    have hrest := ih fun x hx => hpos x (List.mem_cons_of_mem _ hx)
    have hsum : sumPos (e :: rest) = e.2.toNat + sumPos rest := by
      simp [sumPos]
    by_cases h0 : e.2 = 0
    · rw [List.filter_cons, if_pos (by simpa using h0)]
      simp only [List.length_cons, hsum]
      omega
    · rw [List.filter_cons, if_neg (by simpa using h0)]
      have he : 0 ≤ e.2 := hpos e (List.mem_cons_self _ _)
      have h1 : 1 ≤ e.2.toNat := by omega
      simp only [List.length_cons, hsum]
      omega

/-- The Kahn phase of `topo_sort` on a well-formed model: the emitted order
is duplicate-free, drawn from the catalog, respects prerequisites, and a
catalog code was emitted exactly when all its prerequisites were; the final
indegree map keeps the catalog as key set and holds the per-node count of
unemitted prerequisites. -/
theorem kahn_facts {m : PMaPModel} (h : WF m) :
    (kahnRun m).1.Nodup ∧
    (∀ x ∈ (kahnRun m).1, x ∈ catalog m) ∧
    PrereqRespecting m (kahnRun m).1 ∧
    dkeys (kahnRun m).2 = catalog m ∧
    (∀ v, dgetd (kahnRun m).2 v 0 = countRem m (kahnRun m).1 v) ∧
    (∀ v ∈ catalog m,
      (v ∈ (kahnRun m).1 ↔ ∀ p ∈ prereqsOf m v, p ∈ (kahnRun m).1)) := by
  obtain ⟨hk1, hk2, hadj, hind⟩ := build_graph_spec h
  have hDkeysNodup : (dkeys m.build_graph.2).Nodup := by
    rw [hk2]; exact h.coursesNodup
  have hq0nd : ((m.build_graph.2.filter fun e => e.2 = 0).map Prod.fst).Nodup := by
    have hsl : ((m.build_graph.2.filter fun e => e.2 = 0).map Prod.fst).Sublist
        (m.build_graph.2.map Prod.fst) :=
      (List.filter_sublist _).map _
    exact hsl.nodup hDkeysNodup
  have hq0sub : ∀ x ∈ (m.build_graph.2.filter fun e => e.2 = 0).map Prod.fst,
      x ∈ catalog m := by
    intro x hx
    obtain ⟨e, he, rfl⟩ := List.mem_map.1 hx
    have hed : e ∈ m.build_graph.2 := (List.filter_sublist _).subset he
    rw [← hk2]
    exact List.mem_map_of_mem Prod.fst hed
  have hfuel : ((catalog m).filter fun x => x ∉ ([] : List String)).length ≤
      ((m.build_graph.2.filter fun e => e.2 = 0).map Prod.fst).length +
        sumPos m.build_graph.2 := by
    have hfe : ((catalog m).filter fun x => x ∉ ([] : List String)) = catalog m :=
      List.filter_eq_self.2 fun a _ => by simp
    rw [hfe, List.length_map]
    have hlen : (catalog m).length = m.build_graph.2.length := by
      rw [← hk2]
      exact List.length_map m.build_graph.2 Prod.fst
    rw [hlen]
    refine fuel_init_aux m.build_graph.2 fun e he => ?_
    rw [indeg_entries h e he]
    exact Int.natCast_nonneg _
  have hval0 : ∀ v, dgetd m.build_graph.2 v 0 = countRem m ([] : List String) v := by
    intro v
    rw [hind v]
    unfold countRem
    rw [show ((prereqsOf m v).filter fun p => p ∉ ([] : List String)) =
      prereqsOf m v from List.filter_eq_self.2 fun a _ => by simp]
  have hmem0 : ∀ v ∈ catalog m,
      (v ∈ ([] : List String) ++
          (m.build_graph.2.filter fun e => e.2 = 0).map Prod.fst ↔
        ∀ p ∈ prereqsOf m v, p ∈ ([] : List String)) := by
    intro v hv
    rw [List.nil_append]
    constructor
    · intro hvin p hp
      obtain ⟨e, he, rfl⟩ := List.mem_map.1 hvin
      have hf := List.mem_filter.1 he
      have hz : e.2 = 0 := by simpa using hf.2
      have hd : dfind m.build_graph.2 e.1 = some e.2 :=
        (mem_iff_dfind hDkeysNodup).1 hf.1
      have hdg : dgetd m.build_graph.2 e.1 0 = e.2 := by simp [dgetd, hd]
      have hlen : ((prereqsOf m e.1).length : Int) = 0 := by
        rw [← hind e.1, hdg, hz]
      have hnil : prereqsOf m e.1 = [] :=
        List.length_eq_zero.1 (by exact_mod_cast hlen)
      rw [hnil] at hp
      cases hp
    · intro hall
      have hnil : prereqsOf m v = [] :=
        List.eq_nil_iff_forall_not_mem.2 fun p hp =>
          List.not_mem_nil p (hall p hp)
      have hdg : dgetd m.build_graph.2 v 0 = 0 := by rw [hind v, hnil]; rfl
      have hvk : v ∈ dkeys m.build_graph.2 := by rw [hk2]; exact hv
      have hd : dfind m.build_graph.2 v = some 0 := by
        rw [dfind_eq_dgetd 0 hvk, hdg]
      have hent : (v, (0 : Int)) ∈ m.build_graph.2 :=
        (mem_iff_dfind hDkeysNodup).2 hd
      exact List.mem_map.2 ⟨(v, 0), List.mem_filter.2 ⟨hent, by simp⟩, rfl⟩
  have hres := kahn_loop_invariant h
    (((m.build_graph.2.filter fun e => e.2 = 0).map Prod.fst).length +
      sumPos m.build_graph.2)
    ((m.build_graph.2.filter fun e => e.2 = 0).map Prod.fst)
    ([] : List String) m.build_graph.2
    hfuel (by simpa using hq0nd) (fun x hx => hq0sub x (by simpa using hx))
    hk2 hval0 hmem0 (prereqRespecting_nil m)
  simpa only [kahnRun] using hres

/-! ## Cycle existence from a predecessor-closed leftover set (pigeonhole) -/

theorem backward_walk {m : PMaPModel} {B : List String}
    (hB : ∀ v ∈ B, ∃ p, p ∈ prereqsOf m v ∧ p ∈ B) :
    ∀ (n : Nat) (v : String), v ∈ B →
      ∃ w : List String, w.length = n ∧ (∀ x ∈ w, x ∈ B) ∧
        List.Chain' (PrereqEdge m) (w ++ [v]) ∧
        ∀ hh ∈ (w ++ [v]).head?, hh ∈ B := by
  intro n
  induction n with
  | zero =>
    intro v hv
    exact ⟨[], rfl, by simp, by simp, by simpa using hv⟩
  | succ k ih =>
    intro v hv
    obtain ⟨w, hlen, hsub, hchain, hhead⟩ := ih v hv
    cases hw : (w ++ [v]).head? with
    | none => simp [List.head?_append] at hw
    | some h0 =>
      have hh0B : h0 ∈ B := hhead h0 hw
      obtain ⟨p, hp1, hp2⟩ := hB h0 hh0B
      refine ⟨p :: w, by simp [hlen], ?_, ?_, ?_⟩
      · intro x hx
        rcases List.mem_cons.1 hx with rfl | hx1
        · exact hp2
        · exact hsub x hx1
      · rw [show (p :: w) ++ [v] = p :: (w ++ [v]) from rfl, List.chain'_cons']
        refine ⟨fun y hy => ?_, hchain⟩
        rw [hw] at hy
        rcases (by simpa using hy : h0 = y) with rfl
        exact hp1
      · intro hh hhh
        rw [show (p :: w) ++ [v] = p :: (w ++ [v]) from rfl] at hhh
        rcases (by simpa using hhh : p = hh) with rfl
        exact hp2

theorem cycle_of_pred_closed {m : PMaPModel} {B : List String}
    (hB : ∀ v ∈ B, ∃ p, p ∈ prereqsOf m v ∧ p ∈ B)
    {v0 : String} (hv0 : v0 ∈ B) :
    ∃ l, (∀ x ∈ l, x ∈ B) ∧ IsClosedWalk m l := by
  obtain ⟨w, hlen, hsub, hchain, -⟩ := backward_walk hB (B.length + 1) v0 hv0
  have hnotnd : ¬ w.Nodup := by
    intro hnd
    have := (List.subperm_of_subset hnd fun x hx => hsub x hx).length_le
    omega
  obtain ⟨a, l1, l2, l3, hw⟩ := not_nodup_decomp hnotnd
  have hinfix : ((a :: l2) ++ [a]) <:+: w ++ [v0] := by
    refine ⟨l1, l3 ++ [v0], ?_⟩
    rw [hw]
    simp
  have hchain2 : List.Chain' (PrereqEdge m) ((a :: l2) ++ [a]) :=
    hchain.infix hinfix
  refine ⟨(a :: l2) ++ [a], ?_, ?_, ?_, hchain2⟩
  · intro x hx
    apply hsub x
    rw [hw]
    have hx' : x = a ∨ x ∈ l2 := by
      rcases List.mem_append.1 hx with h1 | h1
      · rcases List.mem_cons.1 h1 with rfl | h2
        · exact .inl rfl
        · exact .inr h2
      · exact .inl (by simpa using h1)
    rcases hx' with rfl | h2
    · simp
    · simp [h2]
  · simp
  · rw [List.getLast?_concat]
    simp

/-- If the Kahn phase misses some catalog code, the prerequisite relation
has a cycle running inside the left-over codes. -/
theorem leftover_cycle {m : PMaPModel} (h : WF m)
    (hineq : ∃ v ∈ catalog m, v ∉ (kahnRun m).1) :
    ∃ l, (∀ x ∈ l, x ∈ catalog m ∧ x ∉ (kahnRun m).1) ∧ IsClosedWalk m l := by
  obtain ⟨-, -, -, -, -, hmem⟩ := kahn_facts h
  have hBprop : ∀ v ∈ (catalog m).filter (fun x => x ∉ (kahnRun m).1),
      ∃ p, p ∈ prereqsOf m v ∧
        p ∈ (catalog m).filter (fun x => x ∉ (kahnRun m).1) := by
    intro v hv
    have hv1 := List.mem_filter.1 hv
    have hvN : v ∈ catalog m := hv1.1
    have hvno : v ∉ (kahnRun m).1 := by simpa using hv1.2
    have hnall : ¬ ∀ p ∈ prereqsOf m v, p ∈ (kahnRun m).1 :=
      fun hall => hvno ((hmem v hvN).2 hall)
    push_neg at hnall
    obtain ⟨p, hp, hpno⟩ := hnall
    have hpN : p ∈ catalog m := (prereq_edge_catalog h hp).1
    exact ⟨p, hp, List.mem_filter.2 ⟨hpN, by simpa using hpno⟩⟩
  obtain ⟨v0, hv0N, hv0no⟩ := hineq
  have hv0B : v0 ∈ (catalog m).filter (fun x => x ∉ (kahnRun m).1) :=
    List.mem_filter.2 ⟨hv0N, by simpa using hv0no⟩
  obtain ⟨l, hlsub, hlcw⟩ := cycle_of_pred_closed hBprop hv0B
  refine ⟨l, fun x hx => ?_, hlcw⟩
  have := List.mem_filter.1 (hlsub x hx)
  exact ⟨this.1, by simpa using this.2⟩

/-- The Kahn order covers the whole catalog exactly when its length agrees
with that of the indegree map (the `has_cycle` test of `topo_sort`). -/
theorem kahn_complete_iff {m : PMaPModel} (h : WF m) :
    (kahnRun m).1.length = (kahnRun m).2.length ↔
      ∀ v ∈ catalog m, v ∈ (kahnRun m).1 := by
  obtain ⟨hnd, hsub, -, hkeys, -, -⟩ := kahn_facts h
  have hsp : (kahnRun m).1.Subperm (catalog m) :=
    List.subperm_of_subset hnd hsub
  have hlen2 : (kahnRun m).2.length = (catalog m).length := by
    rw [← hkeys]
    exact (List.length_map (kahnRun m).2 Prod.fst).symm
  constructor
  · intro hlen v hv
    have hperm : (kahnRun m).1.Perm (catalog m) :=
      hsp.perm_of_length_le (by omega)
    exact hperm.mem_iff.2 hv
  · intro hall
    have hsp2 : (catalog m).Subperm (kahnRun m).1 :=
      List.subperm_of_subset (h.coursesNodup : (catalog m).Nodup) hall
    have h1 := hsp.length_le
    have h2 := hsp2.length_le
    omega

/-! ## `topo_sort` assembled from its phases -/

theorem topo_sort_order (m : PMaPModel) : m.topo_sort.1 = (kahnRun m).1 := rfl

theorem topo_sort_flag (m : PMaPModel) :
    m.topo_sort.2.1 = decide ((kahnRun m).1.length ≠ (kahnRun m).2.length) := rfl

theorem topo_sort_cycle (m : PMaPModel) :
    m.topo_sort.2.2 =
      if m.topo_sort.2.1 = true then
        (dfsSweep m.build_graph.1 (kahnRun m).2 ((kahnRun m).2.length + 1)
          (kahnRun m).2 ⟨[], [], [], none⟩).cycle
      else none := rfl

/-! ## Acyclicity from a complete prerequisite-respecting order -/

theorem indexOf_lt_of_left :
    ∀ (o1 : List String) (v : String) (o2 : List String),
      (o1 ++ v :: o2).Nodup → ∀ p ∈ o1,
      (o1 ++ v :: o2).indexOf p < (o1 ++ v :: o2).indexOf v
  | [], _, _, _, p, hp => by cases hp
  | a :: t, v, o2, hnd, p, hp => by
    have hnd1 := List.nodup_cons.1
      (by simpa using hnd : (a :: (t ++ v :: o2)).Nodup)
    have hav : a ≠ v := fun he =>
      hnd1.1 (he ▸ List.mem_append_right _ (List.mem_cons_self _ _))
    rcases List.mem_cons.1 hp with rfl | hp'
    · rw [show (p :: t) ++ v :: o2 = p :: (t ++ v :: o2) from rfl,
        List.indexOf_cons_self, List.indexOf_cons_ne _ hav]
      exact Nat.succ_pos _
    · have hap : a ≠ p := fun he => hnd1.1 (he ▸ List.mem_append_left _ hp')
      rw [show (a :: t) ++ v :: o2 = a :: (t ++ v :: o2) from rfl,
        List.indexOf_cons_ne _ hap, List.indexOf_cons_ne _ hav]
      exact Nat.succ_lt_succ (indexOf_lt_of_left t v o2 hnd1.2 p hp')

theorem chain'_tail_pred {R : String → String → Prop} :
    ∀ (a : String) (rest : List String), List.Chain' R (a :: rest) →
      ∀ x ∈ rest, ∃ p, R p x
  | _, [], _, x, hx => by cases hx
  | a, b :: t, hch, x, hx => by
    rcases List.mem_cons.1 hx with rfl | hx'
    · exact ⟨a, (List.chain'_cons.1 hch).1⟩
    · exact chain'_tail_pred b t (List.chain'_cons.1 hch).2 x hx'

theorem chain_head_lt_last {m : PMaPModel} {o : List String} (hnd : o.Nodup)
    (hpr : PrereqRespecting m o) :
    ∀ l : List String, List.Chain' (PrereqEdge m) l → (∀ x ∈ l, x ∈ o) →
      ∀ hh ∈ l.head?, ∀ lg ∈ l.getLast?, 2 ≤ l.length →
        o.indexOf hh < o.indexOf lg
  | [], _, _, _, h1, _, _, _ => by cases h1
  | [_], _, _, _, _, _, _, h3 => by simp at h3
  | x :: y :: t, hchain, hsub, hh, h1, lg, h2, _ => by
    rcases (by simpa using h1 : x = hh) with rfl
    have hedge : PrereqEdge m x y := (List.chain'_cons.1 hchain).1
    have hy : y ∈ o := hsub y (List.mem_cons_of_mem _ (List.mem_cons_self _ _))
    obtain ⟨s, t', ho⟩ := List.append_of_mem hy
    have hxs : x ∈ s := hpr s y t' ho x hedge
    have hlt1 : o.indexOf x < o.indexOf y := by
      rw [ho] at hnd ⊢
      exact indexOf_lt_of_left s y t' hnd x hxs
    cases t with
    | nil =>
      rcases (by simpa using h2 : y = lg) with rfl
      exact hlt1
    | cons z t2 =>
      rw [List.getLast?_cons_cons] at h2
      have hlt2 : o.indexOf y < o.indexOf lg :=
        chain_head_lt_last hnd hpr (y :: z :: t2) (List.chain'_cons.1 hchain).2
          (fun a ha => hsub a (List.mem_cons_of_mem _ ha)) y rfl lg h2 (by simp)
      omega

theorem closed_walk_nodes {m : PMaPModel} (h : WF m) {l : List String}
    (hcw : IsClosedWalk m l) : ∀ x ∈ l, x ∈ catalog m := by
  obtain ⟨hlen, hcl, hchain⟩ := hcw
  cases l with
  | nil => intro x hx; cases hx
  | cons a rest =>
    have hrest : ∀ x ∈ rest, x ∈ catalog m := by
      intro x hx
      obtain ⟨p, hp⟩ := chain'_tail_pred a rest hchain x hx
      exact (prereq_edge_catalog h hp).2
    intro x hx
    rcases List.mem_cons.1 hx with rfl | hx'
    · cases rest with
      | nil => simp at hlen
      | cons b t =>
        rw [List.getLast?_cons_cons] at hcl
        simp only [List.head?_cons] at hcl
        exact hrest x (List.mem_of_mem_getLast? hcl.symm)
    · exact hrest x hx'

theorem no_cycle_of_complete {m : PMaPModel} (h : WF m)
    (hcov : ∀ v ∈ catalog m, v ∈ (kahnRun m).1) : ¬ HasCycleP m := by
  rintro ⟨l, hcw⟩
  obtain ⟨hnd, -, hpr, -, -, -⟩ := kahn_facts h
  have hlsub : ∀ x ∈ l, x ∈ (kahnRun m).1 :=
    fun x hx => hcov x (closed_walk_nodes h hcw x hx)
  obtain ⟨hlen, hcl, hchain⟩ := hcw
  cases l with
  | nil => simp at hlen
  | cons b t =>
    have hhd : b ∈ (b :: t).head? := rfl
    have hlast : b ∈ (b :: t).getLast? := by rw [← hcl]; rfl
    have := chain_head_lt_last hnd hpr (b :: t) hchain hlsub b hhd b hlast hlen
    omega

theorem kahn_covers_of_flag_false {m : PMaPModel} (h : WF m)
    (hf : m.topo_sort.2.1 = false) : ∀ v ∈ catalog m, v ∈ (kahnRun m).1 := by
  rw [topo_sort_flag] at hf
  have hlen : (kahnRun m).1.length = (kahnRun m).2.length := by
    by_contra hne
    simp [hne] at hf
  exact (kahn_complete_iff h).1 hlen

theorem not_hasCycle_of_flag {m : PMaPModel} (h : WF m)
    (hf : m.topo_sort.2.1 = false) : ¬ HasCycleP m :=
  no_cycle_of_complete h (kahn_covers_of_flag_false h hf)

theorem flag_false_of_not_hasCycle {m : PMaPModel} (h : WF m)
    (hac : ¬ HasCycleP m) : m.topo_sort.2.1 = false := by
  rw [topo_sort_flag]
  have hcov : ∀ v ∈ catalog m, v ∈ (kahnRun m).1 := by
    by_contra hnc
    push_neg at hnc
    obtain ⟨v, hv1, hv2⟩ := hnc
    obtain ⟨l, -, hcw⟩ := leftover_cycle h ⟨v, hv1, hv2⟩
    exact hac ⟨l, hcw⟩
  have hlen := (kahn_complete_iff h).2 hcov
  simp [hlen]

/-- C1: on a reachable model whose prerequisite relation is acyclic,
`topo_sort` emits each catalog code exactly once (membership iff, with no
duplicates), every prerequisite strictly before each of its dependents,
the cycle flag `false`, and no exemplar cycle. -/
theorem topo_sort_acyclic (m : PMaPModel) (hm : Reachable m)
    (hac : ¬ HasCycleP m) :
    (∀ c, c ∈ m.topo_sort.1 ↔ c ∈ catalog m) ∧ m.topo_sort.1.Nodup ∧
      PrereqRespecting m m.topo_sort.1 ∧ m.topo_sort.2.1 = false ∧
      m.topo_sort.2.2 = none := by
  have h := reachable_wf hm
  obtain ⟨hnd, hsub, hpr, -, -, -⟩ := kahn_facts h
  have hflag : m.topo_sort.2.1 = false := flag_false_of_not_hasCycle h hac
  have hcov := kahn_covers_of_flag_false h hflag
  refine ⟨?_, ?_, ?_, hflag, ?_⟩
  · intro c
    rw [topo_sort_order]
    exact ⟨fun hc => hsub c hc, fun hc => hcov c hc⟩
  · rw [topo_sort_order]; exact hnd
  · rw [topo_sort_order]; exact hpr
  · rw [topo_sort_cycle, hflag]
    simp

theorem topo_sort_acyclic_witness :
    (∀ c, c ∈ exampleModel.topo_sort.1 ↔ c ∈ catalog exampleModel) ∧
      exampleModel.topo_sort.1.Nodup ∧
      PrereqRespecting exampleModel exampleModel.topo_sort.1 ∧
      exampleModel.topo_sort.2.1 = false ∧
      exampleModel.topo_sort.2.2 = none :=
  topo_sort_acyclic exampleModel (Reachable.from_dict exampleData)
    (not_hasCycle_of_flag (reachable_wf (Reachable.from_dict exampleData))
      (by decide))

/-! ## The cycle-extraction search: exemplar-path reconstruction -/

theorem stackLink_transfer {A : List (String × List String)}
    {p1 p2 : List (String × String)} :
    ∀ (s : List String), (∀ y ∈ s, dfind p2 y = dfind p1 y) →
      List.Chain' (StackLink A p1) s → List.Chain' (StackLink A p2) s
  | [], _, _ => List.chain'_nil
  | [x], _, _ => List.chain'_singleton x
  | x :: y :: t, hs, hch => by
    rw [List.chain'_cons] at hch ⊢
    refine ⟨⟨?_, hch.1.2⟩, stackLink_transfer (y :: t)
      (fun z hz => hs z (List.mem_cons_of_mem _ hz)) hch.2⟩
    rw [hs y (List.mem_cons_of_mem _ (List.mem_cons_self _ _))]
    exact hch.1.1

theorem pathLoop_spec (parent : List (String × String)) (v : String) :
    ∀ (s2 : List String) (u : String) (fuel : Nat) (acc : List String),
      (v :: s2).getLast? = some u →
      List.Chain' (fun x y => dfind parent y = some x) (v :: s2) →
      v ∉ s2 → s2.length < fuel →
      pathLoop parent fuel v u acc = acc ++ s2.reverse := by
  intro s2
  induction s2 using List.reverseRecOn with
  | nil =>
    intro u fuel acc hlast hchain hnm hfuel
    obtain rfl : v = u := by simpa using hlast
    cases fuel with
    | zero => omega
    | succ f =>
      rw [pathLoop, if_pos rfl]
      simp
  | append_singleton s2' w ih =>
    intro u fuel acc hlast hchain hnm hfuel
    obtain rfl : w = u := by
      have hg : (v :: (s2' ++ [w])).getLast? = some w := by
        rw [show v :: (s2' ++ [w]) = (v :: s2') ++ [w] from by simp,
          List.getLast?_concat]
      rw [hg] at hlast
      exact Option.some.inj hlast
    have hvw : v ≠ w := fun he => hnm (he ▸ List.mem_append_right _ (by simp))
    have hvs2' : v ∉ s2' := fun he => hnm (List.mem_append_left _ he)
    cases fuel with
    | zero => simp at hfuel
    | succ f =>
      have hchain2 : List.Chain' (fun x y => dfind parent y = some x)
          ((v :: s2') ++ [w]) := by
        rw [show (v :: s2') ++ [w] = v :: (s2' ++ [w]) from by simp]
        exact hchain
      obtain ⟨hc1, -, hc3⟩ := List.chain'_append.1 hchain2
      cases hg : (v :: s2').getLast? with
      | none => simp at hg
      | some g =>
        have hpw : dfind parent w = some g := hc3 g hg w rfl
        rw [pathLoop, if_neg (Ne.symm hvw)]
        have hdg : dgetd parent w w = g := by rw [dgetd, hpw]; rfl
        rw [hdg, ih g f (acc ++ [w]) hg hc1 hvs2' (by simpa using hfuel)]
        simp

theorem cyclePath_spec {A : List (String × List String)}
    {parent : List (String × String)} {stack s1 s2 : List String}
    {u v : String}
    (hstack : stack = s1 ++ v :: s2)
    (hnd : stack.Nodup)
    (hlast : stack.getLast? = some u)
    (hchain : List.Chain' (StackLink A parent) stack) :
    cyclePath parent u v = (v :: s2) ++ [v] ∧
      List.Chain' (fun x y => y ∈ dgetd A x []) (v :: s2) ∧
      (v :: s2).getLast? = some u := by
  have hsuf : (v :: s2) <:+ stack := ⟨s1, hstack.symm⟩
  have hchain2 : List.Chain' (StackLink A parent) (v :: s2) := hchain.suffix hsuf
  have hnd2 : (v :: s2).Nodup := (hsuf.sublist).nodup hnd
  have hvns : v ∉ s2 := (List.nodup_cons.1 hnd2).1
  have hlast2 : (v :: s2).getLast? = some u := by
    cases hg : (v :: s2).getLast? with
    | none => simp at hg
    | some g =>
      rw [hstack, List.getLast?_append, hg] at hlast
      simpa using hlast
  have hparchain : List.Chain' (fun x y => dfind parent y = some x) (v :: s2) :=
    hchain2.imp (fun a b hab => hab.1)
  have hadjchain : List.Chain' (fun x y => y ∈ dgetd A x []) (v :: s2) :=
    hchain2.imp (fun a b hab => hab.2)
  have hs2keys : ∀ y ∈ s2, y ∈ dkeys parent := by
    intro y hy
    obtain ⟨p, hp⟩ := chain'_tail_pred v s2 hparchain y hy
    exact (dfind_isSome parent y).1 (by rw [hp]; rfl)
  have hs2len : s2.length < parent.length + 1 := by
    have hsp : s2.Subperm (dkeys parent) :=
      List.subperm_of_subset (List.nodup_cons.1 hnd2).2 hs2keys
    have h1 := hsp.length_le
    have h2 : (dkeys parent).length = parent.length :=
      List.length_map parent Prod.fst
    omega
  have hpl := pathLoop_spec parent v s2 u (parent.length + 1) [v]
    hlast2 hparchain hvns hs2len
  refine ⟨?_, hadjchain, hlast2⟩
  rw [cyclePath, hpl]
  simp

theorem dfs_node_sound_zero (A : List (String × List String))
    (D : List (String × Int)) (N : List String) :
    DfsNodeSound A D N 0 := by
  intro u st hinv _ _ _
  have he : dfsNode A D 0 u st = (false, st) := by simp [dfsNode]
  rw [he]
  constructor
  · intro _
    exact ⟨rfl, rfl, fun y _ => rfl, hinv, fun x hx => hx⟩
  · intro htrue
    simp at htrue

theorem dfs_scan_sound_of_node (A : List (String × List String))
    (D : List (String × Int)) (N : List String)
    (hA : ∀ x : String, ∀ c ∈ dgetd A x [], c ∈ N) (fuel : Nat)
    (hnode : DfsNodeSound A D N fuel) : DfsScanSound A D N fuel := by
  intro u vs
  induction vs with
  | nil =>
    intro st hinv hlast _
    have he : dfsScan A D fuel u [] st = (false, st) := by simp [dfsScan]
    rw [he]
    constructor
    · intro _
      exact ⟨rfl, rfl, fun y _ => rfl, hinv, fun x hx => hx⟩
    · intro htrue
      simp at htrue
  | cons v vs' ihvs =>
    intro st hinv hlast hsub
    have hvadj : v ∈ dgetd A u [] := hsub v (List.mem_cons_self _ _)
    have hsub' : ∀ w ∈ vs', w ∈ dgetd A u [] :=
      fun w hw => hsub w (List.mem_cons_of_mem _ hw)
    by_cases hdeg : 0 < dgetd D v 0
    · by_cases hvis : v ∈ st.visited
      · by_cases hstk : v ∈ st.stack
        · -- back edge into the active path: a cycle is reported
          have heq : dfsScan A D fuel u (v :: vs') st =
              (true, { st with cycle := some (cyclePath st.parent u v) }) := by
            simp only [dfsScan]
            rw [if_pos hdeg, if_neg (by simpa using hvis), if_pos hstk]
          obtain ⟨s1, s2, hstack⟩ := List.append_of_mem hstk
          obtain ⟨hpath, hadj, hlast2⟩ :=
            cyclePath_spec (A := A) hstack hinv.stackNodup hlast hinv.chain
          constructor
          · intro hfalse
            rw [heq] at hfalse
            simp at hfalse
          · intro _
            refine ⟨(v :: s2) ++ [v], by rw [heq]; simp [hpath], by simp, ?_, ?_⟩
            · show ((v :: s2) ++ [v]).head? = ((v :: s2) ++ [v]).getLast?
              rw [List.getLast?_concat]
              rfl
            · refine List.chain'_append.2 ⟨hadj, List.chain'_singleton v, ?_⟩
              intro x hx y hy
              rw [hlast2] at hx
              rcases (by simpa using hx : u = x) with rfl
              rcases (by simpa using hy : v = y) with rfl
              exact hvadj
        · -- v already fully processed: skip it
          have heq : dfsScan A D fuel u (v :: vs') st =
              dfsScan A D fuel u vs' st := by
            simp only [dfsScan]
            rw [if_pos hdeg, if_neg (by simpa using hvis), if_neg hstk]
          rw [heq]
          exact ihvs st hinv hlast hsub'
      · -- v unvisited: record the parent link and recurse
        have hvN : v ∈ N := hA u v hvadj
        have hstab : ∀ y ∈ st.stack,
            dfind (dset st.parent v u) y = dfind st.parent y := by
          intro y hy
          have hyv : y ≠ v := fun he => hvis (he ▸ hinv.stackSub y hy)
          exact dfind_dset_ne _ _ hyv
        have hinv1 : DfsInv A N { st with parent := dset st.parent v u } :=
          ⟨hinv.stackSub, hinv.stackNodup, hinv.visSub,
            dkeys_nodup_dset _ _ hinv.parentNodup,
            stackLink_transfer st.stack hstab hinv.chain⟩
        have hext1 : List.Chain' (StackLink A (dset st.parent v u))
            (st.stack ++ [v]) := by
          refine List.chain'_append.2 ⟨stackLink_transfer st.stack hstab hinv.chain,
            List.chain'_singleton v, ?_⟩
          intro x hx y hy
          rw [hlast] at hx
          rcases (by simpa using hx : u = x) with rfl
          rcases (by simpa using hy : v = y) with rfl
          exact ⟨dfind_dset_self _ _ _, hvadj⟩
        have hnv := hnode v { st with parent := dset st.parent v u } hinv1 hvN
          hvis hext1
        rcases hrun : dfsNode A D fuel v { st with parent := dset st.parent v u }
          with ⟨b, st2⟩
        rw [hrun] at hnv
        cases b with
        | true =>
          have heq : dfsScan A D fuel u (v :: vs') st = (true, st2) := by
            simp only [dfsScan]
            rw [if_pos hdeg, if_pos hvis, hrun]
          constructor
          · intro hfalse
            rw [heq] at hfalse
            simp at hfalse
          · intro _
            obtain ⟨l, hl1, hl2⟩ := hnv.2 rfl
            exact ⟨l, by rw [heq]; exact hl1, hl2⟩
        | false =>
          obtain ⟨r1, r2, r3, r4, r5⟩ := hnv.1 rfl
          have r1' : st2.stack = st.stack := r1
          have r2' : st2.cycle = st.cycle := r2
          have r3' : ∀ y ∈ st.visited,
              dfind st2.parent y = dfind (dset st.parent v u) y := r3
          have r5' : ∀ x ∈ st.visited, x ∈ st2.visited := r5
          have heq : dfsScan A D fuel u (v :: vs') st =
              dfsScan A D fuel u vs' st2 := by
            simp only [dfsScan]
            rw [if_pos hdeg, if_pos hvis, hrun]
          have hlast2 : st2.stack.getLast? = some u := by
            rw [r1']
            exact hlast
          have hrest := ihvs st2 r4 hlast2 hsub'
          rw [heq]
          constructor
          · intro hfalse
            obtain ⟨q1, q2, q3, q4, q5⟩ := hrest.1 hfalse
            refine ⟨by rw [q1, r1'], by rw [q2, r2'], ?_, q4, ?_⟩
            · intro y hy
              have hyv : y ≠ v := fun he => hvis (he ▸ hy)
              rw [q3 y (r5' y hy), r3' y hy]
              exact dfind_dset_ne _ _ hyv
            · intro x hx
              exact q5 x (r5' x hx)
          · intro htrue
            exact hrest.2 htrue
    · -- residual test fails: skip the edge
      have heq : dfsScan A D fuel u (v :: vs') st =
          dfsScan A D fuel u vs' st := by
        simp only [dfsScan]
        rw [if_neg hdeg]
      rw [heq]
      exact ihvs st hinv hlast hsub'

theorem dfs_node_sound_succ (A : List (String × List String))
    (D : List (String × Int)) (N : List String) (f : Nat)
    (hscan : DfsScanSound A D N f) : DfsNodeSound A D N (f + 1) := by
  intro u st hinv huN huv hext
  have hsu : u ∉ st.stack := fun hs => huv (hinv.stackSub u hs)
  have hvis1 : sadd st.visited u = st.visited ++ [u] := sadd_eq_append huv
  have hstk1 : sadd st.stack u = st.stack ++ [u] := sadd_eq_append hsu
  have hinv1 : DfsInv A N
      { st with visited := sadd st.visited u, stack := sadd st.stack u } := by
    refine ⟨?_, ?_, ?_, hinv.parentNodup, ?_⟩
    · intro x hx
      have hx' : x ∈ sadd st.stack u := hx
      rw [hstk1] at hx'
      show x ∈ sadd st.visited u
      rw [hvis1]
      rcases List.mem_append.1 hx' with h1 | h1
      · exact List.mem_append_left _ (hinv.stackSub x h1)
      · exact List.mem_append_right _ h1
    · show (sadd st.stack u).Nodup
      rw [hstk1]
      exact List.nodup_append.2 ⟨hinv.stackNodup, List.nodup_singleton u,
        fun a ha hau => hsu ((by simpa using hau : a = u) ▸ ha)⟩
    · intro x hx
      have hx' : x ∈ sadd st.visited u := hx
      rw [hvis1] at hx'
      rcases List.mem_append.1 hx' with h1 | h1
      · exact hinv.visSub x h1
      · exact (by simpa using h1 : x = u) ▸ huN
    · show List.Chain' (StackLink A st.parent) (sadd st.stack u)
      rw [hstk1]
      exact hext
  have hlast1 : (sadd st.stack u).getLast? = some u := by
    rw [hstk1, List.getLast?_concat]
  have hs := hscan u (dgetd A u [])
    { st with visited := sadd st.visited u, stack := sadd st.stack u }
    hinv1 hlast1 (fun w hw => hw)
  rcases hrun : dfsScan A D f u (dgetd A u [])
      { st with visited := sadd st.visited u, stack := sadd st.stack u }
    with ⟨b, st2⟩
  rw [hrun] at hs
  have heq : dfsNode A D (f + 1) u st =
      match (b, st2) with
      | (true, st2) => (true, st2)
      | (false, st2) => (false, { st2 with stack := sdel st2.stack u }) := by
    simp only [dfsNode]
    rw [hrun]
  cases b with
  | true =>
    constructor
    · intro hfalse
      rw [heq] at hfalse
      simp at hfalse
    · intro _
      obtain ⟨l, hl1, hl2⟩ := hs.2 rfl
      exact ⟨l, by rw [heq]; exact hl1, hl2⟩
  | false =>
    obtain ⟨r1, r2, r3, r4, r5⟩ := hs.1 rfl
    have r1' : st2.stack = st.stack ++ [u] := by
      rw [show st2.stack = sadd st.stack u from r1, hstk1]
    have r2' : st2.cycle = st.cycle := r2
    have r3' : ∀ y ∈ st.visited, dfind st2.parent y = dfind st.parent y :=
      fun y hy => r3 y (mem_sadd.2 (.inl hy))
    have r5' : ∀ x ∈ st.visited, x ∈ st2.visited :=
      fun x hx => r5 x (mem_sadd.2 (.inl hx))
    have hsdel : sdel st2.stack u = st.stack := by
      rw [r1']
      exact sdel_append hsu
    constructor
    · intro _
      refine ⟨?_, ?_, ?_, ?_, ?_⟩
      · rw [heq]
        exact hsdel
      · rw [heq]
        exact r2'
      · intro y hy
        rw [heq]
        exact r3' y hy
      · rw [heq]
        refine ⟨?_, ?_, r4.visSub, r4.parentNodup, ?_⟩
        · intro x hx
          have hx' : x ∈ sdel st2.stack u := hx
          rw [hsdel] at hx'
          exact r5' x (hinv.stackSub x hx')
        · show (sdel st2.stack u).Nodup
          rw [hsdel]
          exact hinv.stackNodup
        · show List.Chain' (StackLink A st2.parent) (sdel st2.stack u)
          rw [hsdel]
          exact stackLink_transfer st.stack
            (fun y hy => r3' y (hinv.stackSub y hy)) hinv.chain
      · intro x hx
        rw [heq]
        exact r5' x hx
    · intro htrue
      rw [heq] at htrue
      simp at htrue

theorem dfs_sound (A : List (String × List String)) (D : List (String × Int))
    (N : List String) (hA : ∀ x : String, ∀ c ∈ dgetd A x [], c ∈ N) :
    ∀ fuel : Nat, DfsNodeSound A D N fuel ∧ DfsScanSound A D N fuel := by
  intro fuel
  induction fuel with
  | zero =>
    have hn := dfs_node_sound_zero A D N
    exact ⟨hn, dfs_scan_sound_of_node A D N hA 0 hn⟩
  | succ f ih =>
    have hn := dfs_node_sound_succ A D N f ih.2
    exact ⟨hn, dfs_scan_sound_of_node A D N hA (f + 1) hn⟩

/-! ## The cycle-extraction search: completeness -/

theorem closed_walk_succ {A : List (String × List String)} {Z : List String}
    (hchain : List.Chain' (fun x y => y ∈ dgetd A x []) Z)
    (hcl : Z.head? = Z.getLast?) (hlen : 2 ≤ Z.length) :
    ∀ x ∈ Z, ∃ y, y ∈ Z ∧ y ∈ dgetd A x [] := by
  intro x hx
  obtain ⟨s, t, hZ⟩ := List.append_of_mem hx
  cases t with
  | cons y t' =>
    have hsuf : List.Chain' (fun a b => b ∈ dgetd A a []) (x :: y :: t') :=
      hchain.suffix ⟨s, hZ.symm⟩
    refine ⟨y, ?_, (List.chain'_cons.1 hsuf).1⟩
    rw [hZ]
    exact List.mem_append_right _ (List.mem_cons_of_mem _ (List.mem_cons_self _ _))
  | nil =>
    have hgl : Z.getLast? = some x := by rw [hZ, List.getLast?_concat]
    have hhd : Z.head? = some x := by rw [hcl]; exact hgl
    cases Z with
    | nil => cases hx
    | cons z0 zr =>
      have hz0 : z0 = x := by simpa using hhd
      cases zr with
      | nil => simp at hlen
      | cons z1 zr' =>
        have hedge : z1 ∈ dgetd A z0 [] := (List.chain'_cons.1 hchain).1
        exact ⟨z1, List.mem_cons_of_mem _ (List.mem_cons_self _ _), hz0 ▸ hedge⟩

theorem unvis_mono {N v1 v2 : List String} (hsub : ∀ x ∈ v1, x ∈ v2) :
    (N.filter fun x => x ∉ v2).length ≤ (N.filter fun x => x ∉ v1).length := by
  refine filter_length_mono (fun x hx => ?_) N
  have hx' : x ∉ v2 := of_decide_eq_true hx
  exact decide_eq_true fun h1 => hx' (hsub x h1)

theorem dfs_node_complete_zero (A : List (String × List String))
    (D : List (String × Int)) (N : List String) :
    DfsNodeComplete A D N 0 := by
  intro Z u st _ _ _ _ _ _ hfuel huN huv _ _
  exfalso
  have hmem : u ∈ N.filter fun x => x ∉ st.visited :=
    List.mem_filter.2 ⟨huN, by simpa using huv⟩
  have hlen : (N.filter fun x => x ∉ st.visited).length ≠ 0 := by
    simpa [List.length_eq_zero] using List.ne_nil_of_mem hmem
  omega

theorem dfs_scan_complete_of_node (A : List (String × List String))
    (D : List (String × Int)) (N : List String)
    (hA : ∀ x : String, ∀ c ∈ dgetd A x [], c ∈ N) (fuel : Nat)
    (hnodeS : DfsNodeSound A D N fuel)
    (hnodeC : DfsNodeComplete A D N fuel) :
    DfsScanComplete A D N fuel := by
  intro Z u vs
  induction vs with
  | nil =>
    intro st _ _ _ _ _ _ _ _ hzv hfalse
    have he : dfsScan A D fuel u [] st = (false, st) := by simp [dfsScan]
    rw [he]
    exact ⟨fun x hx hv => hzv x hx hv, fun w hw => absurd hw (List.not_mem_nil w)⟩
  | cons v vs' ihvs =>
    intro st hZc hZcl hZlen hZres hinv hlast hsub hfuel hzv hfalse
    have hvadj : v ∈ dgetd A u [] := hsub v (List.mem_cons_self _ _)
    have hsub' : ∀ w ∈ vs', w ∈ dgetd A u [] :=
      fun w hw => hsub w (List.mem_cons_of_mem _ hw)
    by_cases hdeg : 0 < dgetd D v 0
    · by_cases hvis : v ∈ st.visited
      · by_cases hstk : v ∈ st.stack
        · have heq : dfsScan A D fuel u (v :: vs') st =
              (true, { st with cycle := some (cyclePath st.parent u v) }) := by
            simp only [dfsScan]
            rw [if_pos hdeg, if_neg (by simpa using hvis), if_pos hstk]
          rw [heq] at hfalse
          simp at hfalse
        · have hvZ : v ∉ Z := fun hz => hstk (hzv v hz hvis)
          have heq : dfsScan A D fuel u (v :: vs') st =
              dfsScan A D fuel u vs' st := by
            simp only [dfsScan]
            rw [if_pos hdeg, if_neg (by simpa using hvis), if_neg hstk]
          rw [heq] at hfalse ⊢
          obtain ⟨c1, c2⟩ := ihvs st hZc hZcl hZlen hZres hinv hlast hsub'
            hfuel hzv hfalse
          refine ⟨c1, fun w hw => ?_⟩
          rcases List.mem_cons.1 hw with rfl | hw'
          · exact hvZ
          · exact c2 w hw'
      · have hvN : v ∈ N := hA u v hvadj
        have hstab : ∀ y ∈ st.stack,
            dfind (dset st.parent v u) y = dfind st.parent y := by
          intro y hy
          have hyv : y ≠ v := fun he => hvis (he ▸ hinv.stackSub y hy)
          exact dfind_dset_ne _ _ hyv
        have hinv1 : DfsInv A N { st with parent := dset st.parent v u } :=
          ⟨hinv.stackSub, hinv.stackNodup, hinv.visSub,
            dkeys_nodup_dset _ _ hinv.parentNodup,
            stackLink_transfer st.stack hstab hinv.chain⟩
        have hext1 : List.Chain' (StackLink A (dset st.parent v u))
            (st.stack ++ [v]) := by
          refine List.chain'_append.2 ⟨stackLink_transfer st.stack hstab hinv.chain,
            List.chain'_singleton v, ?_⟩
          intro x hx y hy
          rw [hlast] at hx
          rcases (by simpa using hx : u = x) with rfl
          rcases (by simpa using hy : v = y) with rfl
          exact ⟨dfind_dset_self _ _ _, hvadj⟩
        rcases hrun : dfsNode A D fuel v { st with parent := dset st.parent v u }
          with ⟨b, st2⟩
        cases b with
        | true =>
          have heq : dfsScan A D fuel u (v :: vs') st = (true, st2) := by
            simp only [dfsScan]
            rw [if_pos hdeg, if_pos hvis, hrun]
          rw [heq] at hfalse
          simp at hfalse
        | false =>
          have hsound := hnodeS v { st with parent := dset st.parent v u }
            hinv1 hvN hvis hext1
          rw [hrun] at hsound
          obtain ⟨r1, r2, r3, r4, r5⟩ := hsound.1 rfl
          have hcomp := hnodeC Z v { st with parent := dset st.parent v u }
            hZc hZcl hZlen hZres hinv1 hext1 hfuel hvN hvis hzv (by rw [hrun])
          rw [hrun] at hcomp
          obtain ⟨c1, c2⟩ := hcomp
          have heq : dfsScan A D fuel u (v :: vs') st =
              dfsScan A D fuel u vs' st2 := by
            simp only [dfsScan]
            rw [if_pos hdeg, if_pos hvis, hrun]
          rw [heq] at hfalse ⊢
          have r1' : st2.stack = st.stack := r1
          have hlast2 : st2.stack.getLast? = some u := by
            rw [r1']
            exact hlast
          have hfuel2 : (N.filter fun x => x ∉ st2.visited).length ≤ fuel :=
            le_trans (unvis_mono fun x hx => r5 x hx) hfuel
          have hzv2 : ∀ x ∈ Z, x ∈ st2.visited → x ∈ st2.stack := by
            intro x hx hv
            rw [r1']
            exact c1 x hx hv
          obtain ⟨d1, d2⟩ := ihvs st2 hZc hZcl hZlen hZres r4 hlast2 hsub'
            hfuel2 hzv2 hfalse
          refine ⟨?_, ?_⟩
          · intro x hx hv
            have hx2 := d1 x hx hv
            rw [r1'] at hx2
            exact hx2
          · intro w hw
            rcases List.mem_cons.1 hw with rfl | hw'
            · exact c2
            · exact d2 w hw'
    · have hvZ : v ∉ Z := fun hz => hdeg (hZres v hz)
      have heq : dfsScan A D fuel u (v :: vs') st =
          dfsScan A D fuel u vs' st := by
        simp only [dfsScan]
        rw [if_neg hdeg]
      rw [heq] at hfalse ⊢
      obtain ⟨c1, c2⟩ := ihvs st hZc hZcl hZlen hZres hinv hlast hsub'
        hfuel hzv hfalse
      refine ⟨c1, fun w hw => ?_⟩
      rcases List.mem_cons.1 hw with rfl | hw'
      · exact hvZ
      · exact c2 w hw'

theorem dfs_node_complete_succ (A : List (String × List String))
    (D : List (String × Int)) (N : List String) (hN : N.Nodup) (f : Nat)
    (hscanC : DfsScanComplete A D N f) :
    DfsNodeComplete A D N (f + 1) := by
  intro Z u st hZc hZcl hZlen hZres hinv hext hfuel huN huv hzv hfalse
  have hsu : u ∉ st.stack := fun hs => huv (hinv.stackSub u hs)
  have hvis1 : sadd st.visited u = st.visited ++ [u] := sadd_eq_append huv
  have hstk1 : sadd st.stack u = st.stack ++ [u] := sadd_eq_append hsu
  have hinv1 : DfsInv A N
      { st with visited := sadd st.visited u, stack := sadd st.stack u } := by
    refine ⟨?_, ?_, ?_, hinv.parentNodup, ?_⟩
    · intro x hx
      have hx' : x ∈ sadd st.stack u := hx
      rw [hstk1] at hx'
      show x ∈ sadd st.visited u
      rw [hvis1]
      rcases List.mem_append.1 hx' with h1 | h1
      · exact List.mem_append_left _ (hinv.stackSub x h1)
      · exact List.mem_append_right _ h1
    · show (sadd st.stack u).Nodup
      rw [hstk1]
      exact List.nodup_append.2 ⟨hinv.stackNodup, List.nodup_singleton u,
        fun a ha hau => hsu ((by simpa using hau : a = u) ▸ ha)⟩
    · intro x hx
      have hx' : x ∈ sadd st.visited u := hx
      rw [hvis1] at hx'
      rcases List.mem_append.1 hx' with h1 | h1
      · exact hinv.visSub x h1
      · exact (by simpa using h1 : x = u) ▸ huN
    · show List.Chain' (StackLink A st.parent) (sadd st.stack u)
      rw [hstk1]
      exact hext
  have hlast1 : (sadd st.stack u).getLast? = some u := by
    rw [hstk1, List.getLast?_concat]
  have hfuel1 : (N.filter fun x => x ∉ sadd st.visited u).length ≤ f := by
    simp only [hvis1]
    have := filter_notmem_succ hN huN st.visited huv
    omega
  have hzv1 : ∀ x ∈ Z, x ∈ sadd st.visited u → x ∈ sadd st.stack u := by
    intro x hx hv
    rw [hvis1] at hv
    rw [hstk1]
    rcases List.mem_append.1 hv with h1 | h1
    · exact List.mem_append_left _ (hzv x hx h1)
    · exact List.mem_append_right _ h1
  rcases hrun : dfsScan A D f u (dgetd A u [])
      { st with visited := sadd st.visited u, stack := sadd st.stack u }
    with ⟨b, st2⟩
  have heq : dfsNode A D (f + 1) u st =
      match (b, st2) with
      | (true, st2) => (true, st2)
      | (false, st2) => (false, { st2 with stack := sdel st2.stack u }) := by
    simp only [dfsNode]
    rw [hrun]
  cases b with
  | true =>
    rw [heq] at hfalse
    simp at hfalse
  | false =>
    have hcomp := hscanC Z u (dgetd A u [])
      { st with visited := sadd st.visited u, stack := sadd st.stack u }
      hZc hZcl hZlen hZres hinv1 hlast1 (fun w hw => hw) hfuel1 hzv1
      (by rw [hrun])
    rw [hrun] at hcomp
    obtain ⟨c1, c2⟩ := hcomp
    have huZ : u ∉ Z := by
      intro huz
      obtain ⟨y, hyZ, hyadj⟩ := closed_walk_succ hZc hZcl hZlen u huz
      exact c2 y hyadj hyZ
    refine ⟨?_, huZ⟩
    intro x hx hv
    rw [heq] at hv
    have hv2 : x ∈ st2.visited := hv
    have hx1 : x ∈ sadd st.stack u := c1 x hx hv2
    rw [hstk1] at hx1
    rcases List.mem_append.1 hx1 with h4 | h4
    · exact h4
    · rcases (by simpa using h4 : x = u) with rfl
      exact absurd hx huZ

theorem dfs_complete (A : List (String × List String))
    (D : List (String × Int)) (N : List String)
    (hA : ∀ x : String, ∀ c ∈ dgetd A x [], c ∈ N) (hN : N.Nodup) :
    ∀ fuel : Nat, DfsNodeComplete A D N fuel ∧ DfsScanComplete A D N fuel := by
  intro fuel
  induction fuel with
  | zero =>
    have hn := dfs_node_complete_zero A D N
    exact ⟨hn, dfs_scan_complete_of_node A D N hA 0
      (dfs_sound A D N hA 0).1 hn⟩
  | succ f ih =>
    have hn := dfs_node_complete_succ A D N hN f ih.2
    exact ⟨hn, dfs_scan_complete_of_node A D N hA (f + 1)
      (dfs_sound A D N hA (f + 1)).1 hn⟩

/-- The sweep over the indegree entries finds and stores a valid closed
walk whenever some entry witnesses a residual cycle. -/
theorem dfs_sweep_complete (A : List (String × List String))
    (D : List (String × Int)) (N : List String)
    (hA : ∀ x : String, ∀ c ∈ dgetd A x [], c ∈ N) (hN : N.Nodup)
    (fuel : Nat) (hfuelN : N.length < fuel) {Z : List String}
    (hZc : List.Chain' (fun x y => y ∈ dgetd A x []) Z)
    (hZcl : Z.head? = Z.getLast?) (hZlen : 2 ≤ Z.length)
    (hZres : ∀ x ∈ Z, 0 < dgetd D x 0) :
    ∀ (items : List (String × Int)) (st : DfsSt),
      (∀ e ∈ items, e.1 ∈ N) →
      DfsInv A N st → st.stack = [] →
      (∀ x ∈ Z, x ∉ st.visited) →
      (∃ e ∈ items, e.1 ∈ Z ∧ 0 < e.2) →
      ∃ l, (dfsSweep A D fuel items st).cycle = some l ∧ AdjClosedWalk A l := by
  intro items
  induction items with
  | nil =>
    intro st _ _ _ _ hwit
    obtain ⟨e, he, -⟩ := hwit
    cases he
  | cons nd rest ih =>
    intro st hkeys hinv hstk hfresh hwit
    have hunvis : (N.filter fun x => x ∉ st.visited).length ≤ N.length :=
      List.length_filter_le _ _
    by_cases hguard : 0 < nd.2 ∧ nd.1 ∉ st.visited
    · have heq : dfsSweep A D fuel (nd :: rest) st =
          (match dfsNode A D fuel nd.1 st with
           | (true, st1) => st1
           | (false, st1) => dfsSweep A D fuel rest st1) := by
        simp only [dfsSweep]
        rw [if_pos hguard]
      rcases hrun : dfsNode A D fuel nd.1 st with ⟨b, st1⟩
      have hext : List.Chain' (StackLink A st.parent) (st.stack ++ [nd.1]) := by
        rw [hstk]
        exact List.chain'_singleton _
      have hndN : nd.1 ∈ N := hkeys nd (List.mem_cons_self _ _)
      cases b with
      | true =>
        have hs := ((dfs_sound A D N hA fuel).1 nd.1 st hinv hndN hguard.2 hext).2
        rw [hrun] at hs
        obtain ⟨l, hl1, hl2⟩ := hs rfl
        refine ⟨l, ?_, hl2⟩
        rw [heq, hrun]
        exact hl1
      | false =>
        have hsound := (dfs_sound A D N hA fuel).1 nd.1 st hinv hndN hguard.2 hext
        rw [hrun] at hsound
        obtain ⟨r1, r2, r3, r4, r5⟩ := hsound.1 rfl
        have hcomp := (dfs_complete A D N hA hN fuel).1 Z nd.1 st hZc hZcl hZlen
          hZres hinv hext (by omega) hndN hguard.2
          (fun x hx hv => absurd hv (hfresh x hx)) (by rw [hrun])
        rw [hrun] at hcomp
        obtain ⟨c1, c2⟩ := hcomp
        have hfresh1 : ∀ x ∈ Z, x ∉ st1.visited := by
          intro x hx hv
          have hx1 := c1 x hx hv
          rw [hstk] at hx1
          cases hx1
        have hwit1 : ∃ e ∈ rest, e.1 ∈ Z ∧ 0 < e.2 := by
          obtain ⟨e, he, he1, he2⟩ := hwit
          rcases List.mem_cons.1 he with rfl | he'
          · exact absurd he1 c2
          · exact ⟨e, he', he1, he2⟩
        rw [heq, hrun]
        exact ih st1 (fun e he => hkeys e (List.mem_cons_of_mem _ he)) r4
          (by rw [r1, hstk]) hfresh1 hwit1
    · have heq : dfsSweep A D fuel (nd :: rest) st =
          dfsSweep A D fuel rest st := by
        simp only [dfsSweep]
        rw [if_neg hguard]
      have hwit1 : ∃ e ∈ rest, e.1 ∈ Z ∧ 0 < e.2 := by
        obtain ⟨e, he, he1, he2⟩ := hwit
        rcases List.mem_cons.1 he with rfl | he'
        · exact absurd ⟨he2, hfresh e.1 he1⟩ hguard
        · exact ⟨e, he', he1, he2⟩
      rw [heq]
      exact ih st (fun e he => hkeys e (List.mem_cons_of_mem _ he)) hinv hstk
        hfresh hwit1

/-- C2: the cycle flag of `topo_sort` is `true` exactly when the
prerequisite relation has a directed cycle; a raised flag always comes with
a stored exemplar — a code sequence of length at least two with equal first
and last elements whose every consecutive pair is a recorded prerequisite
edge. -/
theorem topo_cycle_flag (m : PMaPModel) (hm : Reachable m) :
    (m.topo_sort.2.1 = true ↔ HasCycleP m) ∧
    (m.topo_sort.2.1 = true →
      ∃ l, m.topo_sort.2.2 = some l ∧ IsClosedWalk m l) := by
  have h := reachable_wf hm
  obtain ⟨hnd, hsub, -, hkeys, hval, hmem⟩ := kahn_facts h
  have hNnd : (catalog m).Nodup := h.coursesNodup
  have hDnd : (dkeys (kahnRun m).2).Nodup := by rw [hkeys]; exact hNnd
  -- a raised flag yields a leftover catalog code
  have hleft : m.topo_sort.2.1 = true → ∃ v ∈ catalog m, v ∉ (kahnRun m).1 := by
    intro hf
    rw [topo_sort_flag] at hf
    have hne : (kahnRun m).1.length ≠ (kahnRun m).2.length :=
      of_decide_eq_true hf
    by_contra hnc
    push_neg at hnc
    exact hne ((kahn_complete_iff h).2 hnc)
  have hiff : m.topo_sort.2.1 = true ↔ HasCycleP m := by
    constructor
    · intro hf
      obtain ⟨l, -, hcw⟩ := leftover_cycle h (hleft hf)
      exact ⟨l, hcw⟩
    · intro hcy
      by_contra hne
      have hf : m.topo_sort.2.1 = false := by
        cases hb : m.topo_sort.2.1
        · rfl
        · exact absurd hb hne
      exact not_hasCycle_of_flag h hf hcy
  refine ⟨hiff, ?_⟩
  intro hf
  -- the residual cycle, at adjacency level
  obtain ⟨l, hlmem, hlcw⟩ := leftover_cycle h (hleft hf)
  obtain ⟨hllen, hlcl, hlchain⟩ := hlcw
  have hZc : List.Chain' (fun x y => y ∈ dgetd m.build_graph.1 x []) l :=
    hlchain.imp fun a b hab => (adj_mem_iff h a b).2 hab
  have hZres : ∀ x ∈ l, 0 < dgetd (kahnRun m).2 x 0 := by
    intro x hx
    obtain ⟨hxN, hxno⟩ := hlmem x hx
    rw [hval x]
    have hnz : countRem m (kahnRun m).1 x ≠ 0 := by
      intro h0
      exact hxno ((hmem x hxN).2 (countRem_eq_zero.1 h0))
    have hge := countRem_nonneg m (kahnRun m).1 x
    omega
  -- a witness entry in the indegree map
  obtain ⟨z0, hz0⟩ : ∃ z0, z0 ∈ l := by
    cases l with
    | nil => simp at hllen
    | cons a t => exact ⟨a, List.mem_cons_self _ _⟩
  have hz0N : z0 ∈ catalog m := (hlmem z0 hz0).1
  have hz0k : z0 ∈ dkeys (kahnRun m).2 := by rw [hkeys]; exact hz0N
  have hz0ent : (z0, dgetd (kahnRun m).2 z0 0) ∈ (kahnRun m).2 :=
    (mem_iff_dfind hDnd).2 (dfind_eq_dgetd 0 hz0k)
  -- run the sweep
  have hA : ∀ x : String, ∀ c ∈ dgetd m.build_graph.1 x [], c ∈ catalog m :=
    fun x => (adj_values_wf h x).2
  have hklen : (kahnRun m).2.length = (catalog m).length := by
    rw [← hkeys]
    exact (List.length_map (kahnRun m).2 Prod.fst).symm
  have hsweep := dfs_sweep_complete m.build_graph.1 (kahnRun m).2 (catalog m)
    hA hNnd ((kahnRun m).2.length + 1) (by omega) hZc hlcl hllen hZres
    (kahnRun m).2 ⟨[], [], [], none⟩
    (fun e he => by
      rw [← hkeys]
      exact List.mem_map_of_mem Prod.fst he)
    ⟨fun x hx => absurd hx (List.not_mem_nil x), List.nodup_nil,
      fun x hx => absurd hx (List.not_mem_nil x), List.nodup_nil,
      List.chain'_nil⟩
    rfl (fun x _ => List.not_mem_nil x)
    ⟨(z0, dgetd (kahnRun m).2 z0 0), hz0ent, hz0, hZres z0 hz0⟩
  obtain ⟨lc, hlc1, hlc2, hlc3, hlc4⟩ := hsweep
  refine ⟨lc, ?_, hlc2, hlc3, hlc4.imp fun a b hab => (adj_mem_iff h a b).1 hab⟩
  rw [topo_sort_cycle, if_pos hf]
  exact hlc1

theorem topo_cycle_flag_witness :
    (cycleModel.topo_sort.2.1 = true ↔ HasCycleP cycleModel) ∧
    (cycleModel.topo_sort.2.1 = true →
      ∃ l, cycleModel.topo_sort.2.2 = some l ∧ IsClosedWalk cycleModel l) :=
  topo_cycle_flag cycleModel
    (Reachable.from_dict
      { courses := [⟨"A", "A", 1⟩, ⟨"B", "B", 1⟩, ⟨"C", "C", 1⟩, ⟨"D", "D", 1⟩]
        prerequisites := [("A", "B"), ("B", "C"), ("C", "A")]
        passed := [] })

end PMaP
